import Mathlib

/-!
# Rate limiters: a shallow embedding of `limiter_models`

The Go sources are embedded as pure functions on explicit state.

* Go `uint` and `int` are 64-bit words.  They are modelled as `Nat` and `Int`
  with the wrap-around written out (`wrapUint`, `wrapInt`) at the additions,
  subtractions and multiplications of the source.  The decrement `tokens--`
  runs only when `tokens > 0` and is exact.
* `time.Time` values are modelled by their monotonic clock reading in
  nanoseconds (an `Int`); `time.Now()` becomes an explicit argument `now`.
  Two monotonic readings are non-negative `int64` values, so `Time.Sub`
  never saturates and is plain subtraction.
* The sliding limiters read the wall clock, `time.Now().UnixNano()`: an
  `int64` count of nanoseconds since 1970, again an argument `now`.  Their
  arithmetic on `int64` is written with `goDiv`, `goMod`, `goMul`, `goSub`.
* A Go map is the list of its entries; the order of the list stands for the
  order in which a `range` loop meets them.
* A constructor returns a `GoResult`: a panic, an error or a value.
* The strategy objects of the sliding log are reached through pointers.  The
  section `Shared` keeps them in a store, a pointer being a position in it;
  the definitions on strategy values are that code with the pointers followed
  (`Shared.tryAcquire_deref`, `Shared.newSlidingLogLimiter_deref`).
* A mutex-protected critical section is one atomic step of the model.
* Ghost data records what a run did: the counters `invoked` and `fired` of the
  throttle, the list of positions called by `Wait`, the log of `logged`
  members.  It does not influence the run.
-/

namespace RateLimiters

/-! ## Machine integers -/

/-- Number of values of a Go `uint` (64-bit word): `2 ^ 64`. -/
def uintMod : Nat := 18446744073709551616

/-- Result of an unsigned Go operation whose mathematical value is `x`. -/
def wrapUint (x : Nat) : Nat := x % uintMod

/-- Smallest Go `int`: `-2 ^ 63`. -/
def intMin : Int := -9223372036854775808

/-- Largest Go `int`: `2 ^ 63 - 1`. -/
def intMax : Int := 9223372036854775807

/-- Result of a signed Go operation whose mathematical value is `x`
(two's complement wrap-around): `(x + 2 ^ 63) % 2 ^ 64 - 2 ^ 63`. -/
def wrapInt (x : Int) : Int :=
  (x + 9223372036854775808) % 18446744073709551616 - 9223372036854775808

/-- The value `x` is representable as a Go `int`. -/
def IsInt (x : Int) : Prop := intMin ≤ x ∧ x ≤ intMax

instance (x : Int) : Decidable (IsInt x) :=
  inferInstanceAs (Decidable (intMin ≤ x ∧ x ≤ intMax))

/-- Go's `maxInt` helper of `leaky-bucket-limiter.go`. -/
def maxInt (a b : Int) : Int := if a > b then a else b

/-- One second as a `time.Duration` (nanoseconds). -/
def second : Int := 1000000000

/-- The duration `t.Sub(u)` between two monotonic clock readings. -/
def timeSub (t u : Int) : Int := t - u

/-! ## Token bucket: `simple_throttle.Throttle` -/

/-- Go `error` values that occur in the throttle. -/
inductive GoError where
  | canceled
  | deadlineExceeded
  | errorf (msg : String)
  deriving DecidableEq

/-- A `context.Context` as the throttle sees it: the value of `ctx.Err()`. -/
structure Context where
  err : Option GoError
  deriving DecidableEq

/-- The pair `(string, error)` returned by an effector. -/
abbrev Reply := String × Option GoError

/-- The type `Effector func(context.Context) (string, error)`; the effector
may read and change an outside world of type `σ`. -/
abbrev Effector (σ : Type) := Context → σ → Reply × σ

/-- State of the refill goroutine: `once.Do` has not run yet, the goroutine is
looping on the ticker, or it has returned after `ctx.Done()`. -/
inductive Ticker where
  | idle
  | running
  | stopped
  deriving DecidableEq

/-- The closure returned by `Throttle`: the captured parameters `e`, `max`,
`refill`, `d`, the captured variable `tokens`, the state of `once` and of
the goroutine, the outside world of the effector, and two ghost counters:
`invoked` counts executions of `e(ctx)`, `fired` counts executed refill
ticks. -/
structure Throttled (σ : Type) where
  e : Effector σ
  max : Nat
  refill : Nat
  d : ℕ+
  tokens : Nat
  ticker : Ticker
  world : σ
  invoked : Nat
  fired : Nat

/-- The closure built by `Throttle(e, max, refill, d)`: `var tokens = max`,
`once` not yet done, no goroutine.  The period `d` (nanoseconds) is handed to
`time.NewTicker`, which accepts positive durations only, hence its type; the
ticks themselves are events of the model.  The argument `w` is the outside
world the effector starts in. -/
def Throttle {σ : Type} (e : Effector σ) (max refill : Nat) (d : ℕ+) (w : σ) :
    Throttled σ :=
  { e := e, max := max, refill := refill, d := d, tokens := max,
    ticker := Ticker.idle, world := w, invoked := 0, fired := 0 }

namespace Throttled

variable {σ : Type}

/-- The body of `once.Do`: the first execution creates the ticker and starts
the goroutine, later executions do nothing. -/
def start (c : Throttled σ) : Throttled σ :=
  match c.ticker with
  | Ticker.idle => { c with ticker := Ticker.running }
  | _ => c

/-- The part of a call before the lock: the `ctx.Err()` check and `once.Do`.
Returns the early reply, if any. -/
def prologue (c : Throttled σ) (ctx : Context) : Option Reply × Throttled σ :=
  match ctx.err with
  | some err => (some ("", some err), c)
  | none => (none, c.start)

/-- The critical section of a call, `m.Lock()` to the deferred `m.Unlock()`. -/
def locked (c : Throttled σ) (ctx : Context) : Reply × Throttled σ :=
  if c.tokens ≤ 0 then
    (("", some (GoError.errorf "too many calls")), c)
  else
    let r := c.e ctx c.world
    (r.1, { c with tokens := c.tokens - 1, world := r.2, invoked := c.invoked + 1 })

/-- One whole call of the closure, run without interruption. -/
def call (c : Throttled σ) (ctx : Context) : Reply × Throttled σ :=
  match c.prologue ctx with
  | (some r, c1) => (r, c1)
  | (none, c1) => c1.locked ctx

/-- The `case <-ticker.C` branch of the goroutine; it exists only while the
goroutine is running. -/
def tick (c : Throttled σ) : Throttled σ :=
  match c.ticker with
  | Ticker.running =>
    let t := wrapUint (c.tokens + c.refill)
    let t := if t > c.max then c.max else t
    { c with tokens := t, fired := c.fired + 1 }
  | _ => c

/-- The `case <-ctx.Done()` branch of the goroutine: it returns. -/
def done (c : Throttled σ) : Throttled σ :=
  match c.ticker with
  | Ticker.running => { c with ticker := Ticker.stopped }
  | _ => c

end Throttled

/-- What can happen to a throttle: a whole call, the two halves of a call
(other steps may come between them when callers and the goroutine run
concurrently), a refill tick, and the goroutine observing `ctx.Done()`. -/
inductive Event where
  | call (ctx : Context)
  | prologue (ctx : Context)
  | locked (ctx : Context)
  | tick
  | done
  deriving DecidableEq

/-- One event applied to a throttle. -/
def Throttled.step {σ : Type} (c : Throttled σ) : Event → Throttled σ
  | Event.call ctx => (c.call ctx).2
  | Event.prologue ctx => (c.prologue ctx).2
  | Event.locked ctx => (c.locked ctx).2
  | Event.tick => c.tick
  | Event.done => c.done

/-- The quantities the invariants speak about, before and after one event. -/
structure Throttled.StepFacts {σ : Type} (c c2 : Throttled σ) : Prop where
  max_eq : c2.max = c.max
  refill_eq : c2.refill = c.refill
  tokens_le : c.tokens ≤ c.max → c2.tokens ≤ c.max
  budget : c2.invoked + c2.tokens ≤ c.invoked + c.tokens + c.refill * (c2.fired - c.fired)
  fired_ge : c.fired ≤ c2.fired
  fired_le : c2.fired ≤ c.fired + 1

/-- A sequence of events applied in order. -/
def Throttled.run {σ : Type} (c : Throttled σ) (evs : List Event) : Throttled σ :=
  evs.foldl Throttled.step c

/-- A sequence of whole calls; returns the replies in order and the final
throttle. -/
def Throttled.calls {σ : Type} (c : Throttled σ) : List Context → List Reply × Throttled σ
  | [] => ([], c)
  | ctx :: rest =>
    let r := c.call ctx
    let rs := Throttled.calls r.2 rest
    (r.1 :: rs.1, rs.2)

/-- The bare effector called once for each context in turn, with no throttle. -/
def runEffector {σ : Type} (e : Effector σ) (w : σ) : List Context → List Reply × σ
  | [] => ([], w)
  | ctx :: rest =>
    let r := e ctx w
    let rs := runEffector e r.2 rest
    (r.1 :: rs.1, rs.2)

/-- The reply of a throttled call that found no token. -/
def tooManyCalls : Reply := ("", some (GoError.errorf "too many calls"))

/-- The effector of the tests, `callsCountFunction`: the world is the call
counter. -/
def callsCountFunction : Effector Nat :=
  fun _ n => (("call " ++ toString (n + 1), none), n + 1)

/-- A context that is neither cancelled nor expired. -/
def liveCtx : Context := { err := none }

/-! ## Leaky bucket: `LeakyBucketLimiter` -/

/-- The fields of `LeakyBucketLimiter` (the mutex is the atomicity of a step). -/
structure LeakyBucketLimiter where
  peakLevel : Int
  currentLevel : Int
  currentVelocity : Int
  lastTime : Int
  deriving DecidableEq

/-- The constructor `NewLeakyBucketLimiter(peakLevel, currentVelocity)` called
at clock reading `now`. -/
def NewLeakyBucketLimiter (peakLevel currentVelocity now : Int) : LeakyBucketLimiter :=
  { peakLevel := peakLevel, currentLevel := 0, currentVelocity := currentVelocity,
    lastTime := now }

namespace LeakyBucketLimiter

/-- The first half of `TryAcquire`: the block guarded by
`interval >= time.Second`. -/
def drain (l : LeakyBucketLimiter) (now : Int) : LeakyBucketLimiter :=
  let interval := timeSub now l.lastTime
  if interval ≥ second then
    { l with
      currentLevel :=
        maxInt 0 (wrapInt (l.currentLevel
          - wrapInt (Int.tdiv interval second * l.currentVelocity))),
      lastTime := now }
  else l

/-- The method `(*LeakyBucketLimiter).TryAcquire` with `time.Now()` returning
`now`. -/
def TryAcquire (l : LeakyBucketLimiter) (now : Int) : Bool × LeakyBucketLimiter :=
  let l1 := l.drain now
  if l1.currentLevel ≥ l1.peakLevel then
    (false, l1)
  else
    (true, { l1 with currentLevel := wrapInt (l1.currentLevel + 1) })

/-- Successive `TryAcquire` calls at the given clock readings. -/
def tryAcquireAll (l : LeakyBucketLimiter) : List Int → List Bool × LeakyBucketLimiter
  | [] => ([], l)
  | now :: rest =>
    let r := l.TryAcquire now
    let rs := tryAcquireAll r.2 rest
    (r.1 :: rs.1, rs.2)

/-- Every `int` field holds a value of the type. -/
def WF (l : LeakyBucketLimiter) : Prop :=
  IsInt l.peakLevel ∧ IsInt l.currentLevel ∧ IsInt l.currentVelocity

instance (l : LeakyBucketLimiter) : Decidable l.WF :=
  inferInstanceAs (Decidable (IsInt l.peakLevel ∧ IsInt l.currentLevel ∧ IsInt l.currentVelocity))

end LeakyBucketLimiter

/-! ## Fixed window: `FixedWindowLimiter` -/

/-- The fields of `FixedWindowLimiter`. -/
structure FixedWindowLimiter where
  limit : Int
  window : Int
  counter : Int
  lastTime : Int
  deriving DecidableEq

/-- The constructor `NewFixedWindowLimiter(limit, window)` called at clock
reading `now`. -/
def NewFixedWindowLimiter (limit window now : Int) : FixedWindowLimiter :=
  { limit := limit, window := window, counter := 0, lastTime := now }

namespace FixedWindowLimiter

/-- The method `(*FixedWindowLimiter).TryAcquire` with `time.Now()` returning
`now`. -/
def TryAcquire (l : FixedWindowLimiter) (now : Int) : Bool × FixedWindowLimiter :=
  let l1 : FixedWindowLimiter :=
    if timeSub now l.lastTime > l.window then
      { l with counter := 0, lastTime := now }
    else l
  if l1.counter ≥ l1.limit then
    (false, l1)
  else
    (true, { l1 with counter := wrapInt (l1.counter + 1) })

/-- Successive `TryAcquire` calls at the given clock readings. -/
def tryAcquireAll (l : FixedWindowLimiter) : List Int → List Bool × FixedWindowLimiter
  | [] => ([], l)
  | now :: rest =>
    let r := l.TryAcquire now
    let rs := tryAcquireAll r.2 rest
    (r.1 :: rs.1, rs.2)

/-- Every `int` field holds a value of the type. -/
def WF (l : FixedWindowLimiter) : Prop :=
  IsInt l.limit ∧ IsInt l.counter

instance (l : FixedWindowLimiter) : Decidable l.WF :=
  inferInstanceAs (Decidable (IsInt l.limit ∧ IsInt l.counter))

end FixedWindowLimiter

/-! ## Go `int64` arithmetic -/

/-- Go's quotient `a / b` on `int64` for `b ≠ 0`: truncated towards zero; the
one quotient that leaves the type, `-2 ^ 63 / -1`, wraps around. -/
def goDiv (a b : Int) : Int := wrapInt (Int.tdiv a b)

/-- Go's remainder `a % b` on `int64` for `b ≠ 0`: it has the sign of `a`. -/
def goMod (a b : Int) : Int := Int.tmod a b

/-- Go's product `a * b` on `int64`. -/
def goMul (a b : Int) : Int := wrapInt (a * b)

/-- Go's difference `a - b` on `int64`. -/
def goSub (a b : Int) : Int := wrapInt (a - b)

/-- What a Go constructor call can do: panic at run time, return an error, or
return a value. -/
inductive GoResult (α : Type) where
  | panicked
  | failed (msg : String)
  | ok (val : α)

/-! ## Counter maps: `map[int64]int` -/

/-- A Go `map[int64]int` as the list of its entries (key, count), one entry
for each key.  The order of the list stands for the order in which a `range`
loop meets the entries; the outcome of a call does not depend on it
(`tryAcquire_perm`, `slidingLog_tryAcquire_perm`). -/
abbrev Counters := List (Int × Int)

/-- The entry of key `k`, if the map has one. -/
def Counters.get (m : Counters) (k : Int) : Option Int :=
  match m with
  | [] => none
  | (k1, c) :: rest => if k1 = k then some c else Counters.get rest k

/-- The statement `m[k]++`: a missing key is read as 0 and inserted. -/
def Counters.incr (m : Counters) (k : Int) : Counters :=
  match m with
  | [] => [(k, wrapInt (0 + 1))]
  | (k1, c) :: rest =>
    if k1 = k then (k1, wrapInt (c + 1)) :: rest else (k1, c) :: Counters.incr rest k

/-! ## Sliding window: `SlidingWindowLimiter` -/

/-- The fields of `SlidingWindowLimiter`. -/
structure SlidingWindowLimiter where
  limit : Int
  window : Int
  smallWindow : Int
  smallWindows : Int
  counters : Counters
  deriving DecidableEq

/-- The constructor `NewSlidingWindowLimiter(limit, window, smallWindow)`.
With `smallWindow = 0` the remainder `window % smallWindow` panics. -/
def NewSlidingWindowLimiter (limit window smallWindow : Int) :
    GoResult SlidingWindowLimiter :=
  if smallWindow = 0 then GoResult.panicked
  else if goMod window smallWindow ≠ 0 then
    GoResult.failed "window cannot be split by integers"
  else
    GoResult.ok
      { limit := limit, window := window, smallWindow := smallWindow,
        smallWindows := goDiv window smallWindow, counters := [] }

namespace SlidingWindowLimiter

/-- The `range` loop of `TryAcquire`: entries older than `start` are deleted,
the counts of the others are added to `count`. -/
def sweep (start : Int) (m : Counters) (count : Int) : Counters × Int :=
  match m with
  | [] => ([], count)
  | (k, c) :: rest =>
    if k < start then sweep start rest count
    else ((k, c) :: (sweep start rest (wrapInt (count + c))).1,
          (sweep start rest (wrapInt (count + c))).2)

/-- The method `(*SlidingWindowLimiter).TryAcquire` with
`time.Now().UnixNano()` returning `now`. -/
def TryAcquire (l : SlidingWindowLimiter) (now : Int) : Bool × SlidingWindowLimiter :=
  let currentSmallWindow := goMul (goDiv now l.smallWindow) l.smallWindow
  let startSmallWindow :=
    goSub currentSmallWindow (goMul l.smallWindow (goSub l.smallWindows 1))
  let r := sweep startSmallWindow l.counters 0
  if r.2 ≥ l.limit then
    (false, { l with counters := r.1 })
  else
    (true, { l with counters := Counters.incr r.1 currentSmallWindow })

/-- Successive `TryAcquire` calls at the given clock readings. -/
def tryAcquireAll (l : SlidingWindowLimiter) : List Int → List Bool × SlidingWindowLimiter
  | [] => ([], l)
  | now :: rest =>
    let r := l.TryAcquire now
    let rs := tryAcquireAll r.2 rest
    (r.1 :: rs.1, rs.2)

/-- A sliding window as the constructor builds it from the recognised
options `window ≥ smallWindow > 0`. -/
def Configured (l : SlidingWindowLimiter) : Prop :=
  0 < l.smallWindow ∧ l.smallWindow ≤ l.window ∧ l.window ≤ intMax ∧
  l.window = l.smallWindows * l.smallWindow

instance (l : SlidingWindowLimiter) : Decidable l.Configured :=
  inferInstanceAs (Decidable (0 < l.smallWindow ∧ l.smallWindow ≤ l.window ∧
    l.window ≤ intMax ∧ l.window = l.smallWindows * l.smallWindow))

/-- A configured sliding window whose `limit` is an `int` and whose counter
list is a map (one entry for each key) of non-negative counts with a sum that
is an `int`. -/
def WF (l : SlidingWindowLimiter) : Prop :=
  l.Configured ∧ IsInt l.limit ∧ (l.counters.map Prod.fst).Nodup ∧
  (∀ e ∈ l.counters, 0 ≤ e.2) ∧ (l.counters.map Prod.snd).sum ≤ intMax

instance (l : SlidingWindowLimiter) : Decidable l.WF :=
  inferInstanceAs (Decidable (l.Configured ∧ IsInt l.limit ∧
    (l.counters.map Prod.fst).Nodup ∧
    (∀ e ∈ l.counters, 0 ≤ e.2) ∧ (l.counters.map Prod.snd).sum ≤ intMax))

end SlidingWindowLimiter

/-! ## Sliding log: `SlidingLogLimiter` -/

/-- The fields of `ViolationStrategyError`. -/
structure ViolationStrategyError where
  Limit : Int
  Window : Int
  deriving DecidableEq

/-- The fields of `SlidingLogLimiterStrategy`: one strategy object. -/
structure SlidingLogLimiterStrategy where
  limit : Int
  window : Int
  smallWindows : Int
  deriving DecidableEq

/-- The object that `NewSlidingLogLimiterStrategy(limit, window)` makes.  The Go
function returns a pointer to it: `Shared.NewSlidingLogLimiterStrategy`. -/
def NewSlidingLogLimiterStrategy (limit window : Int) : SlidingLogLimiterStrategy :=
  { limit := limit, window := window, smallWindows := 0 }

/-- The fields of `SlidingLogLimiter`, with every pointer of `strategies`
replaced by the object it leads to at the moment the limiter is looked at.
The Go struct holds the pointers, and the objects can change behind them:
`Shared.SlidingLogLimiter` and `Shared.SlidingLogLimiter.deref`. -/
structure SlidingLogLimiter where
  strategies : List SlidingLogLimiterStrategy
  smallWindow : Int
  counters : Counters
  deriving DecidableEq

/-- The `less` function that `NewSlidingLogLimiter` hands to `sort.Slice`. -/
def strategyLess (a b : SlidingLogLimiterStrategy) : Bool :=
  if a.window = b.window then decide (a.limit > b.limit) else decide (a.window > b.window)

/-- In a slice sorted by `strategyLess`, `a` may stand before `b`: `b` is not
less than `a`. -/
def strategyBefore (a b : SlidingLogLimiterStrategy) : Prop := strategyLess b a = false

instance : DecidableRel strategyBefore :=
  fun a b => inferInstanceAs (Decidable (strategyLess b a = false))

/-- The call `sort.Slice(strategies, less)`.  `sort.Slice` returns some
permutation sorted by `less`; all of them list the same windows and limits in
the same order, and this is one of them. -/
def sortStrategies (strategies : List SlidingLogLimiterStrategy) :
    List SlidingLogLimiterStrategy :=
  strategies.insertionSort strategyBefore

/-- The checking loop of `NewSlidingLogLimiter` from position `i` on; `prev` is
`strategies[i-1]` when `i > 0`.  With `smallWindow = 0` the remainder panics.
The strategies are the objects behind the pointers, and the result lists them
as the assignment to `strategy.smallWindows` leaves them when the loop ends
without an error.  The assignment itself goes through the pointer of the
caller and stays when a later check fails: `Shared.checkStrategies`. -/
def checkStrategies (smallWindow : Int) (prev : Option SlidingLogLimiterStrategy)
    (strategies : List SlidingLogLimiterStrategy) : GoResult (List SlidingLogLimiterStrategy) :=
  match strategies with
  | [] => GoResult.ok []
  | s :: rest =>
    if (match prev with
        | some p => decide (s.limit ≥ p.limit)
        | none => false) = true then
      GoResult.failed "the smaller window should be the smaller limit"
    else if smallWindow = 0 then GoResult.panicked
    else if goMod s.window smallWindow ≠ 0 then
      GoResult.failed "window cannot be split by integers"
    else
      match checkStrategies smallWindow (some s) rest with
      | GoResult.ok r =>
        GoResult.ok ({ s with smallWindows := goDiv s.window smallWindow } :: r)
      | GoResult.failed msg => GoResult.failed msg
      | GoResult.panicked => GoResult.panicked

/-- The constructor `NewSlidingLogLimiter(smallWindow, strategies...)` on the
objects behind its arguments: the limiter it returns, with the pointers
followed right after the call (`Shared.newSlidingLogLimiter_deref`).  The
limiter keeps the pointers of the caller; what a later constructor call on the
same objects does to it is in `Shared.NewSlidingLogLimiter`. -/
def NewSlidingLogLimiter (smallWindow : Int) (strategies : List SlidingLogLimiterStrategy) :
    GoResult SlidingLogLimiter :=
  if strategies.length = 0 then GoResult.failed "must be set strategies"
  else
    match checkStrategies smallWindow none (sortStrategies strategies) with
    | GoResult.ok r =>
      GoResult.ok { strategies := r, smallWindow := smallWindow, counters := [] }
    | GoResult.failed msg => GoResult.failed msg
    | GoResult.panicked => GoResult.panicked

namespace SlidingLogLimiter

/-- The inner loop `for i := range l.strategies` for one map entry: its count
is added to every strategy whose window holds the key. -/
def bump (starts : List Int) (k c : Int) (counts : List Int) : List Int :=
  List.zipWith (fun st cnt => if k ≥ st then wrapInt (cnt + c) else cnt) starts counts

/-- The `range` loop of `TryAcquire` over the map: entries older than
`startSmallWindows[0]` are deleted, the others are counted.  The index
expression needs a strategy; `NewSlidingLogLimiter` never returns a limiter
without one. -/
def sweep (starts : List Int) (m : Counters) (counts : List Int) : Counters × List Int :=
  match m with
  | [] => ([], counts)
  | (k, c) :: rest =>
    if k < starts.headD 0 then sweep starts rest counts
    else ((k, c) :: (sweep starts rest (bump starts k c counts)).1,
          (sweep starts rest (bump starts k c counts)).2)

/-- The count that the `range` loop builds for one strategy with window start
`st`, when `s0` is `startSmallWindows[0]`: the part of `sweep` that concerns
this strategy. -/
def countOne (s0 st : Int) (m : Counters) (cnt : Int) : Int :=
  match m with
  | [] => cnt
  | (k, c) :: rest =>
    if k < s0 then countOne s0 st rest cnt
    else countOne s0 st rest (if k ≥ st then wrapInt (cnt + c) else cnt)

/-- The last loop of `TryAcquire`: the error of the first strategy whose
count has reached its limit. -/
def firstViolation (strategies : List SlidingLogLimiterStrategy) (counts : List Int) :
    Option ViolationStrategyError :=
  match strategies, counts with
  | s :: ss, c :: cs =>
    if c ≥ s.limit then some { Limit := s.limit, Window := s.window }
    else firstViolation ss cs
  | _, _ => none

/-- The method `(*SlidingLogLimiter).TryAcquire` with `time.Now().UnixNano()`
returning `now`; `none` is the `nil` error. -/
def TryAcquire (l : SlidingLogLimiter) (now : Int) :
    Option ViolationStrategyError × SlidingLogLimiter :=
  let currentSmallWindow := goMul (goDiv now l.smallWindow) l.smallWindow
  let startSmallWindows := l.strategies.map (fun strategy =>
    goSub currentSmallWindow (goMul l.smallWindow (goSub strategy.smallWindows 1)))
  let r := sweep startSmallWindows l.counters (List.replicate l.strategies.length 0)
  match firstViolation l.strategies r.2 with
  | some err => (some err, { l with counters := r.1 })
  | none => (none, { l with counters := Counters.incr r.1 currentSmallWindow })

/-- Successive `TryAcquire` calls at the given clock readings. -/
def tryAcquireAll (l : SlidingLogLimiter) :
    List Int → List (Option ViolationStrategyError) × SlidingLogLimiter
  | [] => ([], l)
  | now :: rest =>
    let r := l.TryAcquire now
    let rs := tryAcquireAll r.2 rest
    (r.1 :: rs.1, rs.2)

/-- A sliding log as the constructor builds it from the recognised options:
`smallWindow > 0`, at least one strategy, every window a positive multiple of
`smallWindow`, the strategies stored widest first with strictly falling
limits. -/
def Configured (l : SlidingLogLimiter) : Prop :=
  0 < l.smallWindow ∧ l.strategies ≠ [] ∧
  (∀ s ∈ l.strategies, l.smallWindow ≤ s.window ∧ s.window ≤ intMax ∧
    s.window = s.smallWindows * l.smallWindow) ∧
  l.strategies.Pairwise (fun a b => b.window ≤ a.window) ∧
  l.strategies.Pairwise (fun a b => b.limit < a.limit)

/-- A configured sliding log whose limits are `int` values and whose counter
list is a map of non-negative counts with a sum that is an `int`. -/
def WF (l : SlidingLogLimiter) : Prop :=
  l.Configured ∧ (∀ s ∈ l.strategies, IsInt s.limit) ∧
  (l.counters.map Prod.fst).Nodup ∧
  (∀ e ∈ l.counters, 0 ≤ e.2) ∧ (l.counters.map Prod.snd).sum ≤ intMax

instance (l : SlidingLogLimiter) : Decidable l.Configured :=
  inferInstanceAs (Decidable (0 < l.smallWindow ∧ l.strategies ≠ [] ∧
    (∀ s ∈ l.strategies, l.smallWindow ≤ s.window ∧ s.window ≤ intMax ∧
      s.window = s.smallWindows * l.smallWindow) ∧
    l.strategies.Pairwise (fun a b : SlidingLogLimiterStrategy => b.window ≤ a.window) ∧
    l.strategies.Pairwise (fun a b : SlidingLogLimiterStrategy => b.limit < a.limit)))

instance (l : SlidingLogLimiter) : Decidable l.WF :=
  inferInstanceAs (Decidable (l.Configured ∧ (∀ s ∈ l.strategies, IsInt s.limit) ∧
    (l.counters.map Prod.fst).Nodup ∧
    (∀ e ∈ l.counters, 0 ≤ e.2) ∧ (l.counters.map Prod.snd).sum ≤ intMax))

end SlidingLogLimiter

/-! ## Sliding log: strategy objects shared through pointers

`NewSlidingLogLimiterStrategy` returns a pointer.  `NewSlidingLogLimiter`
copies the slice of pointers, not the objects, and its loop assigns
`strategy.smallWindows` in the object of the caller.  A strategy handed to two
constructor calls is one object, and the second call changes what the limiter
of the first call reads in `TryAcquire`.  Here the objects live in a store and
a pointer is a position in it. -/

namespace Shared

/-- The `SlidingLogLimiterStrategy` objects allocated so far.  A
`*SlidingLogLimiterStrategy` is the position of its object; a position outside
the store stands for `nil`. -/
abbrev Store := List SlidingLogLimiterStrategy

/-- The object behind the pointer `p`. -/
def Store.load (h : Store) (p : Nat) : SlidingLogLimiterStrategy :=
  h.getD p { limit := 0, window := 0, smallWindows := 0 }

/-- The function `NewSlidingLogLimiterStrategy(limit, window)`: the pointer to
a new object, and the store with that object. -/
def NewSlidingLogLimiterStrategy (h : Store) (limit window : Int) : Nat × Store :=
  (h.length, h ++ [RateLimiters.NewSlidingLogLimiterStrategy limit window])

/-- The fields of `SlidingLogLimiter`; `strategies` holds the pointers. -/
structure SlidingLogLimiter where
  strategies : List Nat
  smallWindow : Int
  counters : Counters
  deriving DecidableEq

/-- In a slice of pointers sorted by the `less` function of
`NewSlidingLogLimiter`, `a` may stand before `b`; `less` reads `window` and
`limit` through the pointers. -/
def pointerBefore (h : Store) (a b : Nat) : Prop :=
  strategyBefore (Store.load h a) (Store.load h b)

instance (h : Store) : DecidableRel (pointerBefore h) :=
  fun a b => inferInstanceAs (Decidable (strategyBefore (Store.load h a) (Store.load h b)))

/-- The checking loop of `NewSlidingLogLimiter` from position `i` on; `prev` is
`strategies[i-1]` when `i > 0`.  Every strategy that passes its checks gets
`smallWindows` assigned in the store, and the assignments made before a check
fails stay.  With `smallWindow = 0` the remainder panics. -/
def checkStrategies (smallWindow : Int) (prev : Option Nat) (strategies : List Nat)
    (h : Store) : GoResult Unit × Store :=
  match strategies with
  | [] => (GoResult.ok (), h)
  | p :: rest =>
    if (match prev with
        | some q => decide ((Store.load h p).limit ≥ (Store.load h q).limit)
        | none => false) = true then
      (GoResult.failed "the smaller window should be the smaller limit", h)
    else if smallWindow = 0 then (GoResult.panicked, h)
    else if goMod (Store.load h p).window smallWindow ≠ 0 then
      (GoResult.failed "window cannot be split by integers", h)
    else
      checkStrategies smallWindow (some p) rest
        (h.set p { Store.load h p with
          smallWindows := goDiv (Store.load h p).window smallWindow })

/-- The constructor `NewSlidingLogLimiter(smallWindow, strategies...)`: its
result and the store it leaves.  A `nil` among the strategies is dereferenced
by `less` when there are two strategies or more, and by the loop otherwise,
before any assignment: the call panics.  `sort.Slice` returns some permutation
sorted by `less`; this is one of them. -/
def NewSlidingLogLimiter (h : Store) (smallWindow : Int) (strategies : List Nat) :
    GoResult SlidingLogLimiter × Store :=
  if strategies.length = 0 then (GoResult.failed "must be set strategies", h)
  else if strategies.any (fun p => decide (h.length ≤ p)) = true then (GoResult.panicked, h)
  else
    match checkStrategies smallWindow none (strategies.insertionSort (pointerBefore h)) h with
    | (GoResult.ok _, h2) =>
      (GoResult.ok { strategies := strategies.insertionSort (pointerBefore h),
                     smallWindow := smallWindow, counters := [] }, h2)
    | (GoResult.failed msg, h2) => (GoResult.failed msg, h2)
    | (GoResult.panicked, h2) => (GoResult.panicked, h2)

namespace SlidingLogLimiter

/-- The limiter with its pointers followed in the store `h`. -/
def deref (l : SlidingLogLimiter) (h : Store) : RateLimiters.SlidingLogLimiter :=
  { strategies := l.strategies.map (Store.load h), smallWindow := l.smallWindow,
    counters := l.counters }

/-- The method `(*SlidingLogLimiter).TryAcquire` with `time.Now().UnixNano()`
returning `now`, in the store `h`: `strategy.smallWindows`, `strategy.limit`
and `strategy.window` are read through the pointers; the call changes the map
of the limiter and nothing in the store. -/
def TryAcquire (l : SlidingLogLimiter) (h : Store) (now : Int) :
    Option ViolationStrategyError × SlidingLogLimiter :=
  let currentSmallWindow := goMul (goDiv now l.smallWindow) l.smallWindow
  let startSmallWindows := l.strategies.map (fun strategy =>
    goSub currentSmallWindow
      (goMul l.smallWindow (goSub (Store.load h strategy).smallWindows 1)))
  let r := RateLimiters.SlidingLogLimiter.sweep startSmallWindows l.counters
    (List.replicate l.strategies.length 0)
  match RateLimiters.SlidingLogLimiter.firstViolation (l.strategies.map (Store.load h)) r.2 with
  | some err => (some err, { l with counters := r.1 })
  | none => (none, { l with counters := Counters.incr r.1 currentSmallWindow })

/-- Successive `TryAcquire` calls at the given clock readings, with no
constructor call between them. -/
def tryAcquireAll (l : SlidingLogLimiter) (h : Store) :
    List Int → List (Option ViolationStrategyError) × SlidingLogLimiter
  | [] => ([], l)
  | now :: rest =>
    let r := l.TryAcquire h now
    let rs := tryAcquireAll r.2 h rest
    (r.1 :: rs.1, rs.2)

end SlidingLogLimiter

end Shared

/-! ## Composite: `multiLimiter` -/

/-- The interface `RateLimiter`.  `Wait` may block, read the clock and change
the member: all that is a change of the world `σ`; `none` is the `nil` error.
`Limit` is the member's `rate.Limit`, with rates taken in a total order `R`;
no limiter of the repository changes its limit. -/
structure RateLimiter (σ R : Type) where
  Wait : Context → σ → Option GoError × σ
  Limit : R

/-- The fields of `multiLimiter`. -/
structure multiLimiter (σ R : Type) where
  limiters : List (RateLimiter σ R)

/-- The function `byLimit` that `MultiLimiter` hands to `sort.Slice`. -/
def byLimit {σ R : Type} [LinearOrder R] (a b : RateLimiter σ R) : Prop := a.Limit < b.Limit

/-- In a slice sorted by `byLimit`, `a` may stand before `b`: `b` is not less
than `a`. -/
def limitBefore {σ R : Type} [LinearOrder R] (a b : RateLimiter σ R) : Prop := ¬ byLimit b a

instance {σ R : Type} [LinearOrder R] : DecidableRel (limitBefore : RateLimiter σ R → _ → Prop) :=
  fun a b => inferInstanceAs (Decidable (¬ b.Limit < a.Limit))

/-- The function `MultiLimiter(limiters...)`.  `sort.Slice` returns some
permutation sorted by `byLimit`; this is one of them.  The result type has no
error. -/
def MultiLimiter {σ R : Type} [LinearOrder R] (limiters : List (RateLimiter σ R)) :
    multiLimiter σ R :=
  { limiters := limiters.insertionSort limitBefore }

/-- The loop of `(*multiLimiter).Wait` from position `i` on.  Beside the
returned error and the world it reports the positions of the members whose
`Wait` was called, in the order of the calls. -/
def waitFrom {σ R : Type} (ctx : Context) (i : Nat) (limiters : List (RateLimiter σ R))
    (w : σ) : (Option GoError × σ) × List Nat :=
  match limiters with
  | [] => ((none, w), [])
  | m :: rest =>
    match (m.Wait ctx w).1 with
    | some err => ((some err, (m.Wait ctx w).2), [i])
    | none =>
      ((waitFrom ctx (i + 1) rest (m.Wait ctx w).2).1,
        i :: (waitFrom ctx (i + 1) rest (m.Wait ctx w).2).2)

/-- The method `(*multiLimiter).Wait`. -/
def multiLimiter.Wait {σ R : Type} (l : multiLimiter σ R) (ctx : Context) (w : σ) :
    (Option GoError × σ) × List Nat :=
  waitFrom ctx 0 l.limiters w

/-- The method `(*multiLimiter).Limit`: `l.limiters[0].Limit()`, which panics
on an empty slice. -/
def multiLimiter.Limit {σ R : Type} (l : multiLimiter σ R) : GoResult R :=
  match l.limiters with
  | [] => GoResult.panicked
  | m :: _ => GoResult.ok m.Limit

/-- A composite as a member of another composite: `*multiLimiter` has the two
methods of `RateLimiter`.  Its `Limit()` is `l.limiters[0].Limit()`, which
panics on a composite without members; the outer `MultiLimiter` calls it when
it sorts. -/
def multiLimiter.asRateLimiter {σ R : Type} (l : multiLimiter σ R) :
    GoResult (RateLimiter σ R) :=
  match l.Limit with
  | GoResult.ok r => GoResult.ok { Wait := fun ctx w => (l.Wait ctx w).1, Limit := r }
  | GoResult.failed msg => GoResult.failed msg
  | GoResult.panicked => GoResult.panicked

/-- A member with a ghost log of the calls of `Wait`: the log is kept beside
the world, and `Wait` does what the `Wait` of `m` does and appends the number
`i` to the log. -/
def RateLimiter.logged {σ R : Type} (i : Nat) (m : RateLimiter σ R) :
    RateLimiter (σ × List Nat) R :=
  { Wait := fun ctx w => ((m.Wait ctx w.1).1, ((m.Wait ctx w.1).2, w.2 ++ [i])),
    Limit := m.Limit }

/-- The members numbered `i`, `i + 1`, ... in the order given, each with the
ghost log. -/
def loggedFrom {σ R : Type} (i : Nat) (ms : List (RateLimiter σ R)) :
    List (RateLimiter (σ × List Nat) R) :=
  (ms.enumFrom i).map (fun e => e.2.logged e.1)

/-! ## Relations and sums used in the statements -/

/-- The simulation: a sliding log whose one strategy has the parameters of a
sliding window, with the same sub-window size and the same counter map. -/
def Matches (ll : SlidingLogLimiter) (lw : SlidingWindowLimiter) : Prop :=
  ll.strategies = [{ limit := lw.limit, window := lw.window, smallWindows := lw.smallWindows }] ∧
  ll.smallWindow = lw.smallWindow ∧ ll.counters = lw.counters

/-- The sum of the counts of the entries with key at least `a`. -/
def Counters.sumFrom (m : Counters) (a : Int) : Int :=
  ((m.filter (fun e => decide (a ≤ e.1))).map Prod.snd).sum

/-! ## Traces -/

/-- The replies of the whole calls among the events, in order, and the final
throttle; the other events are applied and leave no reply here. -/
def Throttled.serve {σ : Type} : Throttled σ → List Event → List Reply × Throttled σ
  | c, [] => ([], c)
  | c, ev :: rest =>
    match ev with
    | Event.call ctx =>
      ((c.call ctx).1 :: (Throttled.serve (c.call ctx).2 rest).1,
        (Throttled.serve (c.call ctx).2 rest).2)
    | _ => Throttled.serve (c.step ev) rest

/-- The contexts of the whole calls among the events, in order. -/
def callContexts : List Event → List Context
  | [] => []
  | ev :: rest =>
    match ev with
    | Event.call ctx => ctx :: callContexts rest
    | _ => callContexts rest

/-- A trace made of whole calls with live contexts, of refill ticks and of
the end of the refill goroutine, with at most `k` calls in each period: before
the first tick, between two consecutive ticks, after the last tick.  The state
`tk` of the goroutine is followed along the trace, because only a running
goroutine receives a tick and starts a new period; after it has returned there
is no further tick.  The number `n` counts the calls already made in the
period in which the trace starts. -/
def sustained (k : Nat) : Ticker → Nat → List Event → Bool
  | _, _, [] => true
  | tk, n, ev :: rest =>
    match ev with
    | Event.call ctx =>
      decide (ctx.err = none) && decide (n < k) &&
        sustained k (if tk = Ticker.idle then Ticker.running else tk) (n + 1) rest
    | Event.tick => sustained k tk (if tk = Ticker.running then 0 else n) rest
    | Event.done => sustained k (if tk = Ticker.running then Ticker.stopped else tk) n rest
    | _ => false

/-- The numbers of whole calls in the periods that a tick closes, in order:
before the first tick and between two consecutive ticks.  The calls after the
last tick are in none of them.  The number `n` counts the calls already made
in the period in which the trace starts. -/
def closedPeriods : Nat → List Event → List Nat
  | _, [] => []
  | n, ev :: rest =>
    match ev with
    | Event.call _ => closedPeriods (n + 1) rest
    | Event.tick => n :: closedPeriods 0 rest
    | _ => closedPeriods n rest

/-- The clock readings of the admitted calls, from the readings of all calls
and their results in order. -/
def admitted (ts : List Int) (rs : List Bool) : List Int :=
  ((ts.zip rs).filter (fun p => p.2)).map Prod.fst

/-! ## Theorems: token bucket -/

section ThrottleLemmas

variable {σ : Type}

theorem Throttled.call_of_err (c : Throttled σ) (ctx : Context) (err : GoError)
    (h : ctx.err = some err) : c.call ctx = (("", some err), c) := by
  simp [Throttled.call, Throttled.prologue, h]

theorem Throttled.call_of_live (c : Throttled σ) (ctx : Context) (h : ctx.err = none) :
    c.call ctx = c.start.locked ctx := by
  simp [Throttled.call, Throttled.prologue, h]

theorem Throttled.start_tokens (c : Throttled σ) : c.start.tokens = c.tokens := by
  unfold Throttled.start; split <;> rfl

theorem Throttled.start_max (c : Throttled σ) : c.start.max = c.max := by
  unfold Throttled.start; split <;> rfl

theorem Throttled.start_refill (c : Throttled σ) : c.start.refill = c.refill := by
  unfold Throttled.start; split <;> rfl

theorem Throttled.start_invoked (c : Throttled σ) : c.start.invoked = c.invoked := by
  unfold Throttled.start; split <;> rfl

theorem Throttled.start_fired (c : Throttled σ) : c.start.fired = c.fired := by
  unfold Throttled.start; split <;> rfl

theorem Throttled.start_world (c : Throttled σ) : c.start.world = c.world := by
  unfold Throttled.start; split <;> rfl

theorem Throttled.start_e (c : Throttled σ) : c.start.e = c.e := by
  unfold Throttled.start; split <;> rfl

theorem Throttled.locked_facts (c : Throttled σ) (ctx : Context) :
    Throttled.StepFacts c (c.locked ctx).2 := by
  unfold Throttled.locked
  split
  · exact ⟨rfl, rfl, fun h => h, by simp, le_refl _, by simp⟩
  · rename_i h
    refine ⟨rfl, rfl, fun h => ?_, ?_, le_refl _, by simp⟩
    · show c.tokens - 1 ≤ c.max
      omega
    · show c.invoked + 1 + (c.tokens - 1) ≤ c.invoked + c.tokens + c.refill * (c.fired - c.fired)
      omega

theorem Throttled.start_facts (c : Throttled σ) : Throttled.StepFacts c c.start := by
  refine ⟨c.start_max, c.start_refill, fun h => ?_, ?_, ?_, ?_⟩
  · rw [c.start_tokens]; exact h
  · rw [c.start_tokens, c.start_invoked]; omega
  · rw [c.start_fired]
  · rw [c.start_fired]; omega

theorem Throttled.StepFacts.trans {a b c : Throttled σ} (h1 : Throttled.StepFacts a b)
    (h2 : Throttled.StepFacts b c) (hf : b.fired = a.fired) : Throttled.StepFacts a c := by
  refine ⟨h2.max_eq.trans h1.max_eq, h2.refill_eq.trans h1.refill_eq, fun h => ?_, ?_, ?_, ?_⟩
  · have := h1.tokens_le h
    have h3 := h2.tokens_le (by rw [h1.max_eq]; exact this)
    rw [h1.max_eq] at h3; exact h3
  · have b1 := h1.budget
    have b2 := h2.budget
    rw [h1.refill_eq, hf] at b2
    rw [hf] at b1
    simp at b1
    omega
  · rw [← hf]; exact h2.fired_ge
  · rw [← hf]; exact h2.fired_le

theorem Throttled.tick_facts (c : Throttled σ) : Throttled.StepFacts c c.tick := by
  unfold Throttled.tick
  split
  · refine ⟨rfl, rfl, fun _ => ?_, ?_, ?_, ?_⟩
    · show (if wrapUint (c.tokens + c.refill) > c.max then c.max
        else wrapUint (c.tokens + c.refill)) ≤ c.max
      split <;> omega
    · show c.invoked + (if wrapUint (c.tokens + c.refill) > c.max then c.max
        else wrapUint (c.tokens + c.refill)) ≤
        c.invoked + c.tokens + c.refill * (c.fired + 1 - c.fired)
      have hw : wrapUint (c.tokens + c.refill) ≤ c.tokens + c.refill := Nat.mod_le _ _
      have h1 : c.fired + 1 - c.fired = 1 := by omega
      rw [h1, Nat.mul_one]
      split <;> omega
    · show c.fired ≤ c.fired + 1
      omega
    · show c.fired + 1 ≤ c.fired + 1
      omega
  · exact ⟨rfl, rfl, fun h => h, by simp, le_refl _, by simp⟩

theorem Throttled.done_facts (c : Throttled σ) : Throttled.StepFacts c c.done := by
  unfold Throttled.done
  split
  · exact ⟨rfl, rfl, fun h => h, by simp, le_refl _, by simp⟩
  · exact ⟨rfl, rfl, fun h => h, by simp, le_refl _, by simp⟩

theorem Throttled.call_facts (c : Throttled σ) (ctx : Context) :
    Throttled.StepFacts c (c.call ctx).2 := by
  cases h : ctx.err with
  | some err =>
    rw [c.call_of_err ctx err h]
    exact ⟨rfl, rfl, fun h => h, by simp, le_refl _, by simp⟩
  | none =>
    rw [c.call_of_live ctx h]
    exact c.start_facts.trans (c.start.locked_facts ctx) c.start_fired

theorem Throttled.prologue_facts (c : Throttled σ) (ctx : Context) :
    Throttled.StepFacts c (c.prologue ctx).2 := by
  unfold Throttled.prologue
  split
  · exact ⟨rfl, rfl, fun h => h, by simp, le_refl _, by simp⟩
  · exact c.start_facts

theorem Throttled.step_facts (c : Throttled σ) (ev : Event) :
    Throttled.StepFacts c (c.step ev) := by
  cases ev with
  | call ctx => exact c.call_facts ctx
  | prologue ctx => exact c.prologue_facts ctx
  | locked ctx => exact c.locked_facts ctx
  | tick => exact c.tick_facts
  | done => exact c.done_facts

theorem Throttled.step_fired_of_ne_tick (c : Throttled σ) (ev : Event)
    (h : ev ≠ Event.tick) : (c.step ev).fired = c.fired := by
  cases ev with
  | call ctx =>
    show (c.call ctx).2.fired = c.fired
    cases hc : ctx.err with
    | some err => rw [c.call_of_err ctx err hc]
    | none =>
      rw [c.call_of_live ctx hc, ← c.start_fired]
      unfold Throttled.locked
      split <;> rfl
  | prologue ctx =>
    show (c.prologue ctx).2.fired = c.fired
    unfold Throttled.prologue
    split
    · rfl
    · exact c.start_fired
  | locked ctx =>
    show (c.locked ctx).2.fired = c.fired
    unfold Throttled.locked
    split <;> rfl
  | tick => exact absurd rfl h
  | done =>
    show c.done.fired = c.fired
    unfold Throttled.done
    split <;> rfl

theorem Throttled.run_cons (c : Throttled σ) (ev : Event) (evs : List Event) :
    c.run (ev :: evs) = (c.step ev).run evs := rfl

theorem Throttled.run_nil (c : Throttled σ) : c.run [] = c := rfl

/-- The invariants carried along a whole sequence of events. -/
theorem Throttled.run_facts (evs : List Event) : ∀ c : Throttled σ,
    (c.run evs).max = c.max ∧ (c.run evs).refill = c.refill ∧
    (c.tokens ≤ c.max → (c.run evs).tokens ≤ c.max) ∧
    (c.run evs).invoked + (c.run evs).tokens
      ≤ c.invoked + c.tokens + c.refill * ((c.run evs).fired - c.fired) ∧
    c.fired ≤ (c.run evs).fired ∧
    (c.run evs).fired ≤ c.fired + evs.count Event.tick := by
  induction evs with
  | nil =>
    intro c
    simp [Throttled.run_nil]
  | cons ev evs ih =>
    intro c
    rw [Throttled.run_cons]
    obtain ⟨hm, hr, ht, hb, hg, hl⟩ := ih (c.step ev)
    have f := c.step_facts ev
    have hcount : (c.step ev).fired + evs.count Event.tick
        ≤ c.fired + (ev :: evs).count Event.tick := by
      by_cases hev : ev = Event.tick
      · subst hev
        have := f.fired_le
        simp only [List.count_cons_self]
        omega
      · rw [c.step_fired_of_ne_tick ev hev, List.count_cons_of_ne (Ne.symm hev)]
    refine ⟨hm.trans f.max_eq, hr.trans f.refill_eq, fun h => ?_, ?_, ?_, ?_⟩
    · have h2 := ht (by rw [f.max_eq]; exact f.tokens_le h)
      rw [f.max_eq] at h2; exact h2
    · have b := f.budget
      have g := f.fired_ge
      rw [f.refill_eq] at hb
      have e1 : (c.run (ev :: evs)).fired = ((c.step ev).run evs).fired := rfl
      have e2 : c.refill * (((c.step ev).run evs).fired - c.fired)
          = c.refill * (((c.step ev).run evs).fired - (c.step ev).fired)
            + c.refill * ((c.step ev).fired - c.fired) := by
        rw [← Nat.mul_add]; congr 1; omega
      omega
    · exact le_trans f.fired_ge hg
    · exact le_trans hl hcount

theorem Throttled.call_live_pos (c : Throttled σ) (ctx : Context) (h : ctx.err = none)
    (hpos : 0 < c.tokens) :
    (c.call ctx).1 = (c.e ctx c.world).1 ∧ (c.call ctx).2.e = c.e ∧
    (c.call ctx).2.tokens = c.tokens - 1 ∧
    (c.call ctx).2.world = (c.e ctx c.world).2 ∧
    (c.call ctx).2.invoked = c.invoked + 1 := by
  rw [c.call_of_live ctx h]
  unfold Throttled.locked
  rw [if_neg (by rw [c.start_tokens]; omega)]
  simp only [c.start_tokens, c.start_e, c.start_world, c.start_invoked, and_self]

theorem Throttled.call_live_zero (c : Throttled σ) (ctx : Context) (h : ctx.err = none)
    (hzero : c.tokens = 0) :
    (c.call ctx).1 = tooManyCalls ∧ (c.call ctx).2.e = c.e ∧
    (c.call ctx).2.tokens = c.tokens ∧
    (c.call ctx).2.world = c.world ∧
    (c.call ctx).2.invoked = c.invoked := by
  rw [c.call_of_live ctx h]
  unfold Throttled.locked
  rw [if_pos (by rw [c.start_tokens]; omega)]
  exact ⟨rfl, c.start_e, c.start_tokens, c.start_world, c.start_invoked⟩

theorem Throttled.calls_cons (c : Throttled σ) (ctx : Context) (rest : List Context) :
    c.calls (ctx :: rest)
      = ((c.call ctx).1 :: ((c.call ctx).2.calls rest).1, ((c.call ctx).2.calls rest).2) :=
  rfl

theorem runEffector_cons (e : Effector σ) (w : σ) (ctx : Context) (rest : List Context) :
    runEffector e w (ctx :: rest)
      = ((e ctx w).1 :: (runEffector e (e ctx w).2 rest).1,
          (runEffector e (e ctx w).2 rest).2) :=
  rfl

/-- A run of whole calls with live contexts and no tick: the first
`c.tokens` calls are the bare effector, the others are refused. -/
theorem Throttled.calls_live (ctxs : List Context) : ∀ c : Throttled σ,
    (∀ ctx ∈ ctxs, ctx.err = none) →
    (c.calls ctxs).1 = (runEffector c.e c.world (ctxs.take c.tokens)).1
        ++ List.replicate (ctxs.length - c.tokens) tooManyCalls ∧
    (c.calls ctxs).2.world = (runEffector c.e c.world (ctxs.take c.tokens)).2 ∧
    (c.calls ctxs).2.invoked = c.invoked + min ctxs.length c.tokens ∧
    (c.calls ctxs).2.tokens = c.tokens - ctxs.length := by
  induction ctxs with
  | nil =>
    intro c _
    simp [Throttled.calls, runEffector]
  | cons ctx rest ih =>
    intro c hlive
    have hctx : ctx.err = none := hlive ctx (List.mem_cons_self _ _)
    have hrest : ∀ x ∈ rest, x.err = none := fun x hx => hlive x (List.mem_cons_of_mem _ hx)
    rw [Throttled.calls_cons]
    rcases Nat.eq_zero_or_pos c.tokens with hz | hp
    · obtain ⟨r1, re, rt, rw1, ri⟩ := c.call_live_zero ctx hctx hz
      obtain ⟨h1, h2, h3, h4⟩ := ih (c.call ctx).2 hrest
      rw [re, rw1, rt] at h1 h2
      rw [ri, rt] at h3
      rw [rt] at h4
      rw [hz] at h1 h2 h3 h4
      simp only [hz, List.take_zero, runEffector, Nat.sub_zero, List.length_cons,
        List.nil_append, List.replicate_succ] at h1 h2 ⊢
      refine ⟨by rw [h1, r1], h2, ?_, ?_⟩
      · rw [h3]; simp
      · rw [h4]; omega
    · obtain ⟨r1, re, rt, rw1, ri⟩ := c.call_live_pos ctx hctx hp
      obtain ⟨h1, h2, h3, h4⟩ := ih (c.call ctx).2 hrest
      rw [re, rw1, rt] at h1 h2
      rw [ri, rt] at h3
      rw [rt] at h4
      obtain ⟨n, hn⟩ : ∃ n, c.tokens = n + 1 := ⟨c.tokens - 1, by omega⟩
      simp only [hn, Nat.add_sub_cancel, List.take_succ_cons, runEffector_cons,
        List.length_cons, List.cons_append, Nat.add_sub_add_right] at h1 h2 h3 h4 ⊢
      refine ⟨by rw [h1, r1], h2, ?_, ?_⟩
      · rw [h3]; omega
      · rw [h4]

end ThrottleLemmas

/-- C1. Token invariant of the throttle: in every state reachable from
`Throttle(e, max, refill, d)` by any sequence of calls, call halves, refill
ticks and goroutine exits, the token count is at most `max`; `max` and
`refill` are arbitrary, so the sum `tokens + refill` may wrap around. -/
theorem throttle_tokens_le_max {σ : Type} (e : Effector σ) (max refill : Nat) (d : ℕ+)
    (w : σ) (evs : List Event) :
    ((Throttle e max refill d w).run evs).tokens ≤ max :=
  (Throttled.run_facts evs (Throttle e max refill d w)).2.2.1 (le_refl max)

/-- C2. Call semantics of the throttle for a live context: with a token left
the count drops by exactly one and the effector runs once, its reply and its
effect on the world passed through unchanged; with no token left the reply is
the error "too many calls", the effector does not run and the count stays. -/
theorem throttle_call_semantics {σ : Type} (c : Throttled σ) (ctx : Context)
    (hlive : ctx.err = none) :
    (0 < c.tokens →
      (c.call ctx).2.tokens + 1 = c.tokens ∧
      (c.call ctx).1 = (c.e ctx c.world).1 ∧
      (c.call ctx).2.world = (c.e ctx c.world).2 ∧
      (c.call ctx).2.invoked = c.invoked + 1) ∧
    (c.tokens = 0 →
      (c.call ctx).1 = ("", some (GoError.errorf "too many calls")) ∧
      (c.call ctx).2.world = c.world ∧
      (c.call ctx).2.invoked = c.invoked ∧
      (c.call ctx).2.tokens = c.tokens) := by
  constructor
  · intro hp
    obtain ⟨r1, _, rt, rw1, ri⟩ := c.call_live_pos ctx hlive hp
    refine ⟨?_, r1, rw1, ri⟩
    rw [rt]
    omega
  · intro hz
    obtain ⟨r1, _, rt, rw1, ri⟩ := c.call_live_zero ctx hlive hz
    exact ⟨r1, rw1, ri, rt⟩

/-- Witness for C2: a fresh throttle with one token, called with a live
context. -/
theorem throttle_call_semantics_witness :
    liveCtx.err = none ∧
    ((Throttle callsCountFunction 1 1 1000000000 0).call liveCtx).1 = ("call 1", none) ∧
    ((Throttle callsCountFunction 1 1 1000000000 0).call liveCtx).2.tokens + 1 = 1 :=
  ⟨rfl,
   ((throttle_call_semantics (Throttle callsCountFunction 1 1 1000000000 0) liveCtx rfl).1
      (by decide)).2.1.trans (by decide),
   ((throttle_call_semantics (Throttle callsCountFunction 1 1 1000000000 0) liveCtx rfl).1
      (by decide)).1⟩

/-- C3. Rate bound of the throttle: after any sequence of events on a throttle
built with `max` and `refill`, the number of effector invocations is at most
`max + refill * fired`, where `fired` is the number of refill ticks that have
run, itself at most the number of tick events. -/
theorem throttle_rate_bound {σ : Type} (e : Effector σ) (max refill : Nat) (d : ℕ+)
    (w : σ) (evs : List Event) :
    ((Throttle e max refill d w).run evs).invoked
        ≤ max + refill * ((Throttle e max refill d w).run evs).fired ∧
    ((Throttle e max refill d w).run evs).fired ≤ evs.count Event.tick := by
  obtain ⟨_, _, _, hb, _, hl⟩ := Throttled.run_facts evs (Throttle e max refill d w)
  constructor
  · have hb2 : ((Throttle e max refill d w).run evs).invoked
        + ((Throttle e max refill d w).run evs).tokens
        ≤ 0 + max + refill * (((Throttle e max refill d w).run evs).fired - 0) := hb
    simp only [Nat.sub_zero, Nat.zero_add] at hb2
    omega
  · have hl2 : ((Throttle e max refill d w).run evs).fired ≤ 0 + evs.count Event.tick := hl
    omega

/-- C4. Initial burst of the throttle: on a fresh `Throttle(e, M, R, d)`, `n`
consecutive calls with live contexts and no tick in between run the effector
exactly `min n M` times: the replies are those of the bare effector on the
first `M` contexts, followed by "too many calls" for every later call. -/
theorem throttle_initial_burst {σ : Type} (e : Effector σ) (M R : Nat) (d : ℕ+) (w : σ)
    (ctxs : List Context) (hlive : ∀ ctx ∈ ctxs, ctx.err = none) :
    ((Throttle e M R d w).calls ctxs).1
        = (runEffector e w (ctxs.take M)).1
          ++ List.replicate (ctxs.length - M) ("", some (GoError.errorf "too many calls")) ∧
    ((Throttle e M R d w).calls ctxs).2.world = (runEffector e w (ctxs.take M)).2 ∧
    ((Throttle e M R d w).calls ctxs).2.invoked = min ctxs.length M := by
  obtain ⟨h1, h2, h3, _⟩ := Throttled.calls_live ctxs (Throttle e M R d w) hlive
  refine ⟨h1, h2, ?_⟩
  rw [h3]
  show 0 + min ctxs.length M = min ctxs.length M
  omega

/-- Witness for C4: three live calls on a fresh throttle with `M = 2`. -/
theorem throttle_initial_burst_witness :
    (∀ ctx ∈ [liveCtx, liveCtx, liveCtx], ctx.err = none) ∧
    ((Throttle callsCountFunction 2 1 1000000000 0).calls [liveCtx, liveCtx, liveCtx]).1
      = [("call 1", none), ("call 2", none),
         ("", some (GoError.errorf "too many calls"))] ∧
    ((Throttle callsCountFunction 2 1 1000000000 0).calls [liveCtx, liveCtx, liveCtx]).2.invoked
      = 2 :=
  ⟨by decide,
   (throttle_initial_burst callsCountFunction 2 1 1000000000 0 [liveCtx, liveCtx, liveCtx]
      (by decide)).1.trans (by decide),
   (throttle_initial_burst callsCountFunction 2 1 1000000000 0 [liveCtx, liveCtx, liveCtx]
      (by decide)).2.2.trans (by decide)⟩

/-- C5. Cancellation: whatever the token count, a call whose context is
already cancelled or past its deadline returns the error of the context and
leaves the throttle as it was: no token is taken, the effector does not run,
the ticker is not started. -/
theorem throttle_cancelled {σ : Type} (c : Throttled σ) (ctx : Context) (err : GoError)
    (hdone : ctx.err = some err) :
    (c.call ctx).1 = ("", some err) ∧ (c.call ctx).2 = c ∧
    (c.call ctx).2.tokens = c.tokens ∧ (c.call ctx).2.invoked = c.invoked ∧
    (c.call ctx).2.world = c.world := by
  rw [c.call_of_err ctx err hdone]
  exact ⟨rfl, rfl, rfl, rfl, rfl⟩

/-- Witness for C5: the second call of `TestThrottleContextTimeout`, made
after the deadline of the context. -/
theorem throttle_cancelled_witness :
    (Context.mk (some GoError.deadlineExceeded)).err = some GoError.deadlineExceeded ∧
    (((Throttle callsCountFunction 1 1 1000000000 0).call liveCtx).2.call
      (Context.mk (some GoError.deadlineExceeded))).1
      = ("", some GoError.deadlineExceeded) :=
  ⟨rfl,
   (throttle_cancelled ((Throttle callsCountFunction 1 1 1000000000 0).call liveCtx).2
      (Context.mk (some GoError.deadlineExceeded)) GoError.deadlineExceeded rfl).1⟩


/-! ## Theorems: leaky bucket -/

section LeakyLemmas

theorem wrapInt_of_isInt (x : Int) (h : IsInt x) : wrapInt x = x := by
  unfold IsInt intMin intMax at h
  unfold wrapInt
  omega

theorem maxInt_eq_max (a b : Int) : maxInt a b = max a b := by
  unfold maxInt
  split <;> omega

theorem second_pos : 0 < second := by decide

namespace LeakyBucketLimiter

theorem drain_of_lt (l : LeakyBucketLimiter) (now : Int) (h : now - l.lastTime < second) :
    l.drain now = l := by
  unfold drain timeSub
  simp only [ge_iff_le, if_neg (not_le.mpr h)]

theorem drain_of_ge (l : LeakyBucketLimiter) (now : Int) (h : second ≤ now - l.lastTime) :
    (l.drain now).currentLevel
      = maxInt 0 (wrapInt (l.currentLevel
          - wrapInt (Int.tdiv (now - l.lastTime) second * l.currentVelocity))) ∧
    (l.drain now).lastTime = now := by
  unfold drain timeSub
  simp only [ge_iff_le, if_pos h, and_self]

theorem drain_peakLevel (l : LeakyBucketLimiter) (now : Int) :
    (l.drain now).peakLevel = l.peakLevel := by
  unfold drain
  dsimp only
  split <;> rfl

theorem drain_currentVelocity (l : LeakyBucketLimiter) (now : Int) :
    (l.drain now).currentVelocity = l.currentVelocity := by
  unfold drain
  dsimp only
  split <;> rfl

theorem drain_lastTime (l : LeakyBucketLimiter) (now : Int) :
    (l.drain now).lastTime = if second ≤ now - l.lastTime then now else l.lastTime := by
  by_cases h : second ≤ now - l.lastTime
  · rw [if_pos h]; exact (l.drain_of_ge now h).2
  · rw [if_neg h, l.drain_of_lt now (not_le.mp h)]

theorem drain_idem (l : LeakyBucketLimiter) (now : Int) :
    (l.drain now).drain now = l.drain now := by
  apply drain_of_lt
  rw [drain_lastTime]
  have := second_pos
  split <;> omega

theorem tryAcquire_fst (l : LeakyBucketLimiter) (now : Int) :
    ((l.TryAcquire now).1 = true ↔ (l.drain now).currentLevel < l.peakLevel) := by
  unfold TryAcquire
  dsimp only
  rw [drain_peakLevel]
  split
  · simp only [Bool.false_eq_true, false_iff]; omega
  · simp only [true_iff]; omega

theorem tryAcquire_of_lt (l : LeakyBucketLimiter) (now : Int)
    (h : (l.drain now).currentLevel < l.peakLevel) :
    (l.TryAcquire now).1 = true ∧
    (l.TryAcquire now).2.currentLevel = wrapInt ((l.drain now).currentLevel + 1) ∧
    (l.TryAcquire now).2.lastTime = (l.drain now).lastTime ∧
    (l.TryAcquire now).2.peakLevel = l.peakLevel ∧
    (l.TryAcquire now).2.currentVelocity = l.currentVelocity := by
  unfold TryAcquire
  dsimp only
  rw [if_neg (by rw [drain_peakLevel]; omega)]
  exact ⟨rfl, rfl, rfl, l.drain_peakLevel now, l.drain_currentVelocity now⟩

theorem tryAcquire_of_ge (l : LeakyBucketLimiter) (now : Int)
    (h : l.peakLevel ≤ (l.drain now).currentLevel) :
    l.TryAcquire now = (false, l.drain now) := by
  unfold TryAcquire
  dsimp only
  rw [if_pos (by rw [drain_peakLevel]; omega)]

theorem tryAcquire_drain (l : LeakyBucketLimiter) (now : Int) :
    (l.drain now).TryAcquire now = l.TryAcquire now := by
  unfold TryAcquire
  rw [drain_idem]

theorem leaky_tryAcquireAll_cons (l : LeakyBucketLimiter) (now : Int) (rest : List Int) :
    l.tryAcquireAll (now :: rest)
      = ((l.TryAcquire now).1 :: ((l.TryAcquire now).2.tryAcquireAll rest).1,
          ((l.TryAcquire now).2.tryAcquireAll rest).2) :=
  rfl

/-- The level after the drain of `TryAcquire`, when the product and the
difference of the source stay within `int`. -/
theorem drain_level_of_fit (l : LeakyBucketLimiter) (now : Int)
    (h : second ≤ now - l.lastTime)
    (h1 : IsInt ((now - l.lastTime) / second * l.currentVelocity))
    (h2 : IsInt (l.currentLevel - (now - l.lastTime) / second * l.currentVelocity)) :
    (l.drain now).currentLevel
      = max 0 (l.currentLevel - (now - l.lastTime) / second * l.currentVelocity) := by
  rw [(l.drain_of_ge now h).1, maxInt_eq_max]
  have hs := second_pos
  rw [Int.tdiv_eq_ediv (by omega) (by omega), wrapInt_of_isInt _ h1, wrapInt_of_isInt _ h2]

/-- Calls made at one instant at which nothing drains: the level climbs by
one for each call until it reaches the peak; later calls are refused. -/
theorem tryAcquireAll_same_instant (n : Nat) :
    ∀ (l : LeakyBucketLimiter) (t : Int) (c p : Nat),
      t - l.lastTime < second → l.currentLevel = (c : Int) → l.peakLevel = (p : Int) →
      c ≤ p → (p : Int) ≤ intMax →
      (l.tryAcquireAll (List.replicate n t)).1
        = List.replicate (min n (p - c)) true ++ List.replicate (n - (p - c)) false ∧
      (l.tryAcquireAll (List.replicate n t)).2.currentLevel = ((min p (c + n) : Nat) : Int) ∧
      (l.tryAcquireAll (List.replicate n t)).2.lastTime = l.lastTime ∧
      (l.tryAcquireAll (List.replicate n t)).2.peakLevel = l.peakLevel ∧
      (l.tryAcquireAll (List.replicate n t)).2.currentVelocity = l.currentVelocity := by
  induction n with
  | zero =>
    intro l t c p _ hc _ hcp _
    simp only [List.replicate_zero, tryAcquireAll, Nat.zero_min, List.append_nil,
      Nat.zero_sub, Nat.add_zero, true_and, and_true]
    rw [hc]
    congr 1
    omega
  | succ n ih =>
    intro l t c p ht hc hp hcp hmax
    rw [List.replicate_succ, leaky_tryAcquireAll_cons]
    have hd : l.drain t = l := l.drain_of_lt t ht
    rcases Nat.lt_or_ge c p with hlt | hge
    · obtain ⟨r1, r2, r3, r4, r5⟩ := l.tryAcquire_of_lt t (by rw [hd, hc, hp]; omega)
      rw [hd] at r2 r3
      have hw : wrapInt (l.currentLevel + 1) = ((c + 1 : Nat) : Int) := by
        rw [wrapInt_of_isInt]
        · rw [hc]; omega
        · unfold IsInt intMin; unfold intMax at hmax ⊢; omega
      obtain ⟨i1, i2, i3, i4, i5⟩ := ih (l.TryAcquire t).2 t (c + 1) p
        (by rw [r3]; exact ht) (by rw [r2, hw]) (by rw [r4, hp]) hlt hmax
      have e1 : min (n + 1) (p - c) = min n (p - (c + 1)) + 1 := by omega
      have e2 : n + 1 - (p - c) = n - (p - (c + 1)) := by omega
      refine ⟨?_, ?_, by rw [i3, r3], by rw [i4, r4], by rw [i5, r5]⟩
      · rw [r1, i1, e1, e2, List.replicate_succ, List.cons_append]
      · rw [i2]; congr 1; omega
    · have hcp2 : c = p := by omega
      have hr := l.tryAcquire_of_ge t (by rw [hd, hc, hp]; omega)
      rw [hd] at hr
      rw [hr]
      obtain ⟨i1, i2, i3, i4, i5⟩ := ih l t c p ht hc hp hcp hmax
      have e1 : p - c = 0 := by omega
      refine ⟨?_, ?_, i3, i4, i5⟩
      · show false :: (l.tryAcquireAll (List.replicate n t)).1 = _
        rw [i1, e1]
        simp only [Nat.min_zero, List.replicate_zero, List.nil_append, Nat.sub_zero,
          List.replicate_succ]
      · show (l.tryAcquireAll (List.replicate n t)).2.currentLevel = _
        rw [i2]; congr 1; omega

theorem tryAcquireAll_replicate_drain (l : LeakyBucketLimiter) (t : Int) (n : Nat) :
    (l.tryAcquireAll (List.replicate n t)).1
      = ((l.drain t).tryAcquireAll (List.replicate n t)).1 := by
  cases n with
  | zero => rfl
  | succ n =>
    rw [List.replicate_succ, leaky_tryAcquireAll_cons, leaky_tryAcquireAll_cons, tryAcquire_drain]

end LeakyBucketLimiter

end LeakyLemmas

/-- C6 (amended). One step of the leaky bucket.  With `e = now - lastTime`:
if `e` is at least one second the level first becomes
`max 0 (level - floor(e / 1s) * velocity)`, provided that product and that
difference are representable as Go `int`; otherwise the level is not drained.
The call returns true iff that level is below `peakLevel`, and then the level
is that level plus exactly one; it returns false with the level left at that
level otherwise. -/
theorem leaky_tryAcquire_step (l : LeakyBucketLimiter) (now lvl : Int) (hwf : l.WF)
    (hfit : second ≤ now - l.lastTime →
      IsInt ((now - l.lastTime) / second * l.currentVelocity) ∧
      IsInt (l.currentLevel - (now - l.lastTime) / second * l.currentVelocity))
    (hlvl : lvl = if second ≤ now - l.lastTime
      then max 0 (l.currentLevel - (now - l.lastTime) / second * l.currentVelocity)
      else l.currentLevel) :
    ((l.TryAcquire now).1 = true ↔ lvl < l.peakLevel) ∧
    ((l.TryAcquire now).1 = true → (l.TryAcquire now).2.currentLevel = lvl + 1) ∧
    ((l.TryAcquire now).1 = false → (l.TryAcquire now).2.currentLevel = lvl) ∧
    (l.TryAcquire now).2.peakLevel = l.peakLevel ∧
    (l.TryAcquire now).2.currentVelocity = l.currentVelocity := by
  obtain ⟨hp, hc, _⟩ := hwf
  have hd : (l.drain now).currentLevel = lvl := by
    rw [hlvl]
    by_cases h : second ≤ now - l.lastTime
    · rw [if_pos h]
      exact l.drain_level_of_fit now h (hfit h).1 (hfit h).2
    · rw [if_neg h, l.drain_of_lt now (not_le.mp h)]
  have hlow : intMin ≤ lvl := by
    rw [hlvl]
    unfold IsInt at hc
    unfold intMin at hc ⊢
    split <;> omega
  have hfst := l.tryAcquire_fst now
  rw [hd] at hfst
  refine ⟨hfst, fun ht => ?_, fun hf => ?_, ?_, ?_⟩
  · have hlt := hfst.mp ht
    obtain ⟨_, r2, _, _, _⟩ := l.tryAcquire_of_lt now (by rw [hd]; exact hlt)
    rw [r2, hd, wrapInt_of_isInt]
    unfold IsInt at hp ⊢
    unfold intMin intMax at *
    omega
  · have hge : l.peakLevel ≤ (l.drain now).currentLevel := by
      rw [hd]
      by_contra hcon
      rw [hfst.mpr (not_le.mp hcon)] at hf
      exact Bool.noConfusion hf
    rw [l.tryAcquire_of_ge now hge]
    exact hd
  · by_cases h : (l.drain now).currentLevel < l.peakLevel
    · exact (l.tryAcquire_of_lt now h).2.2.2.1
    · rw [l.tryAcquire_of_ge now (not_lt.mp h)]
      exact l.drain_peakLevel now
  · by_cases h : (l.drain now).currentLevel < l.peakLevel
    · exact (l.tryAcquire_of_lt now h).2.2.2.2
    · rw [l.tryAcquire_of_ge now (not_lt.mp h)]
      exact l.drain_currentVelocity now

/-- Witness for C6: a full bucket with peak 5 and velocity 1, called three
seconds after its last drain: the level drops to 2 and the call is let in. -/
theorem leaky_tryAcquire_step_witness :
    (LeakyBucketLimiter.mk 5 5 1 0).WF ∧
    (((LeakyBucketLimiter.mk 5 5 1 0).TryAcquire 3000000000).1 = true ↔ (2 : Int) < 5) ∧
    (((LeakyBucketLimiter.mk 5 5 1 0).TryAcquire 3000000000).1 = true →
      ((LeakyBucketLimiter.mk 5 5 1 0).TryAcquire 3000000000).2.currentLevel = 2 + 1) :=
  ⟨by decide,
   (leaky_tryAcquire_step (LeakyBucketLimiter.mk 5 5 1 0) 3000000000 2 (by decide)
      (by decide) (by decide)).1,
   (leaky_tryAcquire_step (LeakyBucketLimiter.mk 5 5 1 0) 3000000000 2 (by decide)
      (by decide) (by decide)).2.1⟩

/-- Counterexample to C6 as stated: peak 5, velocity `2 ^ 62`.  Five calls fill
the bucket; at the next call, four seconds later, the claimed level
`max 0 (5 - 4 * 2 ^ 62)` is 0, below the peak, so the claim lets the call in
with level 1.  In the code `4 * 2 ^ 62` wraps to 0, the level stays 5 and the
call is refused. -/
theorem leaky_tryAcquire_step_counterexample :
    (4611686018427387904 : Int) = 2 ^ 62 ∧
    (((NewLeakyBucketLimiter 5 4611686018427387904 0).tryAcquireAll [0, 0, 0, 0, 0]).2).WF ∧
    (((NewLeakyBucketLimiter 5 4611686018427387904 0).tryAcquireAll
        [0, 0, 0, 0, 0]).2).currentLevel = 5 ∧
    (((NewLeakyBucketLimiter 5 4611686018427387904 0).tryAcquireAll
        [0, 0, 0, 0, 0]).2).lastTime = 0 ∧
    max 0 ((5 : Int) - (4000000000 - 0) / second * 4611686018427387904) = 0 ∧
    ¬ (((((NewLeakyBucketLimiter 5 4611686018427387904 0).tryAcquireAll
          [0, 0, 0, 0, 0]).2).TryAcquire 4000000000).1 = true ↔
        max 0 ((5 : Int) - (4000000000 - 0) / second * 4611686018427387904) < 5) ∧
    ((((NewLeakyBucketLimiter 5 4611686018427387904 0).tryAcquireAll
        [0, 0, 0, 0, 0]).2).TryAcquire 4000000000).2.currentLevel = 5 :=
  ⟨by norm_num, by decide, by decide, by decide, by decide, by decide, by decide⟩

/-- C7 (amended). Fill and drain of the leaky bucket, for every peak `P > 0`
and velocity `V > 0` of type `int`: on a fresh limiter `P` calls at the
construction instant all succeed and the next fails; if all following calls
happen at one instant `T0 + k s + r` with `k ≥ 1` whole seconds and
`0 ≤ r < 1 s`, and `k * V` is representable as an `int`, exactly
`min P (k * V)` of them succeed and every later one fails. -/
theorem leaky_fill_drain (P V k r m : Nat) (T0 : Int)
    (hP : 0 < P) (hPmax : (P : Int) ≤ intMax) (hk : 1 ≤ k)
    (hr : (r : Int) < second) (hfit : ((k * V : Nat) : Int) ≤ intMax) :
    ((NewLeakyBucketLimiter P V T0).tryAcquireAll (List.replicate (P + 1) T0)).1
      = List.replicate P true ++ [false] ∧
    ((((NewLeakyBucketLimiter P V T0).tryAcquireAll (List.replicate (P + 1) T0)).2).tryAcquireAll
        (List.replicate m (T0 + k * second + r))).1
      = List.replicate (min m (min P (k * V))) true
        ++ List.replicate (m - min P (k * V)) false := by
  have hs : second = 1000000000 := rfl
  obtain ⟨a1, a2, a3, a4, a5⟩ :=
    LeakyBucketLimiter.tryAcquireAll_same_instant (P + 1) (NewLeakyBucketLimiter P V T0) T0 0 P
      (by show T0 - T0 < second; omega) rfl rfl (Nat.zero_le P) hPmax
  constructor
  · rw [a1]
    have e1 : min (P + 1) (P - 0) = P := by omega
    have e2 : P + 1 - (P - 0) = 1 := by omega
    rw [e1, e2]
    rfl
  · generalize ((NewLeakyBucketLimiter P V T0).tryAcquireAll (List.replicate (P + 1) T0)).2
      = l1 at a2 a3 a4 a5
    have b2 : l1.currentLevel = (P : Int) := by rw [a2]; congr 1; omega
    have b3 : l1.lastTime = T0 := a3
    have b4 : l1.peakLevel = (P : Int) := a4
    have b5 : l1.currentVelocity = (V : Int) := a5
    rw [l1.tryAcquireAll_replicate_drain]
    have hge : second ≤ T0 + k * second + r - l1.lastTime := by rw [b3, hs]; omega
    have hdiv : (T0 + k * second + r - l1.lastTime) / second = (k : Int) := by
      rw [b3, hs]; rw [hs] at hr; omega
    have hkv : ((k : Int) * (V : Int)) = ((k * V : Nat) : Int) := by push_cast; rfl
    have hfit1 : IsInt ((T0 + k * second + r - l1.lastTime) / second * l1.currentVelocity) := by
      rw [hdiv, b5, hkv]
      unfold IsInt intMin
      unfold intMax at hfit ⊢
      omega
    have hfit2 : IsInt (l1.currentLevel
        - (T0 + k * second + r - l1.lastTime) / second * l1.currentVelocity) := by
      rw [hdiv, b5, b2, hkv]
      unfold IsInt intMin
      unfold intMax at hfit hPmax ⊢
      omega
    have hlev := l1.drain_level_of_fit (T0 + k * second + r) hge hfit1 hfit2
    rw [hdiv, b5, b2, hkv] at hlev
    have hlev2 : (l1.drain (T0 + k * second + r)).currentLevel = ((P - k * V : Nat) : Int) := by
      rw [hlev]; omega
    obtain ⟨c1, _, _, _, _⟩ :=
      LeakyBucketLimiter.tryAcquireAll_same_instant m (l1.drain (T0 + k * second + r))
        (T0 + k * second + r) (P - k * V) P
        (by rw [(l1.drain_of_ge _ hge).2, hs]; omega) hlev2
        (by rw [l1.drain_peakLevel, b4]) (Nat.sub_le _ _) hPmax
    rw [c1]
    have e3 : P - (P - k * V) = min P (k * V) := by omega
    rw [e3]

/-- Witness for C7: the scenario of the specification, peak 5, velocity 1 and
three seconds of waiting: 5 calls succeed and the 6th fails, then 3 succeed and
the 4th fails. -/
theorem leaky_fill_drain_witness :
    ((NewLeakyBucketLimiter 5 1 0).tryAcquireAll (List.replicate (5 + 1) 0)).1
      = [true, true, true, true, true, false] ∧
    ((((NewLeakyBucketLimiter 5 1 0).tryAcquireAll (List.replicate (5 + 1) 0)).2).tryAcquireAll
        (List.replicate 4 (0 + 3 * second + 0))).1
      = [true, true, true, false] :=
  ⟨(leaky_fill_drain 5 1 3 0 4 0 (by decide) (by decide) (by decide)
      (by decide) (by decide)).1.trans (by decide),
   (leaky_fill_drain 5 1 3 0 4 0 (by decide) (by decide) (by decide)
      (by decide) (by decide)).2.trans (by decide)⟩

/-- Counterexample to C7 as stated: `P = 5`, `V = 2 ^ 62`, `k = 4`.  The claim
promises `min 5 (4 * 2 ^ 62) = 5` successes four seconds after the bucket was
filled; in the code the product wraps to 0, nothing drains and the first call
is already refused. -/
theorem leaky_fill_drain_counterexample :
    (4611686018427387904 : Int) = 2 ^ 62 ∧
    ((NewLeakyBucketLimiter 5 4611686018427387904 0).tryAcquireAll
        (List.replicate (5 + 1) 0)).1
      = [true, true, true, true, true, false] ∧
    min (5 : Int) (4 * 4611686018427387904) = 5 ∧
    ((((NewLeakyBucketLimiter 5 4611686018427387904 0).tryAcquireAll
        (List.replicate (5 + 1) 0)).2).tryAcquireAll
        (List.replicate 5 (0 + 4 * second))).1
      = [false, false, false, false, false] :=
  ⟨by norm_num, by decide, by decide, by decide⟩

/-- C8 (amended). Timestamp of the leaky bucket: `lastTime` is left unchanged
when less than one second has elapsed; when at least one second has elapsed it
is set to `now`, so it advances by the whole elapsed time, the whole seconds
`floor(e / 1s)` plus the sub-second remainder of `e`. -/
theorem leaky_lastTime_update (l : LeakyBucketLimiter) (now : Int) :
    (now - l.lastTime < second → (l.TryAcquire now).2.lastTime = l.lastTime) ∧
    (second ≤ now - l.lastTime →
      (l.TryAcquire now).2.lastTime = now ∧
      (l.TryAcquire now).2.lastTime - l.lastTime
        = (now - l.lastTime) / second * second + (now - l.lastTime) % second) := by
  have hlast : (l.TryAcquire now).2.lastTime = (l.drain now).lastTime := by
    by_cases h : (l.drain now).currentLevel < l.peakLevel
    · exact (l.tryAcquire_of_lt now h).2.2.1
    · rw [l.tryAcquire_of_ge now (not_lt.mp h)]
  rw [hlast, l.drain_lastTime]
  constructor
  · intro h
    rw [if_neg (not_le.mpr h)]
  · intro h
    rw [if_pos h]
    refine ⟨rfl, ?_⟩
    have := Int.ediv_add_emod (now - l.lastTime) second
    rw [Int.mul_comm] at this
    omega

/-- Counterexample to C8 as stated: a call 1.5 s after construction moves
`lastTime` by 1.5 s, not by the one whole second that was consumed. -/
theorem leaky_lastTime_counterexample :
    ((NewLeakyBucketLimiter 5 1 0).TryAcquire 1500000000).2.lastTime
        - (NewLeakyBucketLimiter 5 1 0).lastTime = 1500000000 ∧
    (1500000000 - (NewLeakyBucketLimiter 5 1 0).lastTime) / second * second = 1000000000 ∧
    ¬ (((NewLeakyBucketLimiter 5 1 0).TryAcquire 1500000000).2.lastTime
        - (NewLeakyBucketLimiter 5 1 0).lastTime
        = (1500000000 - (NewLeakyBucketLimiter 5 1 0).lastTime) / second * second) := by
  decide

/-! ## Theorems: fixed window -/

section FixedLemmas

namespace FixedWindowLimiter

/-- The window roll-over at the start of `TryAcquire`. -/
theorem tryAcquire_cases (l : FixedWindowLimiter) (now cnt : Int)
    (hcnt : cnt = if l.window < now - l.lastTime then 0 else l.counter) :
    (l.TryAcquire now).2.lastTime = (if l.window < now - l.lastTime then now else l.lastTime) ∧
    (l.TryAcquire now).2.limit = l.limit ∧
    (l.TryAcquire now).2.window = l.window ∧
    (cnt < l.limit →
      (l.TryAcquire now).1 = true ∧ (l.TryAcquire now).2.counter = wrapInt (cnt + 1)) ∧
    (l.limit ≤ cnt →
      (l.TryAcquire now).1 = false ∧ (l.TryAcquire now).2.counter = cnt) := by
  unfold TryAcquire timeSub
  simp only [gt_iff_lt, ge_iff_le]
  by_cases h : l.window < now - l.lastTime
  · rw [if_pos h] at hcnt
    subst hcnt
    simp only [if_pos h]
    refine ⟨?_, ?_, ?_, fun h1 => ?_, fun h2 => ?_⟩
    · split <;> rfl
    · split <;> rfl
    · split <;> rfl
    · rw [if_neg (not_le.mpr h1)]
      exact ⟨rfl, rfl⟩
    · rw [if_pos h2]
      exact ⟨rfl, rfl⟩
  · rw [if_neg h] at hcnt
    subst hcnt
    simp only [if_neg h]
    refine ⟨?_, ?_, ?_, fun h1 => ?_, fun h2 => ?_⟩
    · split <;> rfl
    · split <;> rfl
    · split <;> rfl
    · rw [if_neg (not_le.mpr h1)]
      exact ⟨rfl, rfl⟩
    · rw [if_pos h2]
      exact ⟨rfl, rfl⟩

theorem fixed_tryAcquireAll_cons (l : FixedWindowLimiter) (now : Int) (rest : List Int) :
    l.tryAcquireAll (now :: rest)
      = ((l.TryAcquire now).1 :: ((l.TryAcquire now).2.tryAcquireAll rest).1,
          ((l.TryAcquire now).2.tryAcquireAll rest).2) :=
  rfl

theorem tryAcquireAll_append (xs : List Int) : ∀ (l : FixedWindowLimiter) (ys : List Int),
    (l.tryAcquireAll (xs ++ ys)).1
        = (l.tryAcquireAll xs).1 ++ ((l.tryAcquireAll xs).2.tryAcquireAll ys).1 ∧
    (l.tryAcquireAll (xs ++ ys)).2 = ((l.tryAcquireAll xs).2.tryAcquireAll ys).2 := by
  induction xs with
  | nil => intro l ys; exact ⟨rfl, rfl⟩
  | cons x xs ih =>
    intro l ys
    rw [List.cons_append, fixed_tryAcquireAll_cons, fixed_tryAcquireAll_cons]
    obtain ⟨h1, h2⟩ := ih (l.TryAcquire x).2 ys
    exact ⟨by rw [h1]; rfl, h2⟩

/-- Calls at one instant inside the current window, with room left under the
limit: all succeed and the counter counts them. -/
theorem tryAcquireAll_in_window (n : Nat) :
    ∀ (l : FixedWindowLimiter) (t : Int) (c L : Nat),
      t - l.lastTime ≤ l.window → l.counter = (c : Int) → l.limit = (L : Int) →
      c + n ≤ L → (L : Int) ≤ intMax →
      (l.tryAcquireAll (List.replicate n t)).1 = List.replicate n true ∧
      (l.tryAcquireAll (List.replicate n t)).2.counter = ((c + n : Nat) : Int) ∧
      (l.tryAcquireAll (List.replicate n t)).2.lastTime = l.lastTime ∧
      (l.tryAcquireAll (List.replicate n t)).2.limit = l.limit ∧
      (l.tryAcquireAll (List.replicate n t)).2.window = l.window := by
  induction n with
  | zero =>
    intro l t c L _ hc _ _ _
    exact ⟨rfl, hc, rfl, rfl, rfl⟩
  | succ n ih =>
    intro l t c L ht hc hL hcn hmax
    rw [List.replicate_succ, fixed_tryAcquireAll_cons]
    obtain ⟨r1, r2, r3, r4, _⟩ := l.tryAcquire_cases t l.counter
      (by rw [if_neg (not_lt.mpr ht)])
    rw [if_neg (not_lt.mpr ht)] at r1
    obtain ⟨r5, r6⟩ := r4 (by rw [hc, hL]; omega)
    have hw : wrapInt (l.counter + 1) = ((c + 1 : Nat) : Int) := by
      rw [wrapInt_of_isInt]
      · rw [hc]; omega
      · unfold IsInt intMin; unfold intMax at hmax ⊢; omega
    obtain ⟨i1, i2, i3, i4, i5⟩ := ih (l.TryAcquire t).2 t (c + 1) L
      (by rw [r1, r3]; exact ht) (by rw [r6, hw]) (by rw [r2, hL]) (by omega) hmax
    refine ⟨by rw [r5, i1]; rfl, ?_, by rw [i3, r1], by rw [i4, r2], by rw [i5, r3]⟩
    rw [i2]; congr 1; omega

/-- Calls at one instant after the window has run out: the first one opens a
new window, and up to `limit` of them succeed. -/
theorem tryAcquireAll_new_window (n : Nat) (l : FixedWindowLimiter) (t : Int) (L : Nat)
    (ht : l.window < t - l.lastTime) (hw : 0 ≤ l.window) (hL : l.limit = (L : Int))
    (hn : n ≤ L) (hmax : (L : Int) ≤ intMax) :
    (l.tryAcquireAll (List.replicate n t)).1 = List.replicate n true := by
  cases n with
  | zero => rfl
  | succ n =>
    rw [List.replicate_succ, fixed_tryAcquireAll_cons]
    obtain ⟨r1, r2, r3, r4, _⟩ := l.tryAcquire_cases t 0 (by rw [if_pos ht])
    rw [if_pos ht] at r1
    obtain ⟨r5, r6⟩ := r4 (by rw [hL]; omega)
    have hw1 : wrapInt (0 + 1) = ((0 + 1 : Nat) : Int) := by decide
    obtain ⟨i1, _, _, _, _⟩ := tryAcquireAll_in_window n (l.TryAcquire t).2 t (0 + 1) L
      (by rw [r1, r3]; omega) (by rw [r6, hw1]) (by rw [r2, hL]) (by omega) hmax
    rw [r5, i1]
    rfl

end FixedWindowLimiter

end FixedLemmas

/-- C9. One step of the fixed window.  The counter is reset to 0 and the
window start set to `now` iff `now - windowStart` is strictly greater than
`window`; with `cnt` the counter after that, the call returns true iff
`cnt < limit`, and then the counter is `cnt + 1`; otherwise it returns false
and the counter stays `cnt`. -/
theorem fixed_tryAcquire_step (l : FixedWindowLimiter) (now cnt : Int) (hwf : l.WF)
    (hcnt : cnt = if l.window < now - l.lastTime then 0 else l.counter) :
    (l.TryAcquire now).2.lastTime = (if l.window < now - l.lastTime then now else l.lastTime) ∧
    ((l.TryAcquire now).1 = true ↔ cnt < l.limit) ∧
    ((l.TryAcquire now).1 = true → (l.TryAcquire now).2.counter = cnt + 1) ∧
    ((l.TryAcquire now).1 = false → (l.TryAcquire now).2.counter = cnt) ∧
    (l.TryAcquire now).2.limit = l.limit ∧
    (l.TryAcquire now).2.window = l.window := by
  obtain ⟨hl, hc⟩ := hwf
  obtain ⟨r1, r2, r3, r4, r5⟩ := l.tryAcquire_cases now cnt hcnt
  have hlow : intMin ≤ cnt := by
    rw [hcnt]
    unfold IsInt at hc
    unfold intMin at hc ⊢
    split <;> omega
  have hiff : (l.TryAcquire now).1 = true ↔ cnt < l.limit := by
    constructor
    · intro ht
      by_contra hcon
      rw [(r5 (not_lt.mp hcon)).1] at ht
      exact Bool.noConfusion ht
    · intro h
      exact (r4 h).1
  refine ⟨r1, hiff, fun ht => ?_, fun hf => ?_, r2, r3⟩
  · rw [(r4 (hiff.mp ht)).2, wrapInt_of_isInt]
    have := hiff.mp ht
    unfold IsInt at hl ⊢
    unfold intMin intMax at *
    omega
  · refine (r5 ?_).2
    by_contra hcon
    rw [(r4 (not_le.mp hcon)).1] at hf
    exact Bool.noConfusion hf

/-- Witness for C9: limit 2, window 10, window start 0, counter 2, called at
time 10 (no reset, refused). -/
theorem fixed_tryAcquire_step_witness :
    (FixedWindowLimiter.mk 2 10 2 0).WF ∧
    ((FixedWindowLimiter.mk 2 10 2 0).TryAcquire 10).2.lastTime = 0 ∧
    (((FixedWindowLimiter.mk 2 10 2 0).TryAcquire 10).1 = true ↔ (2 : Int) < 2) :=
  ⟨by decide,
   (fixed_tryAcquire_step (FixedWindowLimiter.mk 2 10 2 0) 10 2 (by decide) (by decide)).1,
   (fixed_tryAcquire_step (FixedWindowLimiter.mk 2 10 2 0) 10 2 (by decide) (by decide)).2.1⟩

/-- C10. Boundary burst of the fixed window: for every limit `L` of type `int`
and window `W > 0`, on a limiter constructed at `T0`, `L` calls at a time `t1`
with `t1 - T0 ≤ W` followed by `L` calls at a time `t2` with `t2 - T0 > W` all
succeed, `2 * L` in all, however close `t1` and `t2` are. -/
theorem fixed_boundary_burst (L : Nat) (W T0 t1 t2 : Int) (hLmax : (L : Int) ≤ intMax)
    (hW : 0 < W) (h1 : t1 - T0 ≤ W) (h2 : W < t2 - T0) :
    ((NewFixedWindowLimiter L W T0).tryAcquireAll
        (List.replicate L t1 ++ List.replicate L t2)).1
      = List.replicate (2 * L) true := by
  obtain ⟨a1, _⟩ := FixedWindowLimiter.tryAcquireAll_append (List.replicate L t1)
    (NewFixedWindowLimiter L W T0) (List.replicate L t2)
  obtain ⟨b1, _, b3, b4, b5⟩ :=
    FixedWindowLimiter.tryAcquireAll_in_window L (NewFixedWindowLimiter L W T0) t1 0 L
      h1 rfl rfl (by omega) hLmax
  have c1 := FixedWindowLimiter.tryAcquireAll_new_window L
    ((NewFixedWindowLimiter L W T0).tryAcquireAll (List.replicate L t1)).2 t2 L
    (by rw [b3, b5]; exact h2) (by rw [b5]; exact le_of_lt hW) b4 (le_refl L) hLmax
  rw [a1, b1, c1, ← List.replicate_add]
  congr 1
  omega

/-- Witness for C10: limit 2 and window 10 from time 0; two calls at time 10
and two at time 11, one time unit apart, all succeed. -/
theorem fixed_boundary_burst_witness :
    (11 : Int) - 10 < 10 ∧
    ((NewFixedWindowLimiter 2 10 0).tryAcquireAll [10, 10, 11, 11]).1
      = [true, true, true, true] :=
  ⟨by decide,
   (fixed_boundary_burst 2 10 0 10 11 (by decide) (by decide) (by decide) (by decide)).trans
     (by decide)⟩

/-! ## Theorems: sliding window -/

section SlidingWindowLemmas

theorem goMod_eq_zero_iff (a b : Int) : goMod a b = 0 ↔ b ∣ a := by
  unfold goMod
  exact Int.dvd_iff_tmod_eq_zero.symm

theorem goDiv_of_dvd (a b : Int) (h : b ∣ a) (hq : IsInt (a / b)) : goDiv a b = a / b := by
  unfold goDiv
  rw [Int.tdiv_eq_ediv_of_dvd h, wrapInt_of_isInt _ hq]

theorem isInt_iff (x : Int) : IsInt x ↔ -9223372036854775808 ≤ x ∧ x ≤ 9223372036854775807 :=
  Iff.rfl

theorem intMax_eq : intMax = 9223372036854775807 := rfl

/-- The current sub-window computed by the code is `floor(now / sw) * sw`. -/
theorem current_eq (now sw : Int) (h0 : 0 ≤ now) (hmax : now ≤ intMax) (hsw : 0 < sw) :
    goMul (goDiv now sw) sw = now / sw * sw ∧ 0 ≤ now / sw * sw ∧ now / sw * sw ≤ now := by
  have hq0 : 0 ≤ now / sw := Int.ediv_nonneg h0 (le_of_lt hsw)
  have hq1 : now / sw ≤ now := Int.ediv_le_self _ h0
  have hm0 : 0 ≤ now / sw * sw := Int.mul_nonneg hq0 (le_of_lt hsw)
  have hm1 : now / sw * sw ≤ now := Int.ediv_mul_le _ (ne_of_gt hsw)
  rw [intMax_eq] at hmax
  unfold goMul goDiv
  rw [Int.tdiv_eq_ediv h0 (le_of_lt hsw), wrapInt_of_isInt (now / sw)
    ((isInt_iff _).mpr (by omega)), wrapInt_of_isInt _ ((isInt_iff _).mpr (by omega))]
  exact ⟨rfl, hm0, hm1⟩

/-- The start of the trailing window computed by the code is
`current - sw * (sws - 1)`, and it is not later than `current`. -/
theorem start_eq (current sw sws window : Int) (hc0 : 0 ≤ current) (hc1 : current ≤ intMax)
    (hsw : 0 < sw) (hwin : sw ≤ window) (hmax : window ≤ intMax) (hw : window = sws * sw) :
    goSub current (goMul sw (goSub sws 1)) = current - sw * (sws - 1) ∧
    current - sw * (sws - 1) ≤ current ∧ 1 ≤ sws := by
  have hsws : 1 ≤ sws := by
    by_contra hcon
    have h1 : sws ≤ 0 := by omega
    have h2 : sws * sw ≤ 0 := Int.mul_nonpos_of_nonpos_of_nonneg h1 (le_of_lt hsw)
    omega
  have hprod : sw * (sws - 1) = window - sw := by rw [hw]; ring
  have hle : sws ≤ window := by
    rw [hw]
    exact le_mul_of_one_le_right (by omega) (by omega)
  rw [intMax_eq] at hmax hc1
  unfold goSub goMul
  rw [wrapInt_of_isInt (sws - 1) ((isInt_iff _).mpr (by omega)), hprod,
    wrapInt_of_isInt (window - sw) ((isInt_iff _).mpr (by omega)),
    wrapInt_of_isInt _ ((isInt_iff _).mpr (by omega))]
  exact ⟨rfl, by omega, hsws⟩

theorem Counters.get_cons (k1 c : Int) (rest : Counters) (k : Int) :
    Counters.get ((k1, c) :: rest) k = if k1 = k then some c else Counters.get rest k := rfl

theorem Counters.incr_cons (k1 c : Int) (rest : Counters) (k : Int) :
    Counters.incr ((k1, c) :: rest) k
      = if k1 = k then (k1, wrapInt (c + 1)) :: rest else (k1, c) :: Counters.incr rest k := rfl

theorem Counters.get_filter (start : Int) (m : Counters) (k : Int) :
    Counters.get (m.filter (fun e => decide (start ≤ e.1))) k
      = if start ≤ k then Counters.get m k else none := by
  induction m with
  | nil => simp [Counters.get]
  | cons e rest ih =>
    obtain ⟨k1, c⟩ := e
    by_cases h : start ≤ k1
    · rw [List.filter_cons_of_pos (by simpa using h), Counters.get_cons, Counters.get_cons, ih]
      by_cases hk : k1 = k
      · subst hk; simp [h]
      · simp [hk]
    · rw [List.filter_cons_of_neg (by simpa using h), Counters.get_cons, ih]
      by_cases hk : k1 = k
      · subst hk; simp [h]
      · simp [hk]

theorem Counters.get_incr (m : Counters) (k k2 : Int) :
    Counters.get (Counters.incr m k) k2
      = if k2 = k then some (wrapInt ((Counters.get m k).getD 0 + 1))
        else Counters.get m k2 := by
  induction m with
  | nil =>
    by_cases h : k2 = k
    · subst h; simp [Counters.incr, Counters.get]
    · have h2 : ¬ k = k2 := fun e => h e.symm
      simp [Counters.incr, Counters.get, h, h2]
  | cons e rest ih =>
    obtain ⟨k1, c⟩ := e
    rw [Counters.incr_cons]
    by_cases h1 : k1 = k
    · subst h1
      rw [if_pos rfl, Counters.get_cons, Counters.get_cons]
      by_cases h : k2 = k1
      · subst h; simp
      · have h2 : ¬ k1 = k2 := fun e => h e.symm
        simp [h, h2, Counters.get_cons]
    · rw [if_neg h1, Counters.get_cons, ih, Counters.get_cons, Counters.get_cons]
      by_cases h : k2 = k
      · subst h; simp [h1]
      · simp [h]

theorem Counters.keys_incr (m : Counters) (k : Int) :
    (Counters.incr m k).map Prod.fst
      = if k ∈ m.map Prod.fst then m.map Prod.fst else m.map Prod.fst ++ [k] := by
  induction m with
  | nil => simp [Counters.incr]
  | cons e rest ih =>
    obtain ⟨k1, c⟩ := e
    rw [Counters.incr_cons]
    by_cases h1 : k1 = k
    · subst h1; simp
    · have h2 : ¬ k = k1 := fun e => h1 e.symm
      rw [if_neg h1, List.map_cons, ih]
      by_cases hm : k ∈ rest.map Prod.fst
      · simp [hm]
      · simp only [hm, if_false, List.map_cons, List.mem_cons, h2, false_or, List.cons_append]

theorem Counters.nodup_incr (m : Counters) (k : Int) (h : (m.map Prod.fst).Nodup) :
    ((Counters.incr m k).map Prod.fst).Nodup := by
  rw [Counters.keys_incr]
  split
  · exact h
  · rename_i hk
    rw [List.nodup_append]
    refine ⟨h, List.nodup_singleton k, ?_⟩
    intro a ha hb
    rw [List.mem_singleton] at hb
    subst hb
    exact hk ha

theorem Counters.nodup_filter (m : Counters) (p : Int × Int → Bool)
    (h : (m.map Prod.fst).Nodup) : ((m.filter p).map Prod.fst).Nodup :=
  List.Nodup.sublist (List.Sublist.map _ (List.filter_sublist m)) h

theorem Counters.get_mem (m : Counters) (k c : Int) (h : Counters.get m k = some c) :
    (k, c) ∈ m := by
  induction m with
  | nil => simp [Counters.get] at h
  | cons e rest ih =>
    obtain ⟨k1, c1⟩ := e
    rw [Counters.get_cons] at h
    by_cases hk : k1 = k
    · rw [if_pos hk] at h
      cases h
      subst hk
      exact List.mem_cons_self _ _
    · rw [if_neg hk] at h
      exact List.mem_cons_of_mem _ (ih h)

theorem Counters.get_eq_none (m : Counters) (k : Int) :
    Counters.get m k = none ↔ k ∉ m.map Prod.fst := by
  induction m with
  | nil => simp [Counters.get]
  | cons e rest ih =>
    obtain ⟨k1, c1⟩ := e
    rw [Counters.get_cons]
    by_cases hk : k1 = k
    · subst hk; simp
    · have h2 : ¬ k = k1 := fun e => hk e.symm
      rw [if_neg hk, ih]
      simp [h2]

theorem Counters.le_sum_of_mem (m : Counters) (h : ∀ e ∈ m, 0 ≤ e.2) (e : Int × Int)
    (he : e ∈ m) : e.2 ≤ (m.map Prod.snd).sum := by
  induction m with
  | nil => exact absurd he (List.not_mem_nil _)
  | cons x rest ih =>
    have hrest : ∀ y ∈ rest, 0 ≤ y.2 := fun y hy => h y (List.mem_cons_of_mem _ hy)
    have hx : 0 ≤ x.2 := h x (List.mem_cons_self _ _)
    simp only [List.map_cons, List.sum_cons]
    rcases List.mem_cons.mp he with heq | hmem
    · subst heq
      have h0 : 0 ≤ (rest.map Prod.snd).sum := List.sum_nonneg (by
        intro y hy
        obtain ⟨z, hz, rfl⟩ := List.mem_map.mp hy
        exact hrest z hz)
      omega
    · have := ih hrest hmem
      omega

theorem Counters.sum_nonneg (m : Counters) (h : ∀ e ∈ m, 0 ≤ e.2) :
    0 ≤ (m.map Prod.snd).sum :=
  List.sum_nonneg (by
    intro y hy
    obtain ⟨z, hz, rfl⟩ := List.mem_map.mp hy
    exact h z hz)

/-- Without overflow `m[k]++` adds one to the sum of the counts and keeps the
counts non-negative. -/
theorem Counters.sum_incr (m : Counters) (k : Int) (h : ∀ e ∈ m, 0 ≤ e.2)
    (hs : (m.map Prod.snd).sum < intMax) :
    ((Counters.incr m k).map Prod.snd).sum = (m.map Prod.snd).sum + 1 ∧
    (∀ e ∈ Counters.incr m k, 0 ≤ e.2) := by
  induction m with
  | nil =>
    have h1 : wrapInt (0 + 1) = 1 := by decide
    have h2 : wrapInt 1 = 1 := by decide
    simp [Counters.incr, h1, h2]
  | cons x rest ih =>
    obtain ⟨k1, c⟩ := x
    have hrest : ∀ y ∈ rest, 0 ≤ y.2 := fun y hy => h y (List.mem_cons_of_mem _ hy)
    have hc : 0 ≤ c := h (k1, c) (List.mem_cons_self _ _)
    have h0 := Counters.sum_nonneg rest hrest
    simp only [List.map_cons, List.sum_cons] at hs
    rw [intMax_eq] at hs
    rw [Counters.incr_cons]
    by_cases hk : k1 = k
    · have hw : wrapInt (c + 1) = c + 1 := wrapInt_of_isInt _ ((isInt_iff _).mpr (by omega))
      rw [if_pos hk, hw]
      constructor
      · simp only [List.map_cons, List.sum_cons]; omega
      · intro e he
        rcases List.mem_cons.mp he with heq | hmem
        · subst heq; show 0 ≤ c + 1; omega
        · exact hrest e hmem
    · obtain ⟨i1, i2⟩ := ih hrest (by rw [intMax_eq]; omega)
      rw [if_neg hk]
      constructor
      · simp only [List.map_cons, List.sum_cons, i1]; omega
      · intro e he
        rcases List.mem_cons.mp he with heq | hmem
        · subst heq; exact hc
        · exact i2 e hmem

namespace SlidingWindowLimiter

theorem sweep_fst (start : Int) (m : Counters) : ∀ count : Int,
    (sweep start m count).1 = m.filter (fun e => decide (start ≤ e.1)) := by
  induction m with
  | nil => intro count; rfl
  | cons e rest ih =>
    intro count
    obtain ⟨k, c⟩ := e
    unfold sweep
    by_cases h : k < start
    · rw [if_pos h, ih, List.filter_cons_of_neg (by simpa using h)]
    · rw [if_neg h, ih, List.filter_cons_of_pos (by simpa using h)]

theorem sum_filter_le (m : Counters) (p : Int × Int → Bool) (h : ∀ e ∈ m, 0 ≤ e.2) :
    0 ≤ ((m.filter p).map Prod.snd).sum ∧
    ((m.filter p).map Prod.snd).sum ≤ (m.map Prod.snd).sum := by
  induction m with
  | nil => simp
  | cons e rest ih =>
    have he : 0 ≤ e.2 := h e (List.mem_cons_self _ _)
    obtain ⟨i1, i2⟩ := ih (fun x hx => h x (List.mem_cons_of_mem _ hx))
    by_cases hp : p e = true
    · rw [List.filter_cons_of_pos hp]
      simp only [List.map_cons, List.sum_cons]
      omega
    · rw [List.filter_cons_of_neg hp]
      simp only [List.map_cons, List.sum_cons]
      omega

theorem sweep_snd (start : Int) (m : Counters) : ∀ count : Int,
    0 ≤ count → (∀ e ∈ m, 0 ≤ e.2) → count + (m.map Prod.snd).sum ≤ intMax →
    (sweep start m count).2
      = count + ((m.filter (fun e => decide (start ≤ e.1))).map Prod.snd).sum := by
  induction m with
  | nil => intro count _ _ _; simp [sweep]
  | cons e rest ih =>
    intro count hc hnn hsum
    obtain ⟨k, c⟩ := e
    have hc0 : 0 ≤ c := hnn (k, c) (List.mem_cons_self _ _)
    have hrest : ∀ x ∈ rest, 0 ≤ x.2 := fun x hx => hnn x (List.mem_cons_of_mem _ hx)
    have hr0 := (sum_filter_le rest (fun _ => true) hrest).1
    simp only [List.filter_true] at hr0
    simp only [List.map_cons, List.sum_cons] at hsum
    rw [intMax_eq] at hsum
    unfold sweep
    by_cases h : k < start
    · rw [if_pos h, ih count hc hrest (by rw [intMax_eq]; omega),
        List.filter_cons_of_neg (by simpa using h)]
    · have hw : wrapInt (count + c) = count + c :=
        wrapInt_of_isInt _ ((isInt_iff _).mpr (by omega))
      rw [if_neg h, hw, ih (count + c) (by omega) hrest (by rw [intMax_eq]; omega),
        List.filter_cons_of_pos (by simpa using h)]
      simp only [List.map_cons, List.sum_cons]
      omega

/-- The call written with the mathematical sub-window and window start. -/
theorem tryAcquire_unfold (l : SlidingWindowLimiter) (now cur start : Int)
    (hcfg : l.Configured) (h0 : 0 ≤ now) (hmax : now ≤ intMax)
    (hcur : cur = now / l.smallWindow * l.smallWindow)
    (hstart : start = cur - l.smallWindow * (l.smallWindows - 1)) :
    l.TryAcquire now
      = if (sweep start l.counters 0).2 ≥ l.limit then
          (false, { l with counters := l.counters.filter (fun e => decide (start ≤ e.1)) })
        else
          (true,
            { l with
              counters := Counters.incr (l.counters.filter (fun e => decide (start ≤ e.1))) cur })
      := by
  obtain ⟨hsw, hwin, hwmax, hw⟩ := hcfg
  obtain ⟨c1, c2, c3⟩ := current_eq now l.smallWindow h0 hmax hsw
  obtain ⟨s1, _, _⟩ := start_eq (now / l.smallWindow * l.smallWindow) l.smallWindow
    l.smallWindows l.window c2 (le_trans c3 hmax) hsw hwin hwmax hw
  subst hstart
  subst hcur
  unfold TryAcquire
  simp only [c1, s1, sweep_fst]

theorem tryAcquire_fields (l : SlidingWindowLimiter) (now : Int) :
    (l.TryAcquire now).2.limit = l.limit ∧ (l.TryAcquire now).2.window = l.window ∧
    (l.TryAcquire now).2.smallWindow = l.smallWindow ∧
    (l.TryAcquire now).2.smallWindows = l.smallWindows := by
  unfold TryAcquire
  dsimp only
  split <;> exact ⟨rfl, rfl, rfl, rfl⟩

theorem tryAcquire_configured (l : SlidingWindowLimiter) (now : Int) (h : l.Configured) :
    (l.TryAcquire now).2.Configured := by
  obtain ⟨f1, f2, f3, f4⟩ := l.tryAcquire_fields now
  unfold Configured at h ⊢
  rw [f2, f3, f4]
  exact h

/-- After a call every key is a key of before that is not older than the
window start, or the current sub-window. -/
theorem tryAcquire_keys (l : SlidingWindowLimiter) (now : Int) (hcfg : l.Configured)
    (h0 : 0 ≤ now) (hmax : now ≤ intMax) :
    ∀ k ∈ (l.TryAcquire now).2.counters.map Prod.fst,
      (k ∈ l.counters.map Prod.fst ∧
        now / l.smallWindow * l.smallWindow - l.smallWindow * (l.smallWindows - 1) ≤ k) ∨
      k = now / l.smallWindow * l.smallWindow := by
  have hkept : ∀ k ∈ (l.counters.filter (fun e => decide (now / l.smallWindow * l.smallWindow
      - l.smallWindow * (l.smallWindows - 1) ≤ e.1))).map Prod.fst,
      k ∈ l.counters.map Prod.fst ∧
        now / l.smallWindow * l.smallWindow - l.smallWindow * (l.smallWindows - 1) ≤ k := by
    intro k hk
    obtain ⟨e, he, rfl⟩ := List.mem_map.mp hk
    obtain ⟨hm, hp⟩ := List.mem_filter.mp he
    exact ⟨List.mem_map.mpr ⟨e, hm, rfl⟩, by simpa using hp⟩
  rw [l.tryAcquire_unfold now _ _ hcfg h0 hmax rfl rfl]
  intro k hk
  split at hk
  · exact Or.inl (hkept k hk)
  · simp only [Counters.keys_incr] at hk
    split at hk
    · exact Or.inl (hkept k hk)
    · rcases List.mem_append.mp hk with h1 | h1
      · exact Or.inl (hkept k h1)
      · exact Or.inr (List.mem_singleton.mp h1)

theorem tryAcquire_nodup (l : SlidingWindowLimiter) (now : Int) (hcfg : l.Configured)
    (h0 : 0 ≤ now) (hmax : now ≤ intMax) (hnd : (l.counters.map Prod.fst).Nodup) :
    ((l.TryAcquire now).2.counters.map Prod.fst).Nodup := by
  rw [l.tryAcquire_unfold now _ _ hcfg h0 hmax rfl rfl]
  split
  · exact Counters.nodup_filter _ _ hnd
  · exact Counters.nodup_incr _ _ (Counters.nodup_filter _ _ hnd)

end SlidingWindowLimiter

/-- A duplicate-free list of multiples of `sw` between `cur - sw * (sws - 1)`
and `cur` has at most `sws` elements. -/
theorem keys_length_le (ks : List Int) (cur sw sws : Int) (hsw : 0 < sw) (hsws : 1 ≤ sws)
    (hcur : sw ∣ cur) (hnd : ks.Nodup)
    (hk : ∀ k ∈ ks, sw ∣ k ∧ cur - sw * (sws - 1) ≤ k ∧ k ≤ cur) :
    (ks.length : Int) ≤ sws := by
  have key : ∀ k ∈ ks, ∃ j : Int, cur - k = sw * j ∧ 0 ≤ j ∧ j < sws := by
    intro k hmem
    obtain ⟨hd, hlo, hhi⟩ := hk k hmem
    obtain ⟨j, hj⟩ := Int.dvd_sub hcur hd
    refine ⟨j, hj, ?_, ?_⟩
    · by_contra hneg
      have h1 : j ≤ -1 := by omega
      have h2 : sw * j ≤ sw * (-1) := Int.mul_le_mul_of_nonneg_left h1 (le_of_lt hsw)
      omega
    · by_contra hge
      have h1 : sws ≤ j := by omega
      have h2 : sw * sws ≤ sw * j := Int.mul_le_mul_of_nonneg_left h1 (le_of_lt hsw)
      have h3 : sw * (sws - 1) = sw * sws - sw := by ring
      omega
  have hcard : ks.toFinset.card ≤ (Finset.range sws.toNat).card := by
    apply Finset.card_le_card_of_injOn (fun k => ((cur - k) / sw).toNat)
    · intro k hmem
      obtain ⟨j, hj, hj0, hj1⟩ := key k (List.mem_toFinset.mp hmem)
      have hq : (cur - k) / sw = j := by
        rw [hj]; exact Int.mul_ediv_cancel_left j (ne_of_gt hsw)
      have hlt : ((cur - k) / sw).toNat < sws.toNat := by rw [hq]; omega
      simpa using hlt
    · intro a ha b hb hab
      obtain ⟨ja, hja, hja0, _⟩ := key a (List.mem_toFinset.mp ha)
      obtain ⟨jb, hjb, hjb0, _⟩ := key b (List.mem_toFinset.mp hb)
      have hqa : (cur - a) / sw = ja := by
        rw [hja]; exact Int.mul_ediv_cancel_left ja (ne_of_gt hsw)
      have hqb : (cur - b) / sw = jb := by
        rw [hjb]; exact Int.mul_ediv_cancel_left jb (ne_of_gt hsw)
      simp only [hqa, hqb] at hab
      have hj : ja = jb := by omega
      rw [hj] at hja
      omega
  rw [List.toFinset_card_of_nodup hnd, Finset.card_range] at hcard
  omega

/-- A multiple of `sw` that is at most `now` is at most `floor(now / sw) * sw`. -/
theorem multiple_le_current (k now sw : Int) (hsw : 0 < sw) (hd : sw ∣ k) (hk : k ≤ now) :
    k ≤ now / sw * sw := by
  obtain ⟨j, rfl⟩ := hd
  have h1 : j ≤ now / sw := by
    rw [Int.le_ediv_iff_mul_le hsw, Int.mul_comm]
    exact hk
  rw [Int.mul_comm sw j]
  exact Int.mul_le_mul_of_nonneg_right h1 (le_of_lt hsw)

namespace SlidingWindowLimiter

/-- The invariant behind the memory bound: the keys are distinct multiples of
the sub-window not later than the last clock reading, and there are at most
`smallWindows` of them. -/
theorem tryAcquire_keyInv (l : SlidingWindowLimiter) (t0 now : Int) (hcfg : l.Configured)
    (h0 : 0 ≤ now) (hmax : now ≤ intMax) (ht : t0 ≤ now)
    (hnd : (l.counters.map Prod.fst).Nodup)
    (hk : ∀ k ∈ l.counters.map Prod.fst, l.smallWindow ∣ k ∧ k ≤ t0) :
    ((l.TryAcquire now).2.counters.map Prod.fst).Nodup ∧
    (∀ k ∈ (l.TryAcquire now).2.counters.map Prod.fst, l.smallWindow ∣ k ∧ k ≤ now) ∧
    (∀ k ∈ (l.TryAcquire now).2.counters.map Prod.fst,
      now / l.smallWindow * l.smallWindow - l.smallWindow * (l.smallWindows - 1) ≤ k) ∧
    ((l.TryAcquire now).2.counters.length : Int) ≤ l.smallWindows := by
  have hcfg2 := hcfg
  obtain ⟨hsw, hwin, hwmax, hw⟩ := hcfg2
  obtain ⟨_, c2, c3⟩ := current_eq now l.smallWindow h0 hmax hsw
  obtain ⟨_, s2, s3⟩ := start_eq (now / l.smallWindow * l.smallWindow) l.smallWindow
    l.smallWindows l.window c2 (le_trans c3 hmax) hsw hwin hwmax hw
  have hkeys := l.tryAcquire_keys now hcfg h0 hmax
  have hnd2 := l.tryAcquire_nodup now hcfg h0 hmax hnd
  have hcur : l.smallWindow ∣ now / l.smallWindow * l.smallWindow := Dvd.intro_left _ rfl
  have hall : ∀ k ∈ (l.TryAcquire now).2.counters.map Prod.fst,
      l.smallWindow ∣ k ∧
      now / l.smallWindow * l.smallWindow - l.smallWindow * (l.smallWindows - 1) ≤ k ∧
      k ≤ now / l.smallWindow * l.smallWindow := by
    intro k hmem
    rcases hkeys k hmem with ⟨h1, h2⟩ | h1
    · obtain ⟨hd, hle⟩ := hk k h1
      exact ⟨hd, h2, multiple_le_current k now l.smallWindow hsw hd (le_trans hle ht)⟩
    · rw [h1]
      exact ⟨hcur, s2, le_refl _⟩
  refine ⟨hnd2, fun k hmem => ⟨(hall k hmem).1, le_trans (hall k hmem).2.2 c3⟩,
    fun k hmem => (hall k hmem).2.1, ?_⟩
  have := keys_length_le _ _ _ _ hsw s3 hcur hnd2 hall
  rw [List.length_map] at this
  exact this

theorem slidingWindow_tryAcquireAll_cons (l : SlidingWindowLimiter) (now : Int)
    (rest : List Int) :
    l.tryAcquireAll (now :: rest)
      = ((l.TryAcquire now).1 :: ((l.TryAcquire now).2.tryAcquireAll rest).1,
          ((l.TryAcquire now).2.tryAcquireAll rest).2) :=
  rfl

theorem tryAcquireAll_keyInv (ts : List Int) : ∀ (l : SlidingWindowLimiter) (t0 : Int),
    l.Configured → 0 ≤ t0 → List.Chain (· ≤ ·) t0 ts → (∀ t ∈ ts, t ≤ intMax) →
    (l.counters.map Prod.fst).Nodup →
    (∀ k ∈ l.counters.map Prod.fst, l.smallWindow ∣ k ∧ k ≤ t0) →
    (l.counters.length : Int) ≤ l.smallWindows →
    ((l.tryAcquireAll ts).2.counters.length : Int) ≤ l.smallWindows := by
  induction ts with
  | nil => intro l t0 _ _ _ _ _ _ hlen; exact hlen
  | cons t rest ih =>
    intro l t0 hcfg h0 hchain hmax hnd hk _
    rw [slidingWindow_tryAcquireAll_cons]
    obtain ⟨hle, hchain2⟩ := List.chain_cons.mp hchain
    have ht0 : 0 ≤ t := le_trans h0 hle
    have htmax : t ≤ intMax := hmax t (List.mem_cons_self _ _)
    obtain ⟨i1, i2, _, i4⟩ := l.tryAcquire_keyInv t0 t hcfg ht0 htmax hle hnd hk
    obtain ⟨_, _, f3, f4⟩ := l.tryAcquire_fields t
    have := ih (l.TryAcquire t).2 t (l.tryAcquire_configured t hcfg) ht0 hchain2
      (fun x hx => hmax x (List.mem_cons_of_mem _ hx)) i1 (by rw [f3]; exact i2)
      (by rw [f4]; exact i4)
    rw [f4] at this
    exact this

/-- What a successful construction from `window ≥ smallWindow > 0` returns. -/
theorem new_configured (limit window sw : Int) (l0 : SlidingWindowLimiter) (hsw : 0 < sw)
    (hwin : sw ≤ window) (hmax : window ≤ intMax)
    (hnew : NewSlidingWindowLimiter limit window sw = GoResult.ok l0) :
    l0.Configured ∧ l0.counters = [] ∧ l0.limit = limit ∧ l0.window = window ∧
    l0.smallWindow = sw ∧ l0.smallWindows = window / sw := by
  unfold NewSlidingWindowLimiter at hnew
  rw [if_neg (ne_of_gt hsw)] at hnew
  by_cases hm : goMod window sw ≠ 0
  · rw [if_pos hm] at hnew
    exact GoResult.noConfusion hnew
  · rw [if_neg hm] at hnew
    have hd : sw ∣ window := (goMod_eq_zero_iff _ _).mp (not_not.mp hm)
    have hq0 : 0 ≤ window / sw := Int.ediv_nonneg (by omega) (le_of_lt hsw)
    have hq1 : window / sw ≤ window := Int.ediv_le_self _ (by omega)
    have hq : goDiv window sw = window / sw := by
      apply goDiv_of_dvd _ _ hd
      rw [intMax_eq] at hmax
      exact (isInt_iff _).mpr (by omega)
    cases hnew
    refine ⟨⟨hsw, hwin, hmax, ?_⟩, rfl, rfl, rfl, rfl, hq⟩
    show window = goDiv window sw * sw
    rw [hq, Int.ediv_mul_cancel hd]

/-- The state invariant `WF` is kept by every call. -/
theorem tryAcquire_wf (l : SlidingWindowLimiter) (now : Int) (hwf : l.WF) (h0 : 0 ≤ now)
    (hmax : now ≤ intMax) : (l.TryAcquire now).2.WF := by
  obtain ⟨hcfg, hlim, hnd, hnn, hsum⟩ := hwf
  obtain ⟨f1, _, _, _⟩ := l.tryAcquire_fields now
  refine ⟨l.tryAcquire_configured now hcfg, by rw [f1]; exact hlim,
    l.tryAcquire_nodup now hcfg h0 hmax hnd, ?_⟩
  have hkn : ∀ e ∈ l.counters.filter (fun e => decide (now / l.smallWindow * l.smallWindow
      - l.smallWindow * (l.smallWindows - 1) ≤ e.1)), 0 ≤ e.2 :=
    fun e he => hnn e (List.mem_filter.mp he).1
  have hks := sum_filter_le l.counters (fun e => decide (now / l.smallWindow * l.smallWindow
      - l.smallWindow * (l.smallWindows - 1) ≤ e.1)) hnn
  have hsw := sweep_snd (now / l.smallWindow * l.smallWindow
      - l.smallWindow * (l.smallWindows - 1)) l.counters 0 (le_refl 0) hnn (by omega)
  rw [l.tryAcquire_unfold now _ _ hcfg h0 hmax rfl rfl, hsw]
  split
  · refine ⟨hkn, ?_⟩
    show ((l.counters.filter _).map Prod.snd).sum ≤ intMax
    omega
  · rename_i hlt
    have hlim2 := (isInt_iff _).mp hlim
    obtain ⟨i1, i2⟩ := Counters.sum_incr _ (now / l.smallWindow * l.smallWindow) hkn
      (by rw [intMax_eq]; omega)
    refine ⟨i2, ?_⟩
    show ((Counters.incr _ _).map Prod.snd).sum ≤ intMax
    rw [i1, intMax_eq]
    omega

/-- The limiter returned by the constructor is well formed. -/
theorem new_wf (limit window sw : Int) (l0 : SlidingWindowLimiter) (hsw : 0 < sw)
    (hwin : sw ≤ window) (hmax : window ≤ intMax) (hlim : IsInt limit)
    (hnew : NewSlidingWindowLimiter limit window sw = GoResult.ok l0) : l0.WF := by
  obtain ⟨hcfg, hc, hl, _, _, _⟩ := new_configured limit window sw l0 hsw hwin hmax hnew
  refine ⟨hcfg, by rw [hl]; exact hlim, ?_, ?_, ?_⟩
  · rw [hc]; exact List.nodup_nil
  · rw [hc]; intro e he; exact absurd he (List.not_mem_nil _)
  · rw [hc, intMax_eq]; decide

/-- Every state reached by calls at clock readings `0 ≤ t` is well formed. -/
theorem tryAcquireAll_wf (ts : List Int) : ∀ l : SlidingWindowLimiter,
    l.WF → (∀ t ∈ ts, 0 ≤ t ∧ t ≤ intMax) → (l.tryAcquireAll ts).2.WF := by
  induction ts with
  | nil => intro l h _; exact h
  | cons t rest ih =>
    intro l h hts
    obtain ⟨h0, hmax⟩ := hts t (List.mem_cons_self _ _)
    exact ih _ (l.tryAcquire_wf t h h0 hmax) (fun x hx => hts x (List.mem_cons_of_mem _ hx))

end SlidingWindowLimiter

end SlidingWindowLemmas

/-- C12. One step of the sliding window, for a well-formed limiter and a clock
reading `0 ≤ now`.  With `cur = floor(now / smallWindow) * smallWindow`,
`start = cur - smallWindow * (smallWindows - 1)` and `total` the sum of the
counts of all entries with key `≥ start`: the call returns true iff
`total < limit`.  On true the count at key `cur` is one more than before (1
for a missing key), no other retained entry changes and no other key is
inserted; on false no retained entry changes and no key is inserted. -/
theorem slidingWindow_tryAcquire_step (l : SlidingWindowLimiter) (now cur start total : Int)
    (hwf : l.WF) (h0 : 0 ≤ now) (hmax : now ≤ intMax)
    (hcur : cur = now / l.smallWindow * l.smallWindow)
    (hstart : start = cur - l.smallWindow * (l.smallWindows - 1))
    (htotal : total
      = ((l.counters.filter (fun e => decide (start ≤ e.1))).map Prod.snd).sum) :
    ((l.TryAcquire now).1 = true ↔ total < l.limit) ∧
    ((l.TryAcquire now).1 = true →
      Counters.get (l.TryAcquire now).2.counters cur
        = some ((Counters.get l.counters cur).getD 0 + 1) ∧
      (∀ k, k ≠ cur → start ≤ k →
        Counters.get (l.TryAcquire now).2.counters k = Counters.get l.counters k) ∧
      (∀ k, k ≠ cur → Counters.get l.counters k = none →
        Counters.get (l.TryAcquire now).2.counters k = none)) ∧
    ((l.TryAcquire now).1 = false →
      (∀ k, start ≤ k →
        Counters.get (l.TryAcquire now).2.counters k = Counters.get l.counters k) ∧
      (∀ k, Counters.get l.counters k = none →
        Counters.get (l.TryAcquire now).2.counters k = none)) := by
  obtain ⟨hcfg, hlim, hnd, hnn, hsum⟩ := hwf
  have hcfg2 := hcfg
  obtain ⟨hsw, hwin, hwmax, hw⟩ := hcfg2
  obtain ⟨_, c2, c3⟩ := current_eq now l.smallWindow h0 hmax hsw
  obtain ⟨_, s2, _⟩ := start_eq (now / l.smallWindow * l.smallWindow) l.smallWindow
    l.smallWindows l.window c2 (le_trans c3 hmax) hsw hwin hwmax hw
  have hsc : start ≤ cur := by rw [hstart, hcur]; exact s2
  have hkn : ∀ e ∈ l.counters.filter (fun e => decide (start ≤ e.1)), 0 ≤ e.2 :=
    fun e he => hnn e (List.mem_filter.mp he).1
  have hks := SlidingWindowLimiter.sum_filter_le l.counters
    (fun e => decide (start ≤ e.1)) hnn
  have hsweep := SlidingWindowLimiter.sweep_snd start l.counters 0 (le_refl 0) hnn (by omega)
  rw [Int.zero_add, ← htotal] at hsweep
  rw [← htotal] at hks
  have hlim2 := (isInt_iff _).mp hlim
  have hget : ∀ k, Counters.get (l.counters.filter (fun e => decide (start ≤ e.1))) k
      = if start ≤ k then Counters.get l.counters k else none :=
    fun k => Counters.get_filter start l.counters k
  rw [l.tryAcquire_unfold now cur start hcfg h0 hmax hcur hstart, hsweep]
  by_cases hlt : total < l.limit
  · rw [if_neg (by omega)]
    refine ⟨⟨fun _ => hlt, fun _ => rfl⟩, fun _ => ⟨?_, ?_, ?_⟩,
      fun hf => Bool.noConfusion hf⟩
    · show Counters.get (Counters.incr _ cur) cur = _
      rw [Counters.get_incr, if_pos rfl, hget cur, if_pos hsc]
      congr 1
      apply wrapInt_of_isInt
      rw [isInt_iff]
      cases hc : Counters.get l.counters cur with
      | none => simp only [Option.getD_none]; omega
      | some c =>
        simp only [Option.getD_some]
        have hmem : (cur, c) ∈ l.counters.filter (fun e => decide (start ≤ e.1)) :=
          List.mem_filter.mpr ⟨Counters.get_mem _ _ _ hc, by simpa using hsc⟩
        have h1 := Counters.le_sum_of_mem _ hkn _ hmem
        have h2 := hkn _ hmem
        rw [← htotal] at h1
        simp only at h1 h2
        omega
    · intro k hk hsk
      show Counters.get (Counters.incr _ cur) k = _
      rw [Counters.get_incr, if_neg hk, hget k, if_pos hsk]
    · intro k hk hnone
      show Counters.get (Counters.incr _ cur) k = _
      rw [Counters.get_incr, if_neg hk, hget k, hnone]
      split <;> rfl
  · rw [if_pos (by omega)]
    refine ⟨⟨fun hf => Bool.noConfusion hf, fun h => absurd h hlt⟩,
      fun hf => Bool.noConfusion hf, fun _ => ⟨?_, ?_⟩⟩
    · intro k hsk
      show Counters.get (l.counters.filter _) k = _
      rw [hget k, if_pos hsk]
    · intro k hnone
      show Counters.get (l.counters.filter _) k = _
      rw [hget k, hnone]
      split <;> rfl

/-- Witness for C12: limit 3, window 10, sub-window 2, entries 2 at key 0 and
1 at key 2, called at time 11: `cur = 10`, `start = 2`, `total = 1`. -/
theorem slidingWindow_tryAcquire_step_witness :
    (SlidingWindowLimiter.mk 3 10 2 5 [(0, 2), (2, 1)]).WF ∧
    (((SlidingWindowLimiter.mk 3 10 2 5 [(0, 2), (2, 1)]).TryAcquire 11).1 = true
      ↔ (1 : Int) < 3) ∧
    Counters.get ((SlidingWindowLimiter.mk 3 10 2 5 [(0, 2), (2, 1)]).TryAcquire 11).2.counters
      10 = some 1 :=
  ⟨by decide,
   (slidingWindow_tryAcquire_step (SlidingWindowLimiter.mk 3 10 2 5 [(0, 2), (2, 1)])
      11 10 2 1 (by decide) (by decide) (by decide) (by decide) (by decide) (by decide)).1,
   ((slidingWindow_tryAcquire_step (SlidingWindowLimiter.mk 3 10 2 5 [(0, 2), (2, 1)])
      11 10 2 1 (by decide) (by decide) (by decide) (by decide) (by decide) (by decide)).2.1
      (by decide)).1⟩

/-- C13. Purge and memory bound of the sliding window, for a limiter built
from `window ≥ smallWindow > 0`.  After every call at a clock reading
`0 ≤ now`, whatever the map was, no key is older than the start of the
trailing window; and after every sequence of calls with non-negative,
non-decreasing clock readings the map has at most `window / smallWindow`
entries. -/
theorem slidingWindow_purge_bound (limit window sw : Int) (l0 : SlidingWindowLimiter)
    (hsw : 0 < sw) (hwin : sw ≤ window) (hmax : window ≤ intMax)
    (hnew : NewSlidingWindowLimiter limit window sw = GoResult.ok l0) :
    (∀ (m : Counters) (now : Int), 0 ≤ now → now ≤ intMax →
      ∀ e ∈ (SlidingWindowLimiter.TryAcquire { l0 with counters := m } now).2.counters,
        now / sw * sw - sw * (window / sw - 1) ≤ e.1) ∧
    (∀ ts : List Int, List.Chain (· ≤ ·) 0 ts → (∀ t ∈ ts, t ≤ intMax) →
      ((l0.tryAcquireAll ts).2.counters.length : Int) ≤ window / sw) := by
  obtain ⟨hcfg, hc, _, hw, hs, hq⟩ :=
    SlidingWindowLimiter.new_configured limit window sw l0 hsw hwin hmax hnew
  constructor
  · intro m now h0 hnmax e he
    have hcfg2 : SlidingWindowLimiter.Configured { l0 with counters := m } := hcfg
    have hk := SlidingWindowLimiter.tryAcquire_keys { l0 with counters := m } now hcfg2
      h0 hnmax e.1 (List.mem_map.mpr ⟨e, he, rfl⟩)
    obtain ⟨_, c2, c3⟩ := current_eq now sw h0 hnmax hsw
    obtain ⟨_, s2, _⟩ := start_eq (now / sw * sw) sw (window / sw) window c2
      (le_trans c3 hnmax) hsw hwin hmax (by rw [← hq, ← hs]; exact hw ▸ hcfg.2.2.2)
    simp only [hs, hq] at hk
    rcases hk with ⟨_, h2⟩ | h1
    · exact h2
    · rw [h1]; exact s2
  · intro ts hchain htmax
    have h1 : ((l0.counters.length : Nat) : Int) ≤ l0.smallWindows := by
      rw [hc, hq]
      have : 1 ≤ window / sw := by
        rw [Int.le_ediv_iff_mul_le hsw]; omega
      simp only [List.length_nil, Nat.cast_zero]
      omega
    have := SlidingWindowLimiter.tryAcquireAll_keyInv ts l0 0 hcfg (le_refl 0) hchain htmax
      (by rw [hc]; exact List.nodup_nil) (by rw [hc]; intro k hk; exact absurd hk (List.not_mem_nil _)) h1
    rw [hq] at this
    exact this

/-- Witness for C13: limit 3, window 10, sub-window 2 and the clock readings
0, 1, 4, 11, 15. -/
theorem slidingWindow_purge_bound_witness :
    (((SlidingWindowLimiter.mk 3 10 2 5 []).tryAcquireAll [0, 1, 4, 11, 15]).2.counters.length
      : Int) ≤ 10 / 2 :=
  (slidingWindow_purge_bound 3 10 2 (SlidingWindowLimiter.mk 3 10 2 5 []) (by decide)
    (by decide) (by decide) rfl).2 [0, 1, 4, 11, 15] (by simp) (by decide)


/-- C11. Construction of the sliding window: for a non-zero `smallWindow`,
`NewSlidingWindowLimiter` returns an error iff `window` is not an integer
multiple of `smallWindow` and a limiter otherwise; the limiter has an empty
counter map and `smallWindows` is Go's quotient `window / smallWindow`, which
is the exact quotient whenever that is an `int64`. -/
theorem slidingWindow_new (limit window smallWindow : Int) (hsw : smallWindow ≠ 0) :
    ((∃ msg, NewSlidingWindowLimiter limit window smallWindow = GoResult.failed msg)
      ↔ ¬ smallWindow ∣ window) ∧
    ((∃ l, NewSlidingWindowLimiter limit window smallWindow = GoResult.ok l)
      ↔ smallWindow ∣ window) ∧
    (∀ l, NewSlidingWindowLimiter limit window smallWindow = GoResult.ok l →
      l.counters = [] ∧ l.smallWindows = goDiv window smallWindow ∧
      (IsInt (window / smallWindow) → l.smallWindows = window / smallWindow) ∧
      l.limit = limit ∧ l.window = window ∧ l.smallWindow = smallWindow) := by
  unfold NewSlidingWindowLimiter
  rw [if_neg hsw]
  by_cases hd : smallWindow ∣ window
  · have hm : ¬ goMod window smallWindow ≠ 0 := not_not.mpr ((goMod_eq_zero_iff _ _).mpr hd)
    rw [if_neg hm]
    refine ⟨?_, ?_, ?_⟩
    · constructor
      · rintro ⟨msg, h⟩
        exact GoResult.noConfusion h
      · intro h
        exact absurd hd h
    · exact ⟨fun _ => hd, fun _ => ⟨_, rfl⟩⟩
    · intro l hl
      cases hl
      exact ⟨rfl, rfl, fun hq => goDiv_of_dvd _ _ hd hq, rfl, rfl, rfl⟩
  · have hm : goMod window smallWindow ≠ 0 := fun h => hd ((goMod_eq_zero_iff _ _).mp h)
    rw [if_pos hm]
    refine ⟨?_, ?_, ?_⟩
    · exact ⟨fun _ => hd, fun _ => ⟨_, rfl⟩⟩
    · constructor
      · rintro ⟨l, h⟩
        exact GoResult.noConfusion h
      · intro h
        exact absurd h hd
    · intro l hl
      exact GoResult.noConfusion hl

/-- Witness for C11: window 10 and sub-window 2 give five sub-windows; window
10 and sub-window 3 give an error. -/
theorem slidingWindow_new_witness :
    (2 : Int) ≠ 0 ∧ (3 : Int) ≠ 0 ∧
    ((∃ l, NewSlidingWindowLimiter 3 10 2 = GoResult.ok l) ↔ (2 : Int) ∣ 10) ∧
    ((∃ msg, NewSlidingWindowLimiter 3 10 3 = GoResult.failed msg) ↔ ¬ (3 : Int) ∣ 10) :=
  ⟨by decide, by decide, (slidingWindow_new 3 10 2 (by decide)).2.1,
   (slidingWindow_new 3 10 3 (by decide)).1⟩

/-! ## Theorems: sliding log -/

section SlidingLogLemmas

theorem strategyBefore_iff (a b : SlidingLogLimiterStrategy) :
    strategyBefore a b ↔ (b.window < a.window ∨ (b.window = a.window ∧ b.limit ≤ a.limit)) := by
  unfold strategyBefore strategyLess
  by_cases h : b.window = a.window
  · rw [if_pos h, decide_eq_false_iff_not]
    omega
  · rw [if_neg h, decide_eq_false_iff_not]
    omega

instance strategyBefore_total : IsTotal SlidingLogLimiterStrategy strategyBefore :=
  ⟨fun a b => by rw [strategyBefore_iff, strategyBefore_iff]; omega⟩

instance strategyBefore_trans : IsTrans SlidingLogLimiterStrategy strategyBefore :=
  ⟨fun a b c => by rw [strategyBefore_iff, strategyBefore_iff, strategyBefore_iff]; omega⟩

theorem sortStrategies_perm (l : List SlidingLogLimiterStrategy) :
    (sortStrategies l).Perm l :=
  List.perm_insertionSort strategyBefore l

theorem sortStrategies_sorted (l : List SlidingLogLimiterStrategy) :
    (sortStrategies l).Pairwise
      (fun a b => b.window < a.window ∨ (b.window = a.window ∧ b.limit ≤ a.limit)) := by
  have h : (sortStrategies l).Pairwise strategyBefore := List.sorted_insertionSort strategyBefore l
  exact h.imp (fun hab => (strategyBefore_iff _ _).mp hab)

/-- Two permutations of the same strategies that are both sorted by descending
window, ties by descending limit, list the same windows and limits in the
same order: the outcome of `sort.Slice` does not depend on how it breaks
ties. -/
theorem sorted_strategies_unique (p q : List SlidingLogLimiterStrategy) (hpq : p.Perm q)
    (hp : p.Pairwise
      (fun a b => b.window < a.window ∨ (b.window = a.window ∧ b.limit ≤ a.limit)))
    (hq : q.Pairwise
      (fun a b => b.window < a.window ∨ (b.window = a.window ∧ b.limit ≤ a.limit))) :
    p.map (fun s => (s.window, s.limit)) = q.map (fun s => (s.window, s.limit)) := by
  have hanti : IsAntisymm (Int × Int)
      (fun x y => y.1 < x.1 ∨ (y.1 = x.1 ∧ y.2 ≤ x.2)) :=
    ⟨fun x y hxy hyx => by
      have h1 : x.1 = y.1 := by omega
      have h2 : x.2 = y.2 := by omega
      exact Prod.ext h1 h2⟩
  exact @List.eq_of_perm_of_sorted _ (fun x y => y.1 < x.1 ∨ (y.1 = x.1 ∧ y.2 ≤ x.2)) hanti
    _ _ (hpq.map _) (List.pairwise_map.mpr hp) (List.pairwise_map.mpr hq)

/-- The checking loop on a non-zero sub-window: it succeeds exactly when every
window is a multiple of the sub-window and every limit is strictly below the
limit before it, and then it only fills in `smallWindows`. -/
theorem checkStrategies_spec (sw : Int) (hsw : sw ≠ 0) :
    ∀ (l : List SlidingLogLimiterStrategy) (prev : Option SlidingLogLimiterStrategy),
      (checkStrategies sw prev l
          = GoResult.ok (l.map (fun s => { s with smallWindows := goDiv s.window sw })) ∧
        (∀ s ∈ l, sw ∣ s.window) ∧
        List.Chain' (fun a b => b.limit < a.limit) (prev.toList ++ l)) ∨
      ((∃ msg, checkStrategies sw prev l = GoResult.failed msg) ∧
        ¬ ((∀ s ∈ l, sw ∣ s.window) ∧
          List.Chain' (fun a b => b.limit < a.limit) (prev.toList ++ l))) := by
  intro l
  induction l with
  | nil =>
    intro prev
    left
    refine ⟨rfl, fun s hs => absurd hs (List.not_mem_nil _), ?_⟩
    cases prev <;> simp
  | cons s rest ih =>
    intro prev
    unfold checkStrategies
    by_cases hlim : (match prev with
        | some p => decide (s.limit ≥ p.limit)
        | none => false) = true
    · right
      rw [if_pos hlim]
      refine ⟨⟨_, rfl⟩, ?_⟩
      rintro ⟨_, hch⟩
      cases prev with
      | none => simp at hlim
      | some p =>
        simp only [decide_eq_true_eq] at hlim
        simp only [Option.toList_some, List.singleton_append, List.chain'_cons] at hch
        omega
    · rw [if_neg hlim, if_neg hsw]
      have hprev : List.Chain' (fun a b : SlidingLogLimiterStrategy => b.limit < a.limit)
          (prev.toList ++ s :: rest) ↔
          List.Chain' (fun a b : SlidingLogLimiterStrategy => b.limit < a.limit)
            ((some s).toList ++ rest) := by
        cases prev with
        | none => simp
        | some p =>
          simp only [decide_eq_true_eq, not_le] at hlim
          simp only [Option.toList_some, List.singleton_append, List.chain'_cons]
          exact ⟨fun h => h.2, fun h => ⟨hlim, h⟩⟩
      by_cases hm : goMod s.window sw ≠ 0
      · right
        rw [if_pos hm]
        refine ⟨⟨_, rfl⟩, ?_⟩
        rintro ⟨hd, _⟩
        exact hm ((goMod_eq_zero_iff _ _).mpr (hd s (List.mem_cons_self _ _)))
      · rw [if_neg hm]
        have hds : sw ∣ s.window := (goMod_eq_zero_iff _ _).mp (not_not.mp hm)
        rcases ih (some s) with ⟨h1, h2, h3⟩ | ⟨⟨msg, h1⟩, h2⟩
        · left
          rw [h1]
          refine ⟨rfl, ?_, hprev.mpr h3⟩
          intro x hx
          rcases List.mem_cons.mp hx with rfl | hx
          · exact hds
          · exact h2 x hx
        · right
          rw [h1]
          refine ⟨⟨_, rfl⟩, ?_⟩
          rintro ⟨hd, hch⟩
          exact h2 ⟨fun x hx => hd x (List.mem_cons_of_mem _ hx), hprev.mp hch⟩

/-- The constructor on a non-zero sub-window. -/
theorem newSlidingLog_spec (sw : Int) (strategies : List SlidingLogLimiterStrategy)
    (hsw : sw ≠ 0) :
    (NewSlidingLogLimiter sw strategies
        = GoResult.ok { strategies := (sortStrategies strategies).map
                          (fun s => { s with smallWindows := goDiv s.window sw }),
                        smallWindow := sw, counters := [] } ∧
      strategies ≠ [] ∧ (∀ s ∈ strategies, sw ∣ s.window) ∧
      List.Chain' (fun a b => b.limit < a.limit) (sortStrategies strategies)) ∨
    ((∃ msg, NewSlidingLogLimiter sw strategies = GoResult.failed msg) ∧
      ¬ (strategies ≠ [] ∧ (∀ s ∈ strategies, sw ∣ s.window) ∧
        List.Chain' (fun a b => b.limit < a.limit) (sortStrategies strategies))) := by
  unfold NewSlidingLogLimiter
  by_cases hlen : strategies.length = 0
  · right
    rw [if_pos hlen]
    refine ⟨⟨_, rfl⟩, ?_⟩
    rintro ⟨hne, _⟩
    exact hne (List.length_eq_zero.mp hlen)
  · rw [if_neg hlen]
    have hne : strategies ≠ [] := fun h => hlen (by rw [h]; rfl)
    have hmem : (∀ s ∈ sortStrategies strategies, sw ∣ s.window) ↔
        (∀ s ∈ strategies, sw ∣ s.window) :=
      ⟨fun h s hs => h s ((sortStrategies_perm strategies).mem_iff.mpr hs),
       fun h s hs => h s ((sortStrategies_perm strategies).mem_iff.mp hs)⟩
    rcases checkStrategies_spec sw hsw (sortStrategies strategies) none with
      ⟨h1, h2, h3⟩ | ⟨⟨msg, h1⟩, h2⟩
    · left
      rw [h1]
      exact ⟨rfl, hne, hmem.mp h2, by simpa using h3⟩
    · right
      rw [h1]
      refine ⟨⟨_, rfl⟩, ?_⟩
      rintro ⟨_, hd, hch⟩
      exact h2 ⟨hmem.mpr hd, by simpa using hch⟩

theorem zipWith_snd_of_length {α : Type} (xs : List α) : ∀ ys : List Int,
    ys.length = xs.length → List.zipWith (fun _ y => y) xs ys = ys := by
  induction xs with
  | nil =>
    intro ys h
    cases ys with
    | nil => rfl
    | cons y ys => simp at h
  | cons x xs ih =>
    intro ys h
    cases ys with
    | nil => simp at h
    | cons y ys =>
      simp only [List.length_cons, add_left_inj] at h
      simp only [List.zipWith_cons_cons, ih ys h]

theorem zipWith_zipWith_same {α : Type} (f g : α → Int → Int) (xs : List α) :
    ∀ ys : List Int, List.zipWith g xs (List.zipWith f xs ys)
      = List.zipWith (fun x y => g x (f x y)) xs ys := by
  induction xs with
  | nil => intro ys; rfl
  | cons x xs ih =>
    intro ys
    cases ys with
    | nil => rfl
    | cons y ys => simp only [List.zipWith_cons_cons, ih ys]

theorem zipWith_map_replicate {α : Type} (h : Int → Int → Int) (g : α → Int) (xs : List α) :
    List.zipWith h (xs.map g) (List.replicate xs.length 0) = xs.map (fun x => h (g x) 0) := by
  induction xs with
  | nil => rfl
  | cons x xs ih =>
    simp only [List.map_cons, List.length_cons, List.replicate_succ, List.zipWith_cons_cons, ih]

namespace SlidingLogLimiter

theorem slidingLog_sweep_fst (starts : List Int) (m : Counters) : ∀ counts : List Int,
    (sweep starts m counts).1 = m.filter (fun e => decide (starts.headD 0 ≤ e.1)) := by
  induction m with
  | nil => intro counts; rfl
  | cons e rest ih =>
    intro counts
    obtain ⟨k, c⟩ := e
    unfold sweep
    by_cases h : k < starts.headD 0
    · rw [if_pos h, ih, List.filter_cons_of_neg (by simpa using h)]
    · rw [if_neg h, ih, List.filter_cons_of_pos (by simpa using h)]

theorem bump_length (starts : List Int) (k c : Int) (counts : List Int)
    (h : counts.length = starts.length) : (bump starts k c counts).length = starts.length := by
  unfold bump
  rw [List.length_zipWith, h, Nat.min_self]

theorem countOne_cons (s0 st k c : Int) (rest : Counters) (cnt : Int) :
    countOne s0 st ((k, c) :: rest) cnt
      = if k < s0 then countOne s0 st rest cnt
        else countOne s0 st rest (if k ≥ st then wrapInt (cnt + c) else cnt) := rfl

/-- The loop over the map counts for every strategy what `countOne` counts. -/
theorem slidingLog_sweep_snd (starts : List Int) (m : Counters) : ∀ counts : List Int,
    counts.length = starts.length →
    (sweep starts m counts).2
      = List.zipWith (fun st cnt => countOne (starts.headD 0) st m cnt) starts counts := by
  induction m with
  | nil =>
    intro counts h
    show counts = List.zipWith (fun _ cnt => cnt) starts counts
    rw [zipWith_snd_of_length starts counts h]
  | cons e rest ih =>
    intro counts h
    obtain ⟨k, c⟩ := e
    unfold sweep
    by_cases hk : k < starts.headD 0
    · rw [if_pos hk, ih counts h]
      simp only [countOne_cons, if_pos hk]
    · rw [if_neg hk, ih _ (bump_length starts k c counts h)]
      unfold bump
      rw [zipWith_zipWith_same]
      simp only [countOne_cons, if_neg hk]

/-- Without overflow `countOne` adds up the counts of the entries that are
neither deleted nor outside the window of the strategy. -/
theorem countOne_eq (s0 st : Int) (m : Counters) : ∀ cnt : Int,
    0 ≤ cnt → (∀ e ∈ m, 0 ≤ e.2) → cnt + (m.map Prod.snd).sum ≤ intMax →
    countOne s0 st m cnt
      = cnt + ((m.filter (fun e => decide (s0 ≤ e.1) && decide (st ≤ e.1))).map Prod.snd).sum := by
  induction m with
  | nil => intro cnt _ _ _; simp [countOne]
  | cons e rest ih =>
    intro cnt hc hnn hsum
    obtain ⟨k, c⟩ := e
    have hc0 : 0 ≤ c := hnn (k, c) (List.mem_cons_self _ _)
    have hrest : ∀ x ∈ rest, 0 ≤ x.2 := fun x hx => hnn x (List.mem_cons_of_mem _ hx)
    have hr0 := Counters.sum_nonneg rest hrest
    simp only [List.map_cons, List.sum_cons] at hsum
    rw [intMax_eq] at hsum
    rw [countOne_cons]
    by_cases hk : k < s0
    · rw [if_pos hk, ih cnt hc hrest (by rw [intMax_eq]; omega),
        List.filter_cons_of_neg (by simp; omega)]
    · rw [if_neg hk]
      by_cases hst : k ≥ st
      · have hw : wrapInt (cnt + c) = cnt + c :=
          wrapInt_of_isInt _ ((isInt_iff _).mpr (by omega))
        rw [if_pos hst, hw, ih (cnt + c) (by omega) hrest (by rw [intMax_eq]; omega),
          List.filter_cons_of_pos (by simp; omega)]
        simp only [List.map_cons, List.sum_cons]
        omega
      · rw [if_neg hst, ih cnt hc hrest (by rw [intMax_eq]; omega),
          List.filter_cons_of_neg (by simp; omega)]

theorem firstViolation_map (f : SlidingLogLimiterStrategy → Int) :
    ∀ ss : List SlidingLogLimiterStrategy,
      firstViolation ss (ss.map f)
        = (ss.find? (fun s => decide (s.limit ≤ f s))).map
            (fun s => { Limit := s.limit, Window := s.window }) := by
  intro ss
  induction ss with
  | nil => rfl
  | cons s rest ih =>
    rw [List.map_cons]
    unfold firstViolation
    by_cases h : f s ≥ s.limit
    · rw [if_pos h, List.find?_cons_of_pos _ (by simpa using h)]
      rfl
    · rw [if_neg h, List.find?_cons_of_neg _ (by simpa using h), ih]

/-- The window starts computed by the code are `cur - sw * (sws - 1)`. -/
theorem starts_eq (l : SlidingLogLimiter) (now : Int) (hcfg : l.Configured) (h0 : 0 ≤ now)
    (hmax : now ≤ intMax) :
    goMul (goDiv now l.smallWindow) l.smallWindow = now / l.smallWindow * l.smallWindow ∧
    l.strategies.map (fun strategy =>
        goSub (goMul (goDiv now l.smallWindow) l.smallWindow)
          (goMul l.smallWindow (goSub strategy.smallWindows 1)))
      = l.strategies.map (fun s =>
          now / l.smallWindow * l.smallWindow - l.smallWindow * (s.smallWindows - 1)) := by
  obtain ⟨hsw, _, hwin, _, _⟩ := hcfg
  obtain ⟨c1, c2, c3⟩ := current_eq now l.smallWindow h0 hmax hsw
  refine ⟨c1, ?_⟩
  rw [c1]
  apply List.map_congr_left
  intro s hs
  obtain ⟨w1, w2, w3⟩ := hwin s hs
  exact (start_eq _ l.smallWindow s.smallWindows s.window c2 (le_trans c3 hmax) hsw w1 w2 w3).1

/-- The call written with the mathematical sub-window and window starts. -/
theorem slidingLog_tryAcquire_raw (l : SlidingLogLimiter) (now cur start0 : Int)
    (s0 : SlidingLogLimiterStrategy) (rest : List SlidingLogLimiterStrategy)
    (hcfg : l.Configured) (h0 : 0 ≤ now) (hmax : now ≤ intMax)
    (hcur : cur = now / l.smallWindow * l.smallWindow) (hhead : l.strategies = s0 :: rest)
    (hstart0 : start0 = cur - l.smallWindow * (s0.smallWindows - 1)) :
    l.TryAcquire now
      = match firstViolation l.strategies
          (sweep (l.strategies.map (fun s => cur - l.smallWindow * (s.smallWindows - 1)))
            l.counters (List.replicate l.strategies.length 0)).2 with
        | some err =>
          (some err, { l with counters := l.counters.filter (fun e => decide (start0 ≤ e.1)) })
        | none =>
          (none,
            { l with
              counters := Counters.incr (l.counters.filter (fun e => decide (start0 ≤ e.1))) cur })
    := by
  obtain ⟨c1, c2⟩ := l.starts_eq now hcfg h0 hmax
  have hd : (l.strategies.map (fun s => cur - l.smallWindow * (s.smallWindows - 1))).headD 0
      = start0 := by
    rw [hhead, hstart0]; rfl
  subst hcur
  rw [c1] at c2
  unfold TryAcquire
  simp only [c1, c2, slidingLog_sweep_fst, hd]

theorem slidingLog_tryAcquire_fields (l : SlidingLogLimiter) (now : Int) :
    (l.TryAcquire now).2.strategies = l.strategies ∧
    (l.TryAcquire now).2.smallWindow = l.smallWindow := by
  unfold TryAcquire
  dsimp only
  split <;> exact ⟨rfl, rfl⟩

theorem slidingLog_tryAcquire_configured (l : SlidingLogLimiter) (now : Int)
    (h : l.Configured) : (l.TryAcquire now).2.Configured := by
  obtain ⟨f1, f2⟩ := l.slidingLog_tryAcquire_fields now
  unfold Configured at h ⊢
  rw [f1, f2]
  exact h

/-- Whatever the counts are, after a call the map is the old map without the
entries older than the widest window, with the current sub-window counted
once more when the call is let in. -/
theorem slidingLog_tryAcquire_cases (l : SlidingLogLimiter) (now cur start0 : Int)
    (s0 : SlidingLogLimiterStrategy) (rest : List SlidingLogLimiterStrategy)
    (hcfg : l.Configured) (h0 : 0 ≤ now) (hmax : now ≤ intMax)
    (hcur : cur = now / l.smallWindow * l.smallWindow) (hhead : l.strategies = s0 :: rest)
    (hstart0 : start0 = cur - l.smallWindow * (s0.smallWindows - 1)) :
    ((l.TryAcquire now).1.isSome = true ∧
      (l.TryAcquire now).2.counters = l.counters.filter (fun e => decide (start0 ≤ e.1))) ∨
    ((l.TryAcquire now).1 = none ∧
      (l.TryAcquire now).2.counters
        = Counters.incr (l.counters.filter (fun e => decide (start0 ≤ e.1))) cur) := by
  rw [l.slidingLog_tryAcquire_raw now cur start0 s0 rest hcfg h0 hmax hcur hhead hstart0]
  split
  · exact Or.inl ⟨rfl, rfl⟩
  · exact Or.inr ⟨rfl, rfl⟩

/-- The start of the widest window is not later than the start of any other
window, nor than the current sub-window. -/
theorem start0_le (l : SlidingLogLimiter) (cur : Int) (s0 : SlidingLogLimiterStrategy)
    (rest : List SlidingLogLimiterStrategy) (hcfg : l.Configured)
    (hhead : l.strategies = s0 :: rest) :
    (∀ s ∈ l.strategies, cur - l.smallWindow * (s0.smallWindows - 1)
      ≤ cur - l.smallWindow * (s.smallWindows - 1)) ∧
    (∀ s ∈ l.strategies, cur - l.smallWindow * (s.smallWindows - 1) ≤ cur) ∧
    1 ≤ s0.smallWindows := by
  obtain ⟨hsw, _, hwin, hpw, _⟩ := hcfg
  have hprod : ∀ s ∈ l.strategies, l.smallWindow * (s.smallWindows - 1)
      = s.window - l.smallWindow := by
    intro s hs
    obtain ⟨_, _, w3⟩ := hwin s hs
    rw [w3]; ring
  have hs0 : s0 ∈ l.strategies := by rw [hhead]; exact List.mem_cons_self _ _
  refine ⟨?_, ?_, ?_⟩
  · intro s hs
    have hle : s.window ≤ s0.window := by
      rw [hhead] at hs hpw
      rcases List.mem_cons.mp hs with rfl | hmem
      · exact le_refl _
      · exact (List.pairwise_cons.mp hpw).1 s hmem
    rw [hprod s hs, hprod s0 hs0]
    omega
  · intro s hs
    obtain ⟨w1, _, _⟩ := hwin s hs
    rw [hprod s hs]
    omega
  · obtain ⟨w1, _, w3⟩ := hwin s0 hs0
    by_contra hcon
    have h1 : s0.smallWindows ≤ 0 := by omega
    have h2 : s0.smallWindows * l.smallWindow ≤ 0 :=
      Int.mul_nonpos_of_nonpos_of_nonneg h1 (le_of_lt hsw)
    omega

/-- For a well-formed limiter the outcome is decided by the mathematical
counts: the first strategy, in stored order, whose count has reached its
limit. -/
theorem slidingLog_violation_eq (l : SlidingLogLimiter) (cur : Int)
    (cnt : SlidingLogLimiterStrategy → Int)
    (s0 : SlidingLogLimiterStrategy) (rest : List SlidingLogLimiterStrategy)
    (hwf : l.WF) (hhead : l.strategies = s0 :: rest)
    (hcnt : ∀ s, cnt s = ((l.counters.filter (fun e =>
      decide (cur - l.smallWindow * (s.smallWindows - 1) ≤ e.1))).map Prod.snd).sum) :
    firstViolation l.strategies
        (sweep (l.strategies.map (fun s => cur - l.smallWindow * (s.smallWindows - 1)))
          l.counters (List.replicate l.strategies.length 0)).2
      = (l.strategies.find? (fun s => decide (s.limit ≤ cnt s))).map
          (fun s => { Limit := s.limit, Window := s.window }) := by
  obtain ⟨hcfg, _, _, hnn, hsum⟩ := hwf
  obtain ⟨hle, _, _⟩ := l.start0_le cur s0 rest hcfg hhead
  have hd : (l.strategies.map (fun s => cur - l.smallWindow * (s.smallWindows - 1))).headD 0
      = cur - l.smallWindow * (s0.smallWindows - 1) := by
    rw [hhead]; rfl
  rw [slidingLog_sweep_snd _ _ _ (by rw [List.length_replicate, List.length_map]), hd,
    zipWith_map_replicate]
  have hmap : l.strategies.map (fun x =>
      countOne (cur - l.smallWindow * (s0.smallWindows - 1))
        (cur - l.smallWindow * (x.smallWindows - 1)) l.counters 0)
      = l.strategies.map cnt := by
    apply List.map_congr_left
    intro s hs
    rw [countOne_eq _ _ _ 0 (le_refl 0) hnn (by omega), hcnt s, Int.zero_add]
    congr 2
    apply List.filter_congr
    intro e _
    have := hle s hs
    by_cases h1 : cur - l.smallWindow * (s.smallWindows - 1) ≤ e.1
    · have h2 : cur - l.smallWindow * (s0.smallWindows - 1) ≤ e.1 := by omega
      simp [h1, h2]
    · simp [h1]
  rw [hmap, firstViolation_map]

end SlidingLogLimiter

end SlidingLogLemmas

section SlidingLogRuns

/-- The key bookkeeping shared by both sliding limiters: when the new map is
the old one without the entries older than `start`, possibly with the key `cur`
counted once more, the keys stay distinct multiples of the sub-window inside
the trailing window, so there are at most `sws` of them. -/
theorem counters_step_keyInv (m new : Counters) (start cur sw sws t0 now : Int)
    (hnew : new = m.filter (fun e => decide (start ≤ e.1)) ∨
      new = Counters.incr (m.filter (fun e => decide (start ≤ e.1))) cur)
    (hsw : 0 < sw) (hsws : 1 ≤ sws) (hstart : start = cur - sw * (sws - 1))
    (hcur : cur = now / sw * sw) (ht : t0 ≤ now)
    (hnd : (m.map Prod.fst).Nodup) (hk : ∀ k ∈ m.map Prod.fst, sw ∣ k ∧ k ≤ t0) :
    (new.map Prod.fst).Nodup ∧ (∀ k ∈ new.map Prod.fst, sw ∣ k ∧ k ≤ now) ∧
    (∀ k ∈ new.map Prod.fst, start ≤ k) ∧ (new.length : Int) ≤ sws := by
  have hcn : cur ≤ now := by rw [hcur]; exact Int.ediv_mul_le _ (ne_of_gt hsw)
  have hdc : sw ∣ cur := by rw [hcur]; exact Dvd.intro_left _ rfl
  have hsc : start ≤ cur := by
    have : 0 ≤ sw * (sws - 1) := Int.mul_nonneg (le_of_lt hsw) (by omega)
    omega
  have hkept : ∀ k ∈ (m.filter (fun e => decide (start ≤ e.1))).map Prod.fst,
      k ∈ m.map Prod.fst ∧ start ≤ k := by
    intro k hk
    obtain ⟨e, he, rfl⟩ := List.mem_map.mp hk
    obtain ⟨hm, hp⟩ := List.mem_filter.mp he
    exact ⟨List.mem_map.mpr ⟨e, hm, rfl⟩, by simpa using hp⟩
  have hndk := Counters.nodup_filter m (fun e => decide (start ≤ e.1)) hnd
  have hkeys : ∀ k ∈ new.map Prod.fst, (k ∈ m.map Prod.fst ∧ start ≤ k) ∨ k = cur := by
    intro k hmem
    rcases hnew with h | h
    · rw [h] at hmem; exact Or.inl (hkept k hmem)
    · rw [h, Counters.keys_incr] at hmem
      split at hmem
      · exact Or.inl (hkept k hmem)
      · rcases List.mem_append.mp hmem with h1 | h1
        · exact Or.inl (hkept k h1)
        · exact Or.inr (List.mem_singleton.mp h1)
  have hnd2 : (new.map Prod.fst).Nodup := by
    rcases hnew with h | h
    · rw [h]; exact hndk
    · rw [h]; exact Counters.nodup_incr _ _ hndk
  have hall : ∀ k ∈ new.map Prod.fst, sw ∣ k ∧ cur - sw * (sws - 1) ≤ k ∧ k ≤ cur := by
    intro k hmem
    rcases hkeys k hmem with ⟨h1, h2⟩ | h1
    · obtain ⟨hd, hle⟩ := hk k h1
      refine ⟨hd, by omega, ?_⟩
      rw [hcur]
      exact multiple_le_current k now sw hsw hd (le_trans hle ht)
    · rw [h1]
      exact ⟨hdc, by omega, le_refl _⟩
  refine ⟨hnd2, fun k hmem => ⟨(hall k hmem).1, le_trans (hall k hmem).2.2 hcn⟩,
    fun k hmem => by have := (hall k hmem).2.1; omega, ?_⟩
  have := keys_length_le _ _ _ _ hsw hsws hdc hnd2 hall
  rw [List.length_map] at this
  exact this

theorem counters_step_keys_ge (m new : Counters) (start cur : Int)
    (hnew : new = m.filter (fun e => decide (start ≤ e.1)) ∨
      new = Counters.incr (m.filter (fun e => decide (start ≤ e.1))) cur)
    (hsc : start ≤ cur) : ∀ e ∈ new, start ≤ e.1 := by
  have hkept : ∀ k ∈ (m.filter (fun e => decide (start ≤ e.1))).map Prod.fst, start ≤ k := by
    intro k hk
    obtain ⟨e, he, rfl⟩ := List.mem_map.mp hk
    simpa using (List.mem_filter.mp he).2
  intro e he
  have hmem : e.1 ∈ new.map Prod.fst := List.mem_map.mpr ⟨e, he, rfl⟩
  rcases hnew with h | h
  · rw [h] at hmem; exact hkept _ hmem
  · rw [h, Counters.keys_incr] at hmem
    split at hmem
    · exact hkept _ hmem
    · rcases List.mem_append.mp hmem with h1 | h1
      · exact hkept _ h1
      · rw [List.mem_singleton.mp h1]; exact hsc

theorem counters_step_get (m new : Counters) (start cur : Int)
    (hnew : new = m.filter (fun e => decide (start ≤ e.1)) ∨
      new = Counters.incr (m.filter (fun e => decide (start ≤ e.1))) cur) :
    (∀ k, start ≤ k → k ≠ cur → Counters.get new k = Counters.get m k) ∧
    (∀ k, start ≤ k → Counters.get m k ≠ none → Counters.get new k ≠ none) := by
  have hget : ∀ k, start ≤ k →
      Counters.get (m.filter (fun e => decide (start ≤ e.1))) k = Counters.get m k := by
    intro k hk
    rw [Counters.get_filter, if_pos hk]
  rcases hnew with h | h
  · subst h
    exact ⟨fun k hk _ => hget k hk, fun k hk hne => by rw [hget k hk]; exact hne⟩
  · subst h
    refine ⟨fun k hk hkc => by rw [Counters.get_incr, if_neg hkc, hget k hk], ?_⟩
    intro k hk hne
    rw [Counters.get_incr]
    by_cases hkc : k = cur
    · rw [if_pos hkc]; exact Option.some_ne_none _
    · rw [if_neg hkc, hget k hk]; exact hne

namespace SlidingLogLimiter

theorem slidingLog_tryAcquireAll_cons (l : SlidingLogLimiter) (now : Int) (rest : List Int) :
    l.tryAcquireAll (now :: rest)
      = ((l.TryAcquire now).1 :: ((l.TryAcquire now).2.tryAcquireAll rest).1,
          ((l.TryAcquire now).2.tryAcquireAll rest).2) :=
  rfl

theorem slidingLog_keyInv (ts : List Int) :
    ∀ (l : SlidingLogLimiter) (t0 : Int) (s0 : SlidingLogLimiterStrategy)
      (rest : List SlidingLogLimiterStrategy),
    l.Configured → l.strategies = s0 :: rest → 0 ≤ t0 → List.Chain (· ≤ ·) t0 ts →
    (∀ t ∈ ts, t ≤ intMax) → (l.counters.map Prod.fst).Nodup →
    (∀ k ∈ l.counters.map Prod.fst, l.smallWindow ∣ k ∧ k ≤ t0) →
    (l.counters.length : Int) ≤ s0.smallWindows →
    ((l.tryAcquireAll ts).2.counters.length : Int) ≤ s0.smallWindows := by
  induction ts with
  | nil => intro l t0 s0 rest _ _ _ _ _ _ _ hlen; exact hlen
  | cons t tl ih =>
    intro l t0 s0 rest hcfg hhead h0 hchain hmax hnd hk _
    rw [slidingLog_tryAcquireAll_cons]
    obtain ⟨hle, hchain2⟩ := List.chain_cons.mp hchain
    have ht0 : 0 ≤ t := le_trans h0 hle
    have htmax : t ≤ intMax := hmax t (List.mem_cons_self _ _)
    obtain ⟨_, _, hs0⟩ := l.start0_le (t / l.smallWindow * l.smallWindow) s0 rest hcfg hhead
    have hcases := l.slidingLog_tryAcquire_cases t _ _ s0 rest hcfg ht0 htmax rfl hhead rfl
    have hnew : (l.TryAcquire t).2.counters = l.counters.filter (fun e =>
          decide (t / l.smallWindow * l.smallWindow
            - l.smallWindow * (s0.smallWindows - 1) ≤ e.1)) ∨
        (l.TryAcquire t).2.counters = Counters.incr (l.counters.filter (fun e =>
          decide (t / l.smallWindow * l.smallWindow
            - l.smallWindow * (s0.smallWindows - 1) ≤ e.1)))
          (t / l.smallWindow * l.smallWindow) := by
      rcases hcases with ⟨_, h⟩ | ⟨_, h⟩
      · exact Or.inl h
      · exact Or.inr h
    obtain ⟨i1, i2, _, i4⟩ := counters_step_keyInv l.counters _ _ _ l.smallWindow
      s0.smallWindows t0 t hnew hcfg.1 hs0 rfl rfl hle hnd hk
    obtain ⟨f1, f2⟩ := l.slidingLog_tryAcquire_fields t
    exact ih (l.TryAcquire t).2 t s0 rest (l.slidingLog_tryAcquire_configured t hcfg)
      (by rw [f1]; exact hhead) ht0 hchain2
      (fun x hx => hmax x (List.mem_cons_of_mem _ hx)) i1 (by rw [f2]; exact i2) i4

/-- What a successful construction returns on the recognised options
`smallWindow > 0` and every window at least `smallWindow`. -/
theorem newSlidingLog_configured (sw : Int) (strategies : List SlidingLogLimiterStrategy)
    (l0 : SlidingLogLimiter) (hsw : 0 < sw)
    (hwin : ∀ s ∈ strategies, sw ≤ s.window ∧ s.window ≤ intMax)
    (hnew : NewSlidingLogLimiter sw strategies = GoResult.ok l0) :
    l0.Configured ∧ l0.counters = [] ∧ l0.smallWindow = sw ∧
    (∀ s ∈ l0.strategies, s.smallWindows = s.window / sw) ∧
    (∀ s ∈ l0.strategies, ∃ x ∈ strategies, x.limit = s.limit ∧ x.window = s.window) ∧
    (∀ x ∈ strategies, ∃ s ∈ l0.strategies, x.limit = s.limit ∧ x.window = s.window) := by
  rcases newSlidingLog_spec sw strategies (ne_of_gt hsw) with ⟨h1, hne, hdvd, hch⟩ | ⟨⟨msg, h1⟩, _⟩
  · rw [h1] at hnew
    cases hnew
    have hperm := sortStrategies_perm strategies
    have hsws : ∀ x ∈ sortStrategies strategies, goDiv x.window sw = x.window / sw := by
      intro x hx
      have hx2 := hperm.mem_iff.mp hx
      obtain ⟨w1, w2⟩ := hwin x hx2
      have hq0 : 0 ≤ x.window / sw := Int.ediv_nonneg (by omega) (le_of_lt hsw)
      have hq1 : x.window / sw ≤ x.window := Int.ediv_le_self _ (by omega)
      apply goDiv_of_dvd _ _ (hdvd x hx2)
      rw [intMax_eq] at w2
      exact (isInt_iff _).mpr (by omega)
    have hpl : (sortStrategies strategies).Pairwise (fun a b => b.limit < a.limit) := by
      haveI : IsTrans SlidingLogLimiterStrategy (fun a b => b.limit < a.limit) :=
        ⟨fun a b c hab hbc => lt_trans hbc hab⟩
      exact List.chain'_iff_pairwise.mp hch
    have hpw : (sortStrategies strategies).Pairwise (fun a b => b.window ≤ a.window) :=
      (sortStrategies_sorted strategies).imp (fun h => by omega)
    refine ⟨⟨hsw, ?_, ?_, ?_, ?_⟩, rfl, rfl, ?_, ?_, ?_⟩
    · show (sortStrategies strategies).map _ ≠ []
      intro hnil
      have := List.map_eq_nil_iff.mp hnil
      rw [this] at hperm
      exact hne (List.Perm.nil_eq hperm).symm
    · intro s hs
      obtain ⟨x, hx, rfl⟩ := List.mem_map.mp hs
      obtain ⟨w1, w2⟩ := hwin x (hperm.mem_iff.mp hx)
      refine ⟨w1, w2, ?_⟩
      show x.window = goDiv x.window sw * sw
      rw [hsws x hx, Int.ediv_mul_cancel (hdvd x (hperm.mem_iff.mp hx))]
    · exact List.pairwise_map.mpr hpw
    · exact List.pairwise_map.mpr hpl
    · intro s hs
      obtain ⟨x, hx, rfl⟩ := List.mem_map.mp hs
      exact hsws x hx
    · intro s hs
      obtain ⟨x, hx, rfl⟩ := List.mem_map.mp hs
      exact ⟨x, hperm.mem_iff.mp hx, rfl, rfl⟩
    · intro x hx
      exact ⟨_, List.mem_map.mpr ⟨x, hperm.mem_iff.mpr hx, rfl⟩, rfl, rfl⟩
  · rw [h1] at hnew
    exact GoResult.noConfusion hnew

/-- The state invariant `WF` is kept by every call. -/
theorem slidingLog_tryAcquire_wf (l : SlidingLogLimiter) (now : Int) (hwf : l.WF)
    (h0 : 0 ≤ now) (hmax : now ≤ intMax) : (l.TryAcquire now).2.WF := by
  have hwf2 := hwf
  obtain ⟨hcfg, hlim, hnd, hnn, hsum⟩ := hwf2
  obtain ⟨s0, rest, hhead⟩ : ∃ s0 rest, l.strategies = s0 :: rest := by
    cases hl : l.strategies with
    | nil => exact absurd hl hcfg.2.1
    | cons a b => exact ⟨a, b, rfl⟩
  have hs0 : s0 ∈ l.strategies := by rw [hhead]; exact List.mem_cons_self _ _
  obtain ⟨f1, f2⟩ := l.slidingLog_tryAcquire_fields now
  have hkn : ∀ e ∈ l.counters.filter (fun e => decide (now / l.smallWindow * l.smallWindow
      - l.smallWindow * (s0.smallWindows - 1) ≤ e.1)), 0 ≤ e.2 :=
    fun e he => hnn e (List.mem_filter.mp he).1
  have hks := SlidingWindowLimiter.sum_filter_le l.counters
    (fun e => decide (now / l.smallWindow * l.smallWindow
      - l.smallWindow * (s0.smallWindows - 1) ≤ e.1)) hnn
  refine ⟨l.slidingLog_tryAcquire_configured now hcfg, by rw [f1]; exact hlim, ?_⟩
  rw [l.slidingLog_tryAcquire_raw now _ _ s0 rest hcfg h0 hmax rfl hhead rfl,
    l.slidingLog_violation_eq _ _ s0 rest hwf hhead (fun _ => rfl)]
  cases hf : l.strategies.find? (fun s => decide (s.limit ≤
      ((l.counters.filter (fun e => decide (now / l.smallWindow * l.smallWindow
        - l.smallWindow * (s.smallWindows - 1) ≤ e.1))).map Prod.snd).sum)) with
  | some s =>
    refine ⟨Counters.nodup_filter _ _ hnd, hkn, ?_⟩
    show ((l.counters.filter _).map Prod.snd).sum ≤ intMax
    omega
  | none =>
    have hlt := List.find?_eq_none.mp hf s0 hs0
    simp only [decide_eq_true_eq, not_le] at hlt
    have hl0 := (isInt_iff _).mp (hlim s0 hs0)
    obtain ⟨i1, i2⟩ := Counters.sum_incr _ (now / l.smallWindow * l.smallWindow) hkn
      (by rw [intMax_eq]; omega)
    refine ⟨Counters.nodup_incr _ _ (Counters.nodup_filter _ _ hnd), i2, ?_⟩
    show ((Counters.incr _ _).map Prod.snd).sum ≤ intMax
    rw [i1, intMax_eq]
    omega

/-- Every state reached by calls at clock readings `0 ≤ t` is well formed. -/
theorem slidingLog_tryAcquireAll_wf (ts : List Int) : ∀ l : SlidingLogLimiter,
    l.WF → (∀ t ∈ ts, 0 ≤ t ∧ t ≤ intMax) → (l.tryAcquireAll ts).2.WF := by
  induction ts with
  | nil => intro l h _; exact h
  | cons t rest ih =>
    intro l h hts
    obtain ⟨h0, hmax⟩ := hts t (List.mem_cons_self _ _)
    exact ih _ (l.slidingLog_tryAcquire_wf t h h0 hmax)
      (fun x hx => hts x (List.mem_cons_of_mem _ hx))

/-- The limiter returned by the constructor is well formed. -/
theorem newSlidingLog_wf (sw : Int) (strategies : List SlidingLogLimiterStrategy)
    (l0 : SlidingLogLimiter) (hsw : 0 < sw)
    (hwin : ∀ s ∈ strategies, sw ≤ s.window ∧ s.window ≤ intMax)
    (hlim : ∀ s ∈ strategies, IsInt s.limit)
    (hnew : NewSlidingLogLimiter sw strategies = GoResult.ok l0) : l0.WF := by
  obtain ⟨hcfg, hc, _, _, hfwd, _⟩ := newSlidingLog_configured sw strategies l0 hsw hwin hnew
  refine ⟨hcfg, ?_, ?_, ?_, ?_⟩
  · intro s hs
    obtain ⟨x, hx, hl, _⟩ := hfwd s hs
    rw [← hl]
    exact hlim x hx
  · rw [hc]; exact List.nodup_nil
  · rw [hc]; intro e he; exact absurd he (List.not_mem_nil _)
  · rw [hc, intMax_eq]; decide

/-- In a configured limiter the last stored strategy has the smallest limit
and the smallest window. -/
theorem last_is_least (l : SlidingLogLimiter) (pre : List SlidingLogLimiterStrategy)
    (sl : SlidingLogLimiterStrategy) (hcfg : l.Configured) (hsplit : l.strategies = pre ++ [sl]) :
    (∀ x ∈ pre, sl.limit < x.limit) ∧
    (∀ s ∈ l.strategies, sl.limit ≤ s.limit ∧ sl.window ≤ s.window) := by
  obtain ⟨_, _, _, hpw, hpl⟩ := hcfg
  rw [hsplit] at hpw hpl
  have h1 : ∀ x ∈ pre, sl.limit < x.limit := fun x hx =>
    (List.pairwise_append.mp hpl).2.2 x hx sl (List.mem_singleton.mpr rfl)
  have h2 : ∀ x ∈ pre, sl.window ≤ x.window := fun x hx =>
    (List.pairwise_append.mp hpw).2.2 x hx sl (List.mem_singleton.mpr rfl)
  refine ⟨h1, ?_⟩
  intro s hs
  rw [hsplit] at hs
  rcases List.mem_append.mp hs with h | h
  · exact ⟨le_of_lt (h1 s h), h2 s h⟩
  · rw [List.mem_singleton.mp h]
    exact ⟨le_refl _, le_refl _⟩

/-- One call of a burst: all earlier calls fell into the sub-window `cur` and
`j` of them were let in. -/
theorem burst_step (l : SlidingLogLimiter) (now cur : Int) (j : Nat)
    (pre : List SlidingLogLimiterStrategy) (sl : SlidingLogLimiterStrategy)
    (hcfg : l.Configured) (hlim : ∀ s ∈ l.strategies, IsInt s.limit)
    (hsplit : l.strategies = pre ++ [sl]) (h0 : 0 ≤ now) (hmax : now ≤ intMax)
    (hcur : cur = now / l.smallWindow * l.smallWindow)
    (hmap : (j = 0 ∧ l.counters = []) ∨ (0 < j ∧ l.counters = [(cur, (j : Int))]))
    (hj : (j : Int) ≤ sl.limit) :
    ((j : Int) < sl.limit →
      (l.TryAcquire now).1 = none ∧
      (l.TryAcquire now).2.counters = [(cur, ((j + 1 : Nat) : Int))]) ∧
    ((j : Int) = sl.limit →
      (l.TryAcquire now).1 = some { Limit := sl.limit, Window := sl.window } ∧
      (l.TryAcquire now).2.counters = l.counters) := by
  obtain ⟨hpre, hleast⟩ := l.last_is_least pre sl hcfg hsplit
  have hslmem : sl ∈ l.strategies := by rw [hsplit]; simp
  have hslmax := ((isInt_iff _).mp (hlim sl hslmem)).2
  obtain ⟨s0, rest, hhead⟩ : ∃ s0 rest, l.strategies = s0 :: rest := by
    cases hl : l.strategies with
    | nil => exact absurd hl hcfg.2.1
    | cons a b => exact ⟨a, b, rfl⟩
  obtain ⟨_, hle, _⟩ := l.start0_le cur s0 rest hcfg hhead
  have hs0 : s0 ∈ l.strategies := by rw [hhead]; exact List.mem_cons_self _ _
  have hkeys : ∀ e ∈ l.counters, e = (cur, (j : Int)) := by
    intro e he
    rcases hmap with ⟨_, h⟩ | ⟨_, h⟩
    · rw [h] at he; exact absurd he (List.not_mem_nil _)
    · rw [h] at he; exact List.mem_singleton.mp he
  have hsumj : (l.counters.map Prod.snd).sum = (j : Int) := by
    rcases hmap with ⟨hj0, h⟩ | ⟨_, h⟩
    · rw [h, hj0]; rfl
    · rw [h]; simp
  have hfilter : ∀ s ∈ l.strategies, l.counters.filter (fun e =>
      decide (cur - l.smallWindow * (s.smallWindows - 1) ≤ e.1)) = l.counters := by
    intro s hs
    apply List.filter_eq_self.mpr
    intro e he
    rw [hkeys e he]
    simpa using hle s hs
  have hwf : l.WF := by
    refine ⟨hcfg, hlim, ?_, ?_, ?_⟩
    · rcases hmap with ⟨_, h⟩ | ⟨_, h⟩
      · rw [h]; exact List.nodup_nil
      · rw [h]; exact List.nodup_singleton _
    · intro e he
      rw [hkeys e he]
      exact Int.ofNat_nonneg j
    · rw [hsumj, intMax_eq]; omega
  have hcntj : ∀ s ∈ l.strategies, ((l.counters.filter (fun e =>
      decide (cur - l.smallWindow * (s.smallWindows - 1) ≤ e.1))).map Prod.snd).sum
      = (j : Int) := by
    intro s hs
    rw [hfilter s hs, hsumj]
  rw [l.slidingLog_tryAcquire_raw now cur _ s0 rest hcfg h0 hmax hcur hhead rfl,
    l.slidingLog_violation_eq cur _ s0 rest hwf hhead (fun _ => rfl), hfilter s0 hs0]
  constructor
  · intro hlt
    have hnone : l.strategies.find? (fun s => decide (s.limit ≤
        ((l.counters.filter (fun e =>
          decide (cur - l.smallWindow * (s.smallWindows - 1) ≤ e.1))).map Prod.snd).sum))
        = none := by
      apply List.find?_eq_none.mpr
      intro x hx
      rw [hcntj x hx]
      have := (hleast x hx).1
      simp only [decide_eq_true_eq, not_le]
      omega
    rw [hnone]
    refine ⟨rfl, ?_⟩
    show Counters.incr l.counters cur = _
    rcases hmap with ⟨hj0, h⟩ | ⟨_, h⟩
    · rw [h, hj0]; rfl
    · rw [h, Counters.incr_cons, if_pos rfl, wrapInt_of_isInt _ ((isInt_iff _).mpr (by omega))]
      simp
  · intro heq
    have hsome : l.strategies.find? (fun s => decide (s.limit ≤
        ((l.counters.filter (fun e =>
          decide (cur - l.smallWindow * (s.smallWindows - 1) ≤ e.1))).map Prod.snd).sum))
        = some sl := by
      rw [List.find?_eq_some]
      refine ⟨?_, pre, [], hsplit, ?_⟩
      · rw [hcntj sl hslmem]
        simp only [decide_eq_true_eq]
        omega
      · intro x hx
        have hxmem : x ∈ l.strategies := by rw [hsplit]; exact List.mem_append_left _ hx
        rw [hcntj x hxmem]
        have := hpre x hx
        simp only [Bool.not_eq_eq_eq_not, Bool.not_true, decide_eq_false_iff_not, not_le]
        omega
    rw [hsome]
    exact ⟨rfl, rfl⟩

/-- A burst of calls that all fall into the sub-window `cur`, after `j` calls
were let in: the next `limit - j` calls are let in, the others are refused with
the error of the last strategy. -/
theorem burst_run (ts : List Int) (cur : Int) (pre : List SlidingLogLimiterStrategy)
    (sl : SlidingLogLimiterStrategy) :
    ∀ (l : SlidingLogLimiter) (j : Nat),
    l.Configured → (∀ s ∈ l.strategies, IsInt s.limit) → l.strategies = pre ++ [sl] →
    (∀ t ∈ ts, 0 ≤ t ∧ t ≤ intMax ∧ t / l.smallWindow * l.smallWindow = cur) →
    ((j = 0 ∧ l.counters = []) ∨ (0 < j ∧ l.counters = [(cur, (j : Int))])) →
    (j : Int) ≤ sl.limit →
    (l.tryAcquireAll ts).1
      = List.replicate (min ts.length (sl.limit.toNat - j)) none
        ++ List.replicate (ts.length - (sl.limit.toNat - j))
            (some { Limit := sl.limit, Window := sl.window }) := by
  induction ts with
  | nil =>
    intro l j _ _ _ _ _ _
    simp [tryAcquireAll]
  | cons t tl ih =>
    intro l j hcfg hlim hsplit hts hmap hj
    obtain ⟨h0, hmax, hcur⟩ := hts t (List.mem_cons_self _ _)
    obtain ⟨b1, b2⟩ := l.burst_step t cur j pre sl hcfg hlim hsplit h0 hmax hcur.symm hmap hj
    obtain ⟨f1, f2⟩ := l.slidingLog_tryAcquire_fields t
    have hts2 : ∀ x ∈ tl, 0 ≤ x ∧ x ≤ intMax ∧
        x / (l.TryAcquire t).2.smallWindow * (l.TryAcquire t).2.smallWindow = cur := by
      intro x hx
      rw [f2]
      exact hts x (List.mem_cons_of_mem _ hx)
    rw [slidingLog_tryAcquireAll_cons]
    rcases lt_or_eq_of_le hj with hlt | heq
    · obtain ⟨r1, r2⟩ := b1 hlt
      have := ih (l.TryAcquire t).2 (j + 1) (l.slidingLog_tryAcquire_configured t hcfg)
        (by rw [f1]; exact hlim) (by rw [f1]; exact hsplit) hts2
        (Or.inr ⟨Nat.succ_pos j, r2⟩) (by omega)
      rw [r1, this]
      have e1 : min (tl.length + 1) (sl.limit.toNat - j)
          = min tl.length (sl.limit.toNat - (j + 1)) + 1 := by omega
      have e2 : tl.length + 1 - (sl.limit.toNat - j)
          = tl.length - (sl.limit.toNat - (j + 1)) := by omega
      simp only [List.length_cons, e1, e2, List.replicate_succ, List.cons_append]
    · obtain ⟨r1, r2⟩ := b2 heq
      have := ih (l.TryAcquire t).2 j (l.slidingLog_tryAcquire_configured t hcfg)
        (by rw [f1]; exact hlim) (by rw [f1]; exact hsplit) hts2
        (by rw [r2]; exact hmap) hj
      rw [r1, this]
      have e1 : sl.limit.toNat - j = 0 := by omega
      simp only [List.length_cons, e1, Nat.min_zero, List.replicate_zero, List.nil_append,
        Nat.sub_zero, List.replicate_succ]

end SlidingLogLimiter

end SlidingLogRuns

/-! ### The order of the map entries does not matter -/

section MapOrder

theorem Counters.incr_of_not_mem (m : Counters) (k : Int) (h : k ∉ m.map Prod.fst) :
    Counters.incr m k = m ++ [(k, wrapInt (0 + 1))] := by
  induction m with
  | nil => rfl
  | cons e rest ih =>
    obtain ⟨k1, c1⟩ := e
    simp only [List.map_cons, List.mem_cons, not_or] at h
    rw [Counters.incr_cons, if_neg (fun e => h.1 e.symm), ih h.2]
    rfl

theorem Counters.incr_perm_of_mem (m : Counters) (k c : Int) (hmem : (k, c) ∈ m)
    (hnd : (m.map Prod.fst).Nodup) :
    (Counters.incr m k).Perm
      ((k, wrapInt (c + 1)) :: m.filter (fun e => decide (e.1 ≠ k))) := by
  induction m with
  | nil => exact absurd hmem (List.not_mem_nil _)
  | cons e rest ih =>
    obtain ⟨k1, c1⟩ := e
    simp only [List.map_cons, List.nodup_cons] at hnd
    rw [Counters.incr_cons]
    by_cases hk : k1 = k
    · subst hk
      have hc : c = c1 := by
        rcases List.mem_cons.mp hmem with h | h
        · exact (Prod.mk.inj h).2
        · exact absurd (List.mem_map.mpr ⟨(k1, c), h, rfl⟩) hnd.1
      subst hc
      have hall : rest.filter (fun e => decide (e.1 ≠ k1)) = rest := by
        apply List.filter_eq_self.mpr
        intro e he
        have : e.1 ≠ k1 := fun h => hnd.1 (List.mem_map.mpr ⟨e, he, h⟩)
        simpa using this
      rw [if_pos rfl, List.filter_cons_of_neg (by simp), hall]
    · have hrest : (k, c) ∈ rest := by
        rcases List.mem_cons.mp hmem with h | h
        · exact absurd (Prod.mk.inj h).1.symm hk
        · exact h
      rw [if_neg hk, List.filter_cons_of_pos (by simpa using hk)]
      exact ((ih hrest hnd.2).cons (k1, c1)).trans (List.Perm.swap _ _ _)

/-- The statement `m[k]++` gives the same map in whatever order the entries
are listed. -/
theorem Counters.incr_perm (m m2 : Counters) (k : Int) (hperm : m2.Perm m)
    (hnd : (m.map Prod.fst).Nodup) : (Counters.incr m2 k).Perm (Counters.incr m k) := by
  have hnd2 : (m2.map Prod.fst).Nodup := (hperm.map Prod.fst).nodup_iff.mpr hnd
  by_cases hk : k ∈ m.map Prod.fst
  · obtain ⟨e, he, hek⟩ := List.mem_map.mp hk
    obtain ⟨k1, c⟩ := e
    simp only at hek
    subst hek
    exact ((Counters.incr_perm_of_mem m2 k1 c (hperm.mem_iff.mpr he) hnd2).trans
      ((hperm.filter _).cons _)).trans (Counters.incr_perm_of_mem m k1 c he hnd).symm
  · have hk2 : k ∉ m2.map Prod.fst := fun h => hk ((hperm.map Prod.fst).mem_iff.mp h)
    rw [Counters.incr_of_not_mem m k hk, Counters.incr_of_not_mem m2 k hk2]
    exact hperm.append_right _

theorem Counters.sum_filter_perm (m m2 : Counters) (p : Int × Int → Bool) (hperm : m2.Perm m) :
    ((m2.filter p).map Prod.snd).sum = ((m.filter p).map Prod.snd).sum :=
  ((hperm.filter p).map Prod.snd).sum_eq

/-- The sliding window does not depend on the order in which the `range` loop
meets the entries: listed in another order, a well-formed map gives the same
answer and the same map. -/
theorem SlidingWindowLimiter.tryAcquire_perm (l : SlidingWindowLimiter) (m2 : Counters)
    (now : Int) (hwf : l.WF) (h0 : 0 ≤ now) (hmax : now ≤ intMax)
    (hperm : m2.Perm l.counters) :
    (SlidingWindowLimiter.TryAcquire { l with counters := m2 } now).1 = (l.TryAcquire now).1 ∧
    (SlidingWindowLimiter.TryAcquire { l with counters := m2 } now).2.counters.Perm
      (l.TryAcquire now).2.counters := by
  obtain ⟨hcfg, hlim, hnd, hnn, hsum⟩ := hwf
  have hcfg2 : SlidingWindowLimiter.Configured { l with counters := m2 } := hcfg
  have hnn2 : ∀ e ∈ m2, 0 ≤ e.2 := fun e he => hnn e (hperm.mem_iff.mp he)
  have hsum2 : (m2.map Prod.snd).sum = (l.counters.map Prod.snd).sum :=
    (hperm.map Prod.snd).sum_eq
  have hs1 := SlidingWindowLimiter.sweep_snd (now / l.smallWindow * l.smallWindow
      - l.smallWindow * (l.smallWindows - 1)) l.counters 0 (le_refl 0) hnn (by omega)
  have hs2 := SlidingWindowLimiter.sweep_snd (now / l.smallWindow * l.smallWindow
      - l.smallWindow * (l.smallWindows - 1)) m2 0 (le_refl 0) hnn2 (by omega)
  rw [Counters.sum_filter_perm l.counters m2 _ hperm, ← hs1] at hs2
  rw [l.tryAcquire_unfold now _ _ hcfg h0 hmax rfl rfl,
    SlidingWindowLimiter.tryAcquire_unfold { l with counters := m2 } now _ _ hcfg2 h0 hmax
      rfl rfl]
  simp only [hs2]
  split
  · exact ⟨rfl, hperm.filter _⟩
  · exact ⟨rfl, Counters.incr_perm _ _ _ (hperm.filter _) (Counters.nodup_filter _ _ hnd)⟩

/-- The sliding log does not depend on the order in which the `range` loop
meets the entries. -/
theorem SlidingLogLimiter.slidingLog_tryAcquire_perm (l : SlidingLogLimiter) (m2 : Counters)
    (now : Int) (hwf : l.WF) (h0 : 0 ≤ now) (hmax : now ≤ intMax)
    (hperm : m2.Perm l.counters) :
    (SlidingLogLimiter.TryAcquire { l with counters := m2 } now).1 = (l.TryAcquire now).1 ∧
    (SlidingLogLimiter.TryAcquire { l with counters := m2 } now).2.counters.Perm
      (l.TryAcquire now).2.counters := by
  have hwf1 := hwf
  obtain ⟨hcfg, hlim, hnd, hnn, hsum⟩ := hwf1
  have hwf2 : SlidingLogLimiter.WF { l with counters := m2 } :=
    ⟨hcfg, hlim, (hperm.map Prod.fst).nodup_iff.mpr hnd,
      fun e he => hnn e (hperm.mem_iff.mp he),
      by rw [show (({ l with counters := m2 } : SlidingLogLimiter).counters.map Prod.snd).sum
          = (l.counters.map Prod.snd).sum from (hperm.map Prod.snd).sum_eq]; exact hsum⟩
  obtain ⟨s0, rest, hhead⟩ : ∃ s0 rest, l.strategies = s0 :: rest := by
    cases hl : l.strategies with
    | nil => exact absurd hl hcfg.2.1
    | cons a b => exact ⟨a, b, rfl⟩
  rw [l.slidingLog_tryAcquire_raw now _ _ s0 rest hcfg h0 hmax rfl hhead rfl,
    l.slidingLog_violation_eq _ _ s0 rest hwf hhead (fun _ => rfl),
    SlidingLogLimiter.slidingLog_tryAcquire_raw { l with counters := m2 } now _ _ s0 rest
      hwf2.1 h0 hmax rfl hhead rfl,
    SlidingLogLimiter.slidingLog_violation_eq { l with counters := m2 }
      (now / l.smallWindow * l.smallWindow)
      (fun s => ((l.counters.filter (fun e => decide (now / l.smallWindow * l.smallWindow
        - l.smallWindow * (s.smallWindows - 1) ≤ e.1))).map Prod.snd).sum) s0 rest hwf2 hhead
      (fun s => (Counters.sum_filter_perm l.counters m2 _ hperm).symm)]
  cases l.strategies.find? (fun s => decide (s.limit ≤
      ((l.counters.filter (fun e => decide (now / l.smallWindow * l.smallWindow
        - l.smallWindow * (s.smallWindows - 1) ≤ e.1))).map Prod.snd).sum)) with
  | some s => exact ⟨rfl, hperm.filter _⟩
  | none =>
    exact ⟨rfl, Counters.incr_perm _ _ _ (hperm.filter _) (Counters.nodup_filter _ _ hnd)⟩

end MapOrder

/-- C14. Construction of the sliding log on a non-zero `smallWindow`:
`NewSlidingLogLimiter` succeeds iff the list is not empty, every window is an
integer multiple of `smallWindow` and, after sorting by descending window (ties
by descending limit), every limit is strictly smaller than the one before it;
otherwise it returns an error.  On success the stored strategies are that
sorted permutation of the arguments, each with `smallWindows` Go's quotient
`window / smallWindow` (the exact quotient whenever that is an `int64`), and
the counter map is empty. -/
theorem slidingLog_new (sw : Int) (strategies : List SlidingLogLimiterStrategy)
    (hsw : sw ≠ 0) :
    ((∃ l, NewSlidingLogLimiter sw strategies = GoResult.ok l) ↔
      (strategies ≠ [] ∧ (∀ s ∈ strategies, sw ∣ s.window) ∧
        List.Chain' (fun a b => b.limit < a.limit) (sortStrategies strategies))) ∧
    ((∃ msg, NewSlidingLogLimiter sw strategies = GoResult.failed msg) ↔
      ¬ (strategies ≠ [] ∧ (∀ s ∈ strategies, sw ∣ s.window) ∧
        List.Chain' (fun a b => b.limit < a.limit) (sortStrategies strategies))) ∧
    ((sortStrategies strategies).Perm strategies ∧
      (sortStrategies strategies).Pairwise
        (fun a b => b.window < a.window ∨ (b.window = a.window ∧ b.limit ≤ a.limit)) ∧
      ∀ q : List SlidingLogLimiterStrategy, q.Perm strategies →
        q.Pairwise
          (fun a b => b.window < a.window ∨ (b.window = a.window ∧ b.limit ≤ a.limit)) →
        q.map (fun s => (s.window, s.limit))
          = (sortStrategies strategies).map (fun s => (s.window, s.limit))) ∧
    (∀ l, NewSlidingLogLimiter sw strategies = GoResult.ok l →
      l.smallWindow = sw ∧ l.counters = [] ∧
      l.strategies.map (fun s => (s.window, s.limit))
        = (sortStrategies strategies).map (fun s => (s.window, s.limit)) ∧
      ∀ s ∈ l.strategies, s.smallWindows = goDiv s.window sw ∧
        (IsInt (s.window / sw) → s.smallWindows = s.window / sw)) := by
  have hsorted : (sortStrategies strategies).Perm strategies ∧
      (sortStrategies strategies).Pairwise
        (fun a b => b.window < a.window ∨ (b.window = a.window ∧ b.limit ≤ a.limit)) ∧
      ∀ q : List SlidingLogLimiterStrategy, q.Perm strategies →
        q.Pairwise
          (fun a b => b.window < a.window ∨ (b.window = a.window ∧ b.limit ≤ a.limit)) →
        q.map (fun s => (s.window, s.limit))
          = (sortStrategies strategies).map (fun s => (s.window, s.limit)) :=
    ⟨sortStrategies_perm strategies, sortStrategies_sorted strategies,
     fun q hq hs => sorted_strategies_unique q _
       (hq.trans (sortStrategies_perm strategies).symm) hs (sortStrategies_sorted strategies)⟩
  rcases newSlidingLog_spec sw strategies hsw with ⟨h1, h2⟩ | ⟨⟨msg, h1⟩, h2⟩
  · refine ⟨⟨fun _ => h2, fun _ => ⟨_, h1⟩⟩, ⟨?_, fun h => absurd h2 h⟩, hsorted, ?_⟩
    · rintro ⟨msg, h⟩
      rw [h1] at h
      exact GoResult.noConfusion h
    · intro l hl
      rw [h1] at hl
      cases hl
      refine ⟨rfl, rfl, ?_, ?_⟩
      · simp only [List.map_map]
        rfl
      · intro s hs
        obtain ⟨x, hx, rfl⟩ := List.mem_map.mp hs
        have hd : sw ∣ x.window :=
          h2.2.1 x ((sortStrategies_perm strategies).mem_iff.mp hx)
        exact ⟨rfl, fun hq => goDiv_of_dvd _ _ hd hq⟩
  · refine ⟨⟨?_, fun h => absurd h h2⟩, ⟨fun _ => h2, fun _ => ⟨_, h1⟩⟩, hsorted, ?_⟩
    · rintro ⟨l, h⟩
      rw [h1] at h
      exact GoResult.noConfusion h
    · intro l hl
      rw [h1] at hl
      exact GoResult.noConfusion hl

/-- Witness for C14: the strategies (limit 10, window 60 s) and (limit 20,
window 10 s) with sub-window 1 s are refused, because the narrower window has
the larger limit. -/
theorem slidingLog_new_witness :
    second ≠ 0 ∧
    NewSlidingLogLimiter second
        [NewSlidingLogLimiterStrategy 10 (60 * second),
         NewSlidingLogLimiterStrategy 20 (10 * second)]
      = GoResult.failed "the smaller window should be the smaller limit" ∧
    ¬ ([NewSlidingLogLimiterStrategy 10 (60 * second),
         NewSlidingLogLimiterStrategy 20 (10 * second)] ≠ [] ∧
       (∀ s ∈ [NewSlidingLogLimiterStrategy 10 (60 * second),
         NewSlidingLogLimiterStrategy 20 (10 * second)], second ∣ s.window) ∧
       List.Chain' (fun a b => b.limit < a.limit)
         (sortStrategies [NewSlidingLogLimiterStrategy 10 (60 * second),
           NewSlidingLogLimiterStrategy 20 (10 * second)])) :=
  ⟨by decide, rfl,
   (slidingLog_new second
      [NewSlidingLogLimiterStrategy 10 (60 * second),
       NewSlidingLogLimiterStrategy 20 (10 * second)] (by decide)).2.1.mp ⟨_, rfl⟩⟩

/-- One step of the sliding log on a well-formed limiter with its pointers
followed, at a clock reading `0 ≤ now`.  Well formed is what a limiter is in
the store that its own constructor call leaves, where every strategy object
holds `smallWindows = window / smallWindow`
(`Shared.newSlidingLogLimiter_wf`); a later constructor call on the same
strategy objects can end that.  With
`cur = floor(now / smallWindow) * smallWindow` and
`cnt s` the sum of the counts of the entries whose key is not older than the
start `cur - smallWindow * (s.smallWindows - 1)` of the window of strategy `s`:
the call returns an error iff `cnt s ≥ s.limit` for some strategy; the error
carries the limit and window of the first such strategy in stored order, no
retained count changes and no key is inserted; otherwise the call returns nil,
the count at key `cur` is one more than before (1 for a missing key) and no
other retained entry changes. -/
theorem slidingLog_tryAcquire_step (l : SlidingLogLimiter) (now cur start0 : Int)
    (cnt : SlidingLogLimiterStrategy → Int)
    (s0 : SlidingLogLimiterStrategy) (rest : List SlidingLogLimiterStrategy)
    (hwf : l.WF) (h0 : 0 ≤ now) (hmax : now ≤ intMax)
    (hcur : cur = now / l.smallWindow * l.smallWindow) (hhead : l.strategies = s0 :: rest)
    (hstart0 : start0 = cur - l.smallWindow * (s0.smallWindows - 1))
    (hcnt : ∀ s, cnt s = ((l.counters.filter (fun e =>
      decide (cur - l.smallWindow * (s.smallWindows - 1) ≤ e.1))).map Prod.snd).sum) :
    ((l.TryAcquire now).1 ≠ none ↔ ∃ s ∈ l.strategies, s.limit ≤ cnt s) ∧
    (∀ err, (l.TryAcquire now).1 = some err →
      (∃ pre s post, l.strategies = pre ++ s :: post ∧ (∀ x ∈ pre, cnt x < x.limit) ∧
        s.limit ≤ cnt s ∧ err = { Limit := s.limit, Window := s.window }) ∧
      (∀ k, start0 ≤ k →
        Counters.get (l.TryAcquire now).2.counters k = Counters.get l.counters k) ∧
      (∀ k, Counters.get l.counters k = none →
        Counters.get (l.TryAcquire now).2.counters k = none)) ∧
    ((l.TryAcquire now).1 = none →
      Counters.get (l.TryAcquire now).2.counters cur
        = some ((Counters.get l.counters cur).getD 0 + 1) ∧
      (∀ k, k ≠ cur → start0 ≤ k →
        Counters.get (l.TryAcquire now).2.counters k = Counters.get l.counters k) ∧
      (∀ k, k ≠ cur → Counters.get l.counters k = none →
        Counters.get (l.TryAcquire now).2.counters k = none)) := by
  have hwf2 := hwf
  obtain ⟨hcfg, hlim, hnd, hnn, hsum⟩ := hwf2
  obtain ⟨_, hle, _⟩ := l.start0_le cur s0 rest hcfg hhead
  have hs0 : s0 ∈ l.strategies := by rw [hhead]; exact List.mem_cons_self _ _
  have hsc : start0 ≤ cur := by rw [hstart0]; exact hle s0 hs0
  have hget : ∀ k, Counters.get (l.counters.filter (fun e => decide (start0 ≤ e.1))) k
      = if start0 ≤ k then Counters.get l.counters k else none :=
    fun k => Counters.get_filter start0 l.counters k
  have hkn : ∀ e ∈ l.counters.filter (fun e => decide (start0 ≤ e.1)), 0 ≤ e.2 :=
    fun e he => hnn e (List.mem_filter.mp he).1
  rw [l.slidingLog_tryAcquire_raw now cur start0 s0 rest hcfg h0 hmax hcur hhead hstart0,
    l.slidingLog_violation_eq cur cnt s0 rest hwf hhead hcnt]
  cases hf : l.strategies.find? (fun s => decide (s.limit ≤ cnt s)) with
  | none =>
    have hno : ∀ x ∈ l.strategies, cnt x < x.limit := by
      intro x hx
      have := List.find?_eq_none.mp hf x hx
      simpa using this
    simp only [Option.map_none']
    refine ⟨⟨fun h => absurd rfl h, ?_⟩, fun err h => Option.noConfusion h, fun _ => ⟨?_, ?_, ?_⟩⟩
    · rintro ⟨x, hx, hxl⟩
      have := hno x hx
      omega
    · show Counters.get (Counters.incr _ cur) cur = _
      rw [Counters.get_incr, if_pos rfl, hget cur, if_pos hsc]
      congr 1
      apply wrapInt_of_isInt
      rw [isInt_iff]
      have hl0 := (isInt_iff _).mp (hlim s0 hs0)
      have hc0 := hno s0 hs0
      have hsum0 := Counters.sum_nonneg _ hkn
      rw [hcnt s0, ← hstart0] at hc0
      cases hc : Counters.get l.counters cur with
      | none => simp only [Option.getD_none]; omega
      | some c =>
        simp only [Option.getD_some]
        have hmem : (cur, c) ∈ l.counters.filter (fun e => decide (start0 ≤ e.1)) :=
          List.mem_filter.mpr ⟨Counters.get_mem _ _ _ hc, by simpa using hsc⟩
        have h1 := Counters.le_sum_of_mem _ hkn _ hmem
        have h2 := hkn _ hmem
        simp only at h1 h2
        omega
    · intro k hk hsk
      show Counters.get (Counters.incr _ cur) k = _
      rw [Counters.get_incr, if_neg hk, hget k, if_pos hsk]
    · intro k hk hnone
      show Counters.get (Counters.incr _ cur) k = _
      rw [Counters.get_incr, if_neg hk, hget k, hnone]
      split <;> rfl
  | some s =>
    obtain ⟨hp, pre, post, hsplit, hpre⟩ := List.find?_eq_some.mp hf
    have hmem : s ∈ l.strategies := by rw [hsplit]; simp
    simp only [Option.map_some']
    refine ⟨⟨fun _ => ⟨s, hmem, by simpa using hp⟩, fun _ h => Option.noConfusion h⟩,
      fun err herr => ⟨⟨pre, s, post, hsplit, ?_, by simpa using hp, ?_⟩, ?_, ?_⟩,
      fun h => Option.noConfusion h⟩
    · intro x hx
      have := hpre x hx
      simpa using this
    · exact (Option.some.inj herr).symm
    · intro k hsk
      show Counters.get (l.counters.filter _) k = _
      rw [hget k, if_pos hsk]
    · intro k hnone
      show Counters.get (l.counters.filter _) k = _
      rw [hget k, hnone]
      split <;> rfl

/-- An instance of the step: strategies (limit 5, window 10) and (limit 2,
window 4) on sub-window 2, entries 2 at key 0 and 2 at key 4, called at time 6: the
counts are 4 and 2, and the narrow strategy is violated. -/
theorem slidingLog_tryAcquire_step_witness :
    (SlidingLogLimiter.mk [⟨5, 10, 5⟩, ⟨2, 4, 2⟩] 2 [(0, 2), (4, 2)]).WF ∧
    ((SlidingLogLimiter.mk [⟨5, 10, 5⟩, ⟨2, 4, 2⟩] 2 [(0, 2), (4, 2)]).TryAcquire 6).1
      = some { Limit := 2, Window := 4 } ∧
    (∀ k, (-2 : Int) ≤ k →
      Counters.get ((SlidingLogLimiter.mk [⟨5, 10, 5⟩, ⟨2, 4, 2⟩] 2
          [(0, 2), (4, 2)]).TryAcquire 6).2.counters k
        = Counters.get [(0, 2), (4, 2)] k) :=
  ⟨by decide, by decide,
   ((slidingLog_tryAcquire_step (SlidingLogLimiter.mk [⟨5, 10, 5⟩, ⟨2, 4, 2⟩] 2 [(0, 2), (4, 2)])
      6 6 (-2)
      (fun s => (([(0, 2), (4, 2)] : Counters).filter (fun e =>
        decide (6 - 2 * (s.smallWindows - 1) ≤ e.1))).map Prod.snd |>.sum)
      ⟨5, 10, 5⟩ [⟨2, 4, 2⟩] (by decide) (by decide) (by decide) (by decide) rfl (by decide)
      (fun _ => rfl)).2.1 { Limit := 2, Window := 4 } (by decide)).2.1⟩

/-- Purge of the sliding log, for the limiter that the constructor returns
from `smallWindow > 0` and windows that are at least `smallWindow`, with its
pointers followed as the constructor call leaves them; `s0` is the first stored
strategy, the widest.  After every call at a clock reading `0 ≤ now`, whatever
the map was, no key is older than the start of the window of `s0`, and every
entry inside that window is still there, unchanged unless it is the current
sub-window, whether or not a narrower window holds it.  After every sequence
of calls with non-negative, non-decreasing clock readings the map has at most
`s0.window / smallWindow` entries. -/
theorem slidingLog_purge_bound (sw : Int) (strategies : List SlidingLogLimiterStrategy)
    (l0 : SlidingLogLimiter) (s0 : SlidingLogLimiterStrategy)
    (rest : List SlidingLogLimiterStrategy) (hsw : 0 < sw)
    (hwin : ∀ s ∈ strategies, sw ≤ s.window ∧ s.window ≤ intMax)
    (hnew : NewSlidingLogLimiter sw strategies = GoResult.ok l0)
    (hhead : l0.strategies = s0 :: rest) :
    (∀ s ∈ strategies, s.window ≤ s0.window) ∧
    (∀ (m : Counters) (now : Int), 0 ≤ now → now ≤ intMax →
      (∀ e ∈ (SlidingLogLimiter.TryAcquire { l0 with counters := m } now).2.counters,
        now / sw * sw - sw * (s0.window / sw - 1) ≤ e.1) ∧
      (∀ k, now / sw * sw - sw * (s0.window / sw - 1) ≤ k → k ≠ now / sw * sw →
        Counters.get (SlidingLogLimiter.TryAcquire { l0 with counters := m } now).2.counters k
          = Counters.get m k) ∧
      (∀ k, now / sw * sw - sw * (s0.window / sw - 1) ≤ k → Counters.get m k ≠ none →
        Counters.get (SlidingLogLimiter.TryAcquire { l0 with counters := m } now).2.counters k
          ≠ none)) ∧
    (∀ ts : List Int, List.Chain (· ≤ ·) 0 ts → (∀ t ∈ ts, t ≤ intMax) →
      ((l0.tryAcquireAll ts).2.counters.length : Int) ≤ s0.window / sw) := by
  obtain ⟨hcfg, hc, hs, hq, _, hback⟩ :=
    SlidingLogLimiter.newSlidingLog_configured sw strategies l0 hsw hwin hnew
  have hs0 : s0 ∈ l0.strategies := by rw [hhead]; exact List.mem_cons_self _ _
  have hq0 : s0.smallWindows = s0.window / sw := hq s0 hs0
  refine ⟨?_, ?_, ?_⟩
  · intro x hx
    obtain ⟨s, hmem, _, hw⟩ := hback x hx
    rw [hw]
    have hpw := hcfg.2.2.2.1
    rw [hhead] at hmem hpw
    rcases List.mem_cons.mp hmem with rfl | h
    · exact le_refl _
    · exact (List.pairwise_cons.mp hpw).1 s h
  · intro m now h0 hmax
    have hcfg2 : SlidingLogLimiter.Configured { l0 with counters := m } := hcfg
    have hcases := SlidingLogLimiter.slidingLog_tryAcquire_cases { l0 with counters := m }
      now _ _ s0 rest hcfg2 h0 hmax rfl hhead rfl
    simp only [hs, hq0] at hcases
    have hnewc : (SlidingLogLimiter.TryAcquire { l0 with counters := m } now).2.counters
          = m.filter (fun e => decide (now / sw * sw - sw * (s0.window / sw - 1) ≤ e.1)) ∨
        (SlidingLogLimiter.TryAcquire { l0 with counters := m } now).2.counters
          = Counters.incr (m.filter (fun e =>
              decide (now / sw * sw - sw * (s0.window / sw - 1) ≤ e.1))) (now / sw * sw) := by
      simp only [hs]
      rcases hcases with ⟨_, h⟩ | ⟨_, h⟩
      · exact Or.inl h
      · exact Or.inr h
    obtain ⟨_, hle, _⟩ := l0.start0_le (now / sw * sw) s0 rest hcfg hhead
    have hsc := hle s0 hs0
    rw [hs, hq0] at hsc
    obtain ⟨g1, g2⟩ := counters_step_get m _ _ _ hnewc
    exact ⟨counters_step_keys_ge m _ _ _ hnewc hsc, g1, g2⟩
  · intro ts hchain htmax
    obtain ⟨_, _, h1⟩ := l0.start0_le 0 s0 rest hcfg hhead
    have := SlidingLogLimiter.slidingLog_keyInv ts l0 0 s0 rest hcfg hhead (le_refl 0) hchain
      htmax (by rw [hc]; exact List.nodup_nil)
      (by rw [hc]; intro k hk; exact absurd hk (List.not_mem_nil _))
      (by rw [hc]; simp only [List.length_nil, Nat.cast_zero]; omega)
    rw [hq0] at this
    exact this

/-- An instance of the purge bound: strategies (limit 5, window 10) and
(limit 2, window 4) on sub-window 2 and the clock readings 0, 1, 4, 9, 12, 30. -/
theorem slidingLog_purge_bound_witness :
    (((SlidingLogLimiter.mk [⟨5, 10, 5⟩, ⟨2, 4, 2⟩] 2 []).tryAcquireAll
      [0, 1, 4, 9, 12, 30]).2.counters.length : Int) ≤ 10 / 2 :=
  (slidingLog_purge_bound 2 [NewSlidingLogLimiterStrategy 2 4, NewSlidingLogLimiterStrategy 5 10]
    (SlidingLogLimiter.mk [⟨5, 10, 5⟩, ⟨2, 4, 2⟩] 2 []) ⟨5, 10, 5⟩ [⟨2, 4, 2⟩] (by decide)
    (by decide) rfl rfl).2.2 [0, 1, 4, 9, 12, 30] (by simp) (by decide)

/-- C17. Initial burst of the sliding log: on a limiter built from
`smallWindow > 0`, windows that are at least `smallWindow` and positive
limits, with `sl` the last stored strategy, `sl` has the smallest limit and the
smallest window of all, and when all calls fall into one sub-window exactly
`sl.limit` of them succeed: the first `sl.limit` calls return nil and every
later one is refused with the `ViolationStrategyError` of `sl`. -/
theorem slidingLog_initial_burst (sw q : Int) (strategies : List SlidingLogLimiterStrategy)
    (l0 : SlidingLogLimiter) (sl : SlidingLogLimiterStrategy) (ts : List Int)
    (hsw : 0 < sw) (hwin : ∀ s ∈ strategies, sw ≤ s.window ∧ s.window ≤ intMax)
    (hlim : ∀ s ∈ strategies, 0 < s.limit ∧ s.limit ≤ intMax)
    (hnew : NewSlidingLogLimiter sw strategies = GoResult.ok l0)
    (hlast : l0.strategies.getLast? = some sl)
    (hts : ∀ t ∈ ts, 0 ≤ t ∧ t ≤ intMax ∧ t / sw = q) :
    (∀ s ∈ strategies, sl.limit ≤ s.limit ∧ sl.window ≤ s.window) ∧
    (l0.tryAcquireAll ts).1
      = List.replicate (min ts.length sl.limit.toNat) none
        ++ List.replicate (ts.length - sl.limit.toNat)
            (some { Limit := sl.limit, Window := sl.window }) := by
  obtain ⟨hcfg, hc, hs, _, hfwd, hback⟩ :=
    SlidingLogLimiter.newSlidingLog_configured sw strategies l0 hsw hwin hnew
  obtain ⟨pre, hsplit⟩ := List.getLast?_eq_some_iff.mp hlast
  obtain ⟨_, hleast⟩ := l0.last_is_least pre sl hcfg hsplit
  have hlim0 : ∀ s ∈ l0.strategies, IsInt s.limit := by
    intro s hmem
    obtain ⟨x, hx, hl, _⟩ := hfwd s hmem
    obtain ⟨h1, h2⟩ := hlim x hx
    rw [intMax_eq] at h2
    exact (isInt_iff _).mpr (by omega)
  have hslpos : 0 ≤ sl.limit := by
    obtain ⟨x, hx, hl, _⟩ := hfwd sl (by rw [hsplit]; simp)
    have := (hlim x hx).1
    omega
  constructor
  · intro x hx
    obtain ⟨s, hmem, hl, hw⟩ := hback x hx
    rw [hl, hw]
    exact hleast s hmem
  · have := SlidingLogLimiter.burst_run ts (q * sw) pre sl l0 0 hcfg hlim0 hsplit
      (fun t ht => by
        obtain ⟨h1, h2, h3⟩ := hts t ht
        rw [hs, h3]
        exact ⟨h1, h2, rfl⟩)
      (Or.inl ⟨rfl, hc⟩) (by simpa using hslpos)
    simpa using this

/-- Witness for C17: strategies (limit 5, window 10) and (limit 2, window 4)
on sub-window 2, four calls at the clock readings 6, 7, 7, 7: two succeed, the
others are refused by the narrow strategy. -/
theorem slidingLog_initial_burst_witness :
    ((SlidingLogLimiter.mk [⟨5, 10, 5⟩, ⟨2, 4, 2⟩] 2 []).tryAcquireAll [6, 7, 7, 7]).1
      = [none, none, some { Limit := 2, Window := 4 }, some { Limit := 2, Window := 4 }] :=
  (slidingLog_initial_burst 2 3
    [NewSlidingLogLimiterStrategy 2 4, NewSlidingLogLimiterStrategy 5 10]
    (SlidingLogLimiter.mk [⟨5, 10, 5⟩, ⟨2, 4, 2⟩] 2 []) ⟨2, 4, 2⟩ [6, 7, 7, 7] (by decide)
    (by decide) (by decide) rfl rfl (by decide)).2.trans (by decide)

/-! ## Theorems: the sliding log and its shared strategy objects -/

section SharedLemmas

theorem Shared.load_set (h : Shared.Store) (p q : Nat) (v : SlidingLogLimiterStrategy)
    (hp : p < h.length) :
    Store.load (h.set p v) q = if p = q then v else Store.load h q := by
  unfold Store.load
  simp only [List.getD_eq_getElem?_getD, List.getElem?_set]
  by_cases hpq : p = q
  · subst hpq
    simp [hp]
  · simp [hpq]

/-- A call of `TryAcquire` is the call on the limiter with the pointers
followed in the store of the moment. -/
theorem Shared.tryAcquire_deref (l : Shared.SlidingLogLimiter) (h : Shared.Store) (now : Int) :
    l.TryAcquire h now
      = (((l.deref h).TryAcquire now).1,
         { l with counters := ((l.deref h).TryAcquire now).2.counters }) := by
  unfold Shared.SlidingLogLimiter.TryAcquire RateLimiters.SlidingLogLimiter.TryAcquire
    Shared.SlidingLogLimiter.deref
  simp only [List.map_map, List.length_map]
  split <;> rename_i hv
  · have hv2 := hv
    simp only [Function.comp_def] at hv2 ⊢
    rw [hv2]
  · have hv2 := hv
    simp only [Function.comp_def] at hv2 ⊢
    rw [hv2]

theorem Shared.tryAcquireAll_deref (ts : List Int) (h : Shared.Store) :
    ∀ l : Shared.SlidingLogLimiter,
      (l.tryAcquireAll h ts).1 = ((l.deref h).tryAcquireAll ts).1 ∧
      (l.tryAcquireAll h ts).2.deref h = ((l.deref h).tryAcquireAll ts).2 := by
  induction ts with
  | nil =>
    intro l
    exact ⟨rfl, rfl⟩
  | cons t ts ih =>
    intro l
    have hd : (l.TryAcquire h t).2.deref h = ((l.deref h).TryAcquire t).2 := by
      rw [Shared.tryAcquire_deref]
      obtain ⟨f1, f2⟩ := (l.deref h).slidingLog_tryAcquire_fields t
      rcases hX : ((l.deref h).TryAcquire t).2 with ⟨a, b, c⟩
      rw [hX] at f1 f2
      simp only [Shared.SlidingLogLimiter.deref] at f1 f2 ⊢
      rw [f1, f2]
    obtain ⟨i1, i2⟩ := ih (l.TryAcquire h t).2
    rw [hd] at i1 i2
    have hr : (l.TryAcquire h t).1 = ((l.deref h).TryAcquire t).1 := by
      rw [Shared.tryAcquire_deref]
    rw [RateLimiters.SlidingLogLimiter.slidingLog_tryAcquireAll_cons]
    show (l.TryAcquire h t).1 :: ((l.TryAcquire h t).2.tryAcquireAll h ts).1 = _ ∧
      ((l.TryAcquire h t).2.tryAcquireAll h ts).2.deref h = _
    rw [i1, i2, hr]
    exact ⟨rfl, rfl⟩

theorem Shared.checkStrategies_unfold (sw : Int) (prev : Option Nat) (p : Nat) (rest : List Nat)
    (g : Shared.Store) :
    Shared.checkStrategies sw prev (p :: rest) g
      = if prev.elim false (fun q =>
            decide ((Shared.Store.load g p).limit ≥ (Shared.Store.load g q).limit)) = true then
          (GoResult.failed "the smaller window should be the smaller limit", g)
        else if sw = 0 then (GoResult.panicked, g)
        else if goMod (Shared.Store.load g p).window sw ≠ 0 then
          (GoResult.failed "window cannot be split by integers", g)
        else
          Shared.checkStrategies sw (some p) rest
            (g.set p { Shared.Store.load g p with
              smallWindows := goDiv (Shared.Store.load g p).window sw }) := by
  cases prev <;> rfl

theorem checkStrategies_cons (sw : Int) (prev : Option SlidingLogLimiterStrategy)
    (s : SlidingLogLimiterStrategy) (rest : List SlidingLogLimiterStrategy) :
    checkStrategies sw prev (s :: rest)
      = if prev.elim false (fun p => decide (s.limit ≥ p.limit)) = true then
          GoResult.failed "the smaller window should be the smaller limit"
        else if sw = 0 then GoResult.panicked
        else if goMod s.window sw ≠ 0 then
          GoResult.failed "window cannot be split by integers"
        else
          match checkStrategies sw (some s) rest with
          | GoResult.ok r =>
            GoResult.ok ({ s with smallWindows := goDiv s.window sw } :: r)
          | GoResult.failed msg => GoResult.failed msg
          | GoResult.panicked => GoResult.panicked := by
  cases prev <;> rfl

/-- The checking loop on pointers and the checking loop on the objects behind
them: the same outcome.  On success every checked object holds the quotient
`window / smallWindow`; in any case the loop changes no `limit`, no `window`
and no object it did not check. -/
theorem Shared.checkStrategies_deref (sw : Int) (h0 : Shared.Store) :
    ∀ (qs : List Nat) (prev : Option Nat) (g : Shared.Store),
      g.length = h0.length →
      (∀ p, (Shared.Store.load g p).limit = (Shared.Store.load h0 p).limit ∧
        (Shared.Store.load g p).window = (Shared.Store.load h0 p).window) →
      (∀ q ∈ qs, q < h0.length) →
      ((Shared.checkStrategies sw prev qs g).2.length = h0.length ∧
        (∀ p, (Shared.Store.load (Shared.checkStrategies sw prev qs g).2 p).limit
            = (Shared.Store.load h0 p).limit ∧
          (Shared.Store.load (Shared.checkStrategies sw prev qs g).2 p).window
            = (Shared.Store.load h0 p).window) ∧
        (∀ p, p ∉ qs → Shared.Store.load (Shared.checkStrategies sw prev qs g).2 p
            = Shared.Store.load g p)) ∧
      (((Shared.checkStrategies sw prev qs g).1 = GoResult.ok () ∧
          RateLimiters.checkStrategies sw (prev.map (Shared.Store.load h0))
              (qs.map (Shared.Store.load h0))
            = GoResult.ok (qs.map (Shared.Store.load (Shared.checkStrategies sw prev qs g).2)) ∧
          (∀ q ∈ qs, Shared.Store.load (Shared.checkStrategies sw prev qs g).2 q
            = { Shared.Store.load h0 q with
                smallWindows := goDiv (Shared.Store.load h0 q).window sw })) ∨
        (∃ msg, (Shared.checkStrategies sw prev qs g).1 = GoResult.failed msg ∧
          RateLimiters.checkStrategies sw (prev.map (Shared.Store.load h0))
              (qs.map (Shared.Store.load h0)) = GoResult.failed msg) ∨
        ((Shared.checkStrategies sw prev qs g).1 = GoResult.panicked ∧
          RateLimiters.checkStrategies sw (prev.map (Shared.Store.load h0))
              (qs.map (Shared.Store.load h0)) = GoResult.panicked)) := by
  intro qs
  induction qs with
  | nil =>
    intro prev g hlen hag _
    exact ⟨⟨hlen, hag, fun _ _ => rfl⟩, Or.inl ⟨rfl, rfl, fun q hq => absurd hq (List.not_mem_nil _)⟩⟩
  | cons p rest ih =>
    intro prev g hlen hag hval
    have hp : p < g.length := by rw [hlen]; exact hval p (List.mem_cons_self _ _)
    have hcond : prev.elim false (fun q =>
          decide ((Shared.Store.load g p).limit ≥ (Shared.Store.load g q).limit))
        = (prev.map (Shared.Store.load h0)).elim false
            (fun s => decide ((Shared.Store.load h0 p).limit ≥ s.limit)) := by
      cases prev with
      | none => rfl
      | some q =>
        show decide _ = decide _
        rw [(hag p).1, (hag q).1]
    rw [Shared.checkStrategies_unfold, List.map_cons, RateLimiters.checkStrategies_cons,
      hcond, (hag p).2]
    by_cases h1 : (prev.map (Shared.Store.load h0)).elim false
        (fun s => decide ((Shared.Store.load h0 p).limit ≥ s.limit)) = true
    · rw [if_pos h1, if_pos h1]
      exact ⟨⟨hlen, hag, fun _ _ => rfl⟩, Or.inr (Or.inl ⟨_, rfl, rfl⟩)⟩
    · rw [if_neg h1, if_neg h1]
      by_cases h2 : sw = 0
      · rw [if_pos h2, if_pos h2]
        exact ⟨⟨hlen, hag, fun _ _ => rfl⟩, Or.inr (Or.inr ⟨rfl, rfl⟩)⟩
      · rw [if_neg h2, if_neg h2]
        by_cases h3 : goMod (Shared.Store.load h0 p).window sw ≠ 0
        · rw [if_pos h3, if_pos h3]
          exact ⟨⟨hlen, hag, fun _ _ => rfl⟩, Or.inr (Or.inl ⟨_, rfl, rfl⟩)⟩
        · rw [if_neg h3, if_neg h3]
          have hload : ∀ q, Shared.Store.load (g.set p { Shared.Store.load g p with
                smallWindows := goDiv (Shared.Store.load h0 p).window sw }) q
              = if p = q then { Shared.Store.load g p with
                  smallWindows := goDiv (Shared.Store.load h0 p).window sw }
                else Shared.Store.load g q :=
            fun q => Shared.load_set g p q _ hp
          have hag2 : ∀ q, (Shared.Store.load (g.set p { Shared.Store.load g p with
                smallWindows := goDiv (Shared.Store.load h0 p).window sw }) q).limit
                = (Shared.Store.load h0 q).limit ∧
              (Shared.Store.load (g.set p { Shared.Store.load g p with
                smallWindows := goDiv (Shared.Store.load h0 p).window sw }) q).window
                = (Shared.Store.load h0 q).window := by
            intro q
            rw [hload q]
            by_cases hpq : p = q
            · subst hpq
              rw [if_pos rfl]
              exact hag p
            · rw [if_neg hpq]
              exact hag q
          obtain ⟨⟨r1, r2, r3⟩, r4⟩ := ih (some p) (g.set p { Shared.Store.load g p with
              smallWindows := goDiv (Shared.Store.load h0 p).window sw })
            (by rw [List.length_set]; exact hlen) hag2
            (fun q hq => hval q (List.mem_cons_of_mem _ hq))
          refine ⟨⟨r1, r2, ?_⟩, ?_⟩
          · intro q hq
            rw [r3 q (fun hm => hq (List.mem_cons_of_mem _ hm)), hload q,
              if_neg (fun hpq => hq (by rw [hpq]; exact List.mem_cons_self _ _))]
          · rcases r4 with ⟨s1, s2, s3⟩ | ⟨msg, s1, s2⟩ | ⟨s1, s2⟩
            · have hpw : Shared.Store.load (Shared.checkStrategies sw (some p) rest
                  (g.set p { Shared.Store.load g p with
                    smallWindows := goDiv (Shared.Store.load h0 p).window sw })).2 p
                  = { Shared.Store.load h0 p with
                      smallWindows := goDiv (Shared.Store.load h0 p).window sw } := by
                by_cases hm : p ∈ rest
                · exact s3 p hm
                · rw [r3 p hm, hload p, if_pos rfl]
                  obtain ⟨a1, a2⟩ := hag p
                  cases hgp : Shared.Store.load g p with
                  | mk l1 w1 sw1 =>
                    cases hhp : Shared.Store.load h0 p with
                    | mk l2 w2 sw2 =>
                      rw [hgp, hhp] at a1 a2
                      simp only at a1 a2
                      subst a1
                      subst a2
                      rfl
              refine Or.inl ⟨s1, ?_, ?_⟩
              · have s2b : RateLimiters.checkStrategies sw (some (Shared.Store.load h0 p))
                    (rest.map (Shared.Store.load h0)) = _ := s2
                rw [s2b, List.map_cons, hpw]
              · intro q hq
                rcases List.mem_cons.mp hq with rfl | hq
                · exact hpw
                · exact s3 q hq
            · have s2b : RateLimiters.checkStrategies sw (some (Shared.Store.load h0 p))
                  (rest.map (Shared.Store.load h0)) = _ := s2
              exact Or.inr (Or.inl ⟨msg, s1, by rw [s2b]⟩)
            · have s2b : RateLimiters.checkStrategies sw (some (Shared.Store.load h0 p))
                  (rest.map (Shared.Store.load h0)) = _ := s2
              exact Or.inr (Or.inr ⟨s1, by rw [s2b]⟩)

/-- Sorting the pointers by what they lead to is sorting the objects. -/
theorem Shared.sort_deref (h : Shared.Store) (ps : List Nat) :
    (ps.insertionSort (Shared.pointerBefore h)).map (Shared.Store.load h)
      = sortStrategies (ps.map (Shared.Store.load h)) :=
  List.map_insertionSort (Shared.pointerBefore h) strategyBefore (Shared.Store.load h) ps
    (fun _ _ _ _ => Iff.rfl)

/-- The constructor on pointers and the constructor on the objects behind
them: for pointers of the store the two have the same outcome, and the limiter
returned, with its pointers followed in the store the call leaves, is the
limiter of `NewSlidingLogLimiter`. -/
theorem Shared.newSlidingLogLimiter_deref (h : Shared.Store) (sw : Int) (ps : List Nat)
    (hval : ∀ p ∈ ps, p < h.length) :
    (∃ l, (Shared.NewSlidingLogLimiter h sw ps).1 = GoResult.ok l ∧
        RateLimiters.NewSlidingLogLimiter sw (ps.map (Shared.Store.load h))
          = GoResult.ok (l.deref (Shared.NewSlidingLogLimiter h sw ps).2)) ∨
    (∃ msg, (Shared.NewSlidingLogLimiter h sw ps).1 = GoResult.failed msg ∧
        RateLimiters.NewSlidingLogLimiter sw (ps.map (Shared.Store.load h))
          = GoResult.failed msg) ∨
    ((Shared.NewSlidingLogLimiter h sw ps).1 = GoResult.panicked ∧
        RateLimiters.NewSlidingLogLimiter sw (ps.map (Shared.Store.load h))
          = GoResult.panicked) := by
  unfold Shared.NewSlidingLogLimiter RateLimiters.NewSlidingLogLimiter
  rw [List.length_map]
  by_cases h0 : ps.length = 0
  · rw [if_pos h0, if_pos h0]
    exact Or.inr (Or.inl ⟨_, rfl, rfl⟩)
  · rw [if_neg h0, if_neg h0]
    have hany : ¬ (ps.any (fun p => decide (h.length ≤ p)) = true) := by
      rw [List.any_eq_true]
      rintro ⟨p, hp, hle⟩
      have := hval p hp
      simp only [decide_eq_true_eq] at hle
      omega
    rw [if_neg hany, ← Shared.sort_deref]
    obtain ⟨_, r⟩ := Shared.checkStrategies_deref sw h
      (ps.insertionSort (Shared.pointerBefore h)) none h rfl (fun _ => ⟨rfl, rfl⟩)
      (fun q hq => hval q ((List.mem_insertionSort _).mp hq))
    rw [Option.map_none'] at r
    rcases hout : Shared.checkStrategies sw none (ps.insertionSort (Shared.pointerBefore h)) h
      with ⟨o, h2⟩
    rw [hout] at r
    rcases r with ⟨s1, s2, _⟩ | ⟨msg, s1, s2⟩ | ⟨s1, s2⟩
    · simp only at s1 s2
      subst s1
      rw [s2]
      exact Or.inl ⟨_, rfl, rfl⟩
    · simp only at s1 s2
      subst s1
      rw [s2]
      exact Or.inr (Or.inl ⟨msg, rfl, rfl⟩)
    · simp only at s1 s2
      subst s1
      rw [s2]
      exact Or.inr (Or.inr ⟨rfl, rfl⟩)

/-- A `nil` among the strategies: the constructor panics and has written
nothing. -/
theorem Shared.newSlidingLogLimiter_nil (h : Shared.Store) (sw : Int) (ps : List Nat) (p : Nat)
    (hp : p ∈ ps) (hnil : h.length ≤ p) :
    Shared.NewSlidingLogLimiter h sw ps = (GoResult.panicked, h) := by
  unfold Shared.NewSlidingLogLimiter
  have h0 : ¬ ps.length = 0 := by
    intro hl
    rw [List.length_eq_zero] at hl
    rw [hl] at hp
    exact absurd hp (List.not_mem_nil _)
  have hany : ps.any (fun p => decide (h.length ≤ p)) = true := by
    rw [List.any_eq_true]
    exact ⟨p, hp, by simpa using hnil⟩
  rw [if_neg h0, if_pos hany]

/-- What a constructor call does to the store: every object keeps its `limit`
and its `window`, and the objects that are not among the arguments are left as
they were. -/
theorem Shared.newSlidingLogLimiter_frame (h : Shared.Store) (sw : Int) (ps : List Nat)
    (hval : ∀ p ∈ ps, p < h.length) :
    (Shared.NewSlidingLogLimiter h sw ps).2.length = h.length ∧
    (∀ p, (Shared.Store.load (Shared.NewSlidingLogLimiter h sw ps).2 p).limit
        = (Shared.Store.load h p).limit ∧
      (Shared.Store.load (Shared.NewSlidingLogLimiter h sw ps).2 p).window
        = (Shared.Store.load h p).window) ∧
    (∀ p, p ∉ ps → Shared.Store.load (Shared.NewSlidingLogLimiter h sw ps).2 p
        = Shared.Store.load h p) ∧
    (∀ l, (Shared.NewSlidingLogLimiter h sw ps).1 = GoResult.ok l →
      ∀ p ∈ ps, (Shared.Store.load (Shared.NewSlidingLogLimiter h sw ps).2 p).smallWindows
        = goDiv (Shared.Store.load h p).window sw) := by
  unfold Shared.NewSlidingLogLimiter
  by_cases h0 : ps.length = 0
  · rw [if_pos h0]
    refine ⟨rfl, fun _ => ⟨rfl, rfl⟩, fun _ _ => rfl, fun l hl => GoResult.noConfusion hl⟩
  · rw [if_neg h0]
    have hany : ¬ (ps.any (fun p => decide (h.length ≤ p)) = true) := by
      rw [List.any_eq_true]
      rintro ⟨p, hp, hle⟩
      have := hval p hp
      simp only [decide_eq_true_eq] at hle
      omega
    rw [if_neg hany]
    obtain ⟨⟨f1, f2, f3⟩, r⟩ := Shared.checkStrategies_deref sw h
      (ps.insertionSort (Shared.pointerBefore h)) none h rfl (fun _ => ⟨rfl, rfl⟩)
      (fun q hq => hval q ((List.mem_insertionSort _).mp hq))
    rcases hout : Shared.checkStrategies sw none (ps.insertionSort (Shared.pointerBefore h)) h
      with ⟨o, h2⟩
    rw [hout] at f1 f2 f3 r
    simp only at f1 f2 f3 r
    have hfr : ∀ p, p ∉ ps → Shared.Store.load h2 p = Shared.Store.load h p :=
      fun p hp => f3 p (fun hm => hp ((List.mem_insertionSort _).mp hm))
    cases o with
    | ok u =>
      refine ⟨f1, f2, hfr, fun l _ p hp => ?_⟩
      rcases r with ⟨_, _, s3⟩ | ⟨msg, s1, _⟩ | ⟨s1, _⟩
      · show (Shared.Store.load h2 p).smallWindows = _
        rw [s3 p ((List.mem_insertionSort _).mpr hp)]
      · exact GoResult.noConfusion s1
      · exact GoResult.noConfusion s1
    | failed msg => exact ⟨f1, f2, hfr, fun l hl => GoResult.noConfusion hl⟩
    | panicked => exact ⟨f1, f2, hfr, fun l hl => GoResult.noConfusion hl⟩

/-- In the store that its own constructor call leaves, a limiter with its
pointers followed is well formed, and it stays so along calls of `TryAcquire`
at clock readings `0 ≤ t`, as long as no constructor call comes between. -/
theorem Shared.newSlidingLogLimiter_wf (h : Shared.Store) (sw : Int) (ps : List Nat)
    (l : Shared.SlidingLogLimiter) (ts : List Int)
    (hval : ∀ p ∈ ps, p < h.length) (hsw : 0 < sw)
    (hwin : ∀ p ∈ ps, sw ≤ (Shared.Store.load h p).window ∧
      (Shared.Store.load h p).window ≤ intMax)
    (hlim : ∀ p ∈ ps, IsInt (Shared.Store.load h p).limit)
    (hnew : (Shared.NewSlidingLogLimiter h sw ps).1 = GoResult.ok l)
    (hts : ∀ t ∈ ts, 0 ≤ t ∧ t ≤ intMax) :
    ((l.tryAcquireAll (Shared.NewSlidingLogLimiter h sw ps).2 ts).2.deref
      (Shared.NewSlidingLogLimiter h sw ps).2).WF := by
  have hmem : ∀ (P : SlidingLogLimiterStrategy → Prop), (∀ p ∈ ps, P (Shared.Store.load h p)) →
      ∀ s ∈ ps.map (Shared.Store.load h), P s := by
    intro P hP s hs
    obtain ⟨p, hp, rfl⟩ := List.mem_map.mp hs
    exact hP p hp
  rcases Shared.newSlidingLogLimiter_deref h sw ps hval with
    ⟨l2, h1, h2⟩ | ⟨msg, h1, _⟩ | ⟨h1, _⟩
  · rw [hnew] at h1
    cases h1
    have hwf := RateLimiters.SlidingLogLimiter.newSlidingLog_wf sw _ _ hsw
      (hmem _ hwin) (hmem _ hlim) h2
    rw [(Shared.tryAcquireAll_deref ts _ l).2]
    exact RateLimiters.SlidingLogLimiter.slidingLog_tryAcquireAll_wf ts _ hwf hts
  · rw [hnew] at h1
    exact GoResult.noConfusion h1
  · rw [hnew] at h1
    exact GoResult.noConfusion h1

end SharedLemmas

/-- C15 (failing input). One strategy object, limit 3 in 60 s, is handed to two
constructor calls.  The limiter of the first call, on sub-window 1 s, lets
three calls in at the clock reading 1700000000 s.  The second constructor call,
on sub-window 10 s, succeeds and leaves `smallWindows = 6` in the object, where
the first had left 60.  Then `TryAcquire` of the first limiter at 1700000007 s:
the map holds the count 3 at a key that is 7 s old, inside the window of 60 s,
so the count of the strategy is 3, its limit.  In the store as it was before
the second constructor call the call returns the `ViolationStrategyError` of
(3, 60 s) and leaves the map alone.  In the store the second constructor call
left it reads `smallWindows = 6`, takes 1700000002 s as the start of the window,
deletes the entry, returns nil and inserts the key 1700000007 s. -/
theorem slidingLog_tryAcquire_aliased :
    Shared.NewSlidingLogLimiterStrategy [] 3 (60 * second) = (0, [⟨3, 60 * second, 0⟩]) ∧
    Shared.NewSlidingLogLimiter [⟨3, 60 * second, 0⟩] second [0]
      = (GoResult.ok ⟨[0], second, []⟩, [⟨3, 60 * second, 60⟩]) ∧
    Shared.SlidingLogLimiter.tryAcquireAll ⟨[0], second, []⟩ [⟨3, 60 * second, 60⟩]
        [1700000000 * second, 1700000000 * second, 1700000000 * second]
      = ([none, none, none], ⟨[0], second, [(1700000000 * second, 3)]⟩) ∧
    Shared.NewSlidingLogLimiter [⟨3, 60 * second, 60⟩] (10 * second) [0]
      = (GoResult.ok ⟨[0], 10 * second, []⟩, [⟨3, 60 * second, 6⟩]) ∧
    Counters.sumFrom [(1700000000 * second, 3)]
        (1700000007 * second / second * second - (60 * second - second)) = 3 ∧
    Shared.SlidingLogLimiter.TryAcquire ⟨[0], second, [(1700000000 * second, 3)]⟩
        [⟨3, 60 * second, 60⟩] (1700000007 * second)
      = (some ⟨3, 60 * second⟩, ⟨[0], second, [(1700000000 * second, 3)]⟩) ∧
    Shared.SlidingLogLimiter.TryAcquire ⟨[0], second, [(1700000000 * second, 3)]⟩
        [⟨3, 60 * second, 6⟩] (1700000007 * second)
      = (none, ⟨[0], second, [(1700000007 * second, 1)]⟩) :=
  ⟨rfl, rfl, by decide, rfl, by decide, by decide, by decide⟩

/-- C16 (failing input). One strategy object in two constructor calls, twice.
First: limit 3 in 60 s, a limiter on sub-window 1 s that has let three calls
in at the clock reading 1700000000 s, then a constructor call with the same
strategy on sub-window 10 s, which leaves `smallWindows = 6`.  The next call of
the first limiter, at 1700000007 s, deletes the entry at key 1700000000 s,
which is inside the window of 60 s of its only strategy; in the store as it
was before the second constructor call the entry stays.  Second, with the
sub-windows the other way round: limit 10 in 60 s, a limiter on sub-window
10 s, then a constructor call with the same strategy on sub-window 1 s, which
leaves `smallWindows = 60`.  Calls of the first limiter at 1700000000,
1700000010, ..., 1700000070 s leave eight entries in the map, more than
`60 s / 10 s = 6`, and the first of them is older than the window of 60 s,
which starts at 1700000020 s; in the store as it was before the second
constructor call the same calls leave six entries. -/
theorem slidingLog_purge_aliased :
    Shared.NewSlidingLogLimiter [⟨3, 60 * second, 0⟩] second [0]
      = (GoResult.ok ⟨[0], second, []⟩, [⟨3, 60 * second, 60⟩]) ∧
    Shared.NewSlidingLogLimiter [⟨3, 60 * second, 60⟩] (10 * second) [0]
      = (GoResult.ok ⟨[0], 10 * second, []⟩, [⟨3, 60 * second, 6⟩]) ∧
    1700000007 * second / second * second - (60 * second - second) ≤ 1700000000 * second ∧
    Counters.get (Shared.SlidingLogLimiter.TryAcquire
      ⟨[0], second, [(1700000000 * second, 3)]⟩
      [⟨3, 60 * second, 6⟩] (1700000007 * second)).2.counters (1700000000 * second) = none ∧
    Counters.get (Shared.SlidingLogLimiter.TryAcquire
      ⟨[0], second, [(1700000000 * second, 3)]⟩
      [⟨3, 60 * second, 60⟩] (1700000007 * second)).2.counters (1700000000 * second)
      = some 3 ∧
    Shared.NewSlidingLogLimiter [⟨10, 60 * second, 0⟩] (10 * second) [0]
      = (GoResult.ok ⟨[0], 10 * second, []⟩, [⟨10, 60 * second, 6⟩]) ∧
    Shared.NewSlidingLogLimiter [⟨10, 60 * second, 6⟩] second [0]
      = (GoResult.ok ⟨[0], second, []⟩, [⟨10, 60 * second, 60⟩]) ∧
    (Shared.SlidingLogLimiter.tryAcquireAll ⟨[0], 10 * second, []⟩ [⟨10, 60 * second, 60⟩]
      [1700000000 * second, 1700000010 * second, 1700000020 * second, 1700000030 * second,
       1700000040 * second, 1700000050 * second, 1700000060 * second,
       1700000070 * second]).2.counters
      = [(1700000000 * second, 1), (1700000010 * second, 1), (1700000020 * second, 1),
         (1700000030 * second, 1), (1700000040 * second, 1), (1700000050 * second, 1),
         (1700000060 * second, 1), (1700000070 * second, 1)] ∧
    (60 * second) / (10 * second) = 6 ∧
    1700000070 * second / (10 * second) * (10 * second) - (60 * second - 10 * second)
      = 1700000020 * second ∧
    (Shared.SlidingLogLimiter.tryAcquireAll ⟨[0], 10 * second, []⟩ [⟨10, 60 * second, 6⟩]
      [1700000000 * second, 1700000010 * second, 1700000020 * second, 1700000030 * second,
       1700000040 * second, 1700000050 * second, 1700000060 * second,
       1700000070 * second]).2.counters
      = [(1700000020 * second, 1), (1700000030 * second, 1), (1700000040 * second, 1),
         (1700000050 * second, 1), (1700000060 * second, 1), (1700000070 * second, 1)] :=
  ⟨rfl, rfl, by decide, by decide, by decide, rfl, rfl, by decide, by decide, by decide,
   by decide⟩

/-! ## Theorems: composite -/

section CompositeLemmas

variable {σ R : Type} [LinearOrder R]

theorem limitBefore_iff (a b : RateLimiter σ R) : limitBefore a b ↔ a.Limit ≤ b.Limit := by
  unfold limitBefore byLimit
  exact not_lt

instance limitBefore_total : IsTotal (RateLimiter σ R) limitBefore :=
  ⟨fun a b => by rw [limitBefore_iff, limitBefore_iff]; exact le_total _ _⟩

instance limitBefore_trans : IsTrans (RateLimiter σ R) limitBefore :=
  ⟨fun a b c => by
    rw [limitBefore_iff, limitBefore_iff, limitBefore_iff]; exact le_trans⟩

theorem multiLimiter_perm (members : List (RateLimiter σ R)) :
    (MultiLimiter members).limiters.Perm members :=
  List.perm_insertionSort limitBefore members

theorem multiLimiter_sorted (members : List (RateLimiter σ R)) :
    (MultiLimiter members).limiters.Pairwise (fun a b => a.Limit ≤ b.Limit) := by
  have h : (members.insertionSort limitBefore).Pairwise limitBefore :=
    List.sorted_insertionSort limitBefore members
  exact h.imp (fun hab => (limitBefore_iff _ _).mp hab)

/-- The first element of any permutation sorted by `byLimit` has the least
limit. -/
theorem sorted_head_min (members stored : List (RateLimiter σ R)) (hne : members ≠ [])
    (hperm : stored.Perm members)
    (hsorted : stored.Pairwise (fun a b => ¬ b.Limit < a.Limit)) :
    ∃ m ∈ members, (multiLimiter.mk stored).Limit = GoResult.ok m.Limit ∧
      ∀ x ∈ members, m.Limit ≤ x.Limit := by
  cases stored with
  | nil => exact absurd (List.Perm.nil_eq hperm).symm hne
  | cons m rest =>
    refine ⟨m, hperm.mem_iff.mp (List.mem_cons_self _ _), rfl, ?_⟩
    intro x hx
    rcases List.mem_cons.mp (hperm.mem_iff.mpr hx) with rfl | h
    · exact le_refl _
    · exact not_lt.mp ((List.pairwise_cons.mp hsorted).1 x h)

omit [LinearOrder R] in
theorem waitFrom_cons (ctx : Context) (i : Nat) (m : RateLimiter σ R)
    (rest : List (RateLimiter σ R)) (w : σ) :
    waitFrom ctx i (m :: rest) w
      = match (m.Wait ctx w).1 with
        | some err => ((some err, (m.Wait ctx w).2), [i])
        | none =>
          ((waitFrom ctx (i + 1) rest (m.Wait ctx w).2).1,
            i :: (waitFrom ctx (i + 1) rest (m.Wait ctx w).2).2) := rfl

omit [LinearOrder R] in
/-- The loop of `Wait`: it calls the members in stored order, stops at the
first error and returns it; it returns nil when no member returns an error. -/
theorem waitFrom_spec (ctx : Context) : ∀ (ls : List (RateLimiter σ R)) (i : Nat) (w : σ),
    ((waitFrom ctx i ls w).1.1 = none →
      (waitFrom ctx i ls w).2 = List.range' i ls.length ∧
      ∀ a m b, ls = a ++ m :: b →
        (m.Wait ctx (a.foldl (fun v x => (x.Wait ctx v).2) w)).1 = none) ∧
    (∀ err, (waitFrom ctx i ls w).1.1 = some err →
      ∃ a m b, ls = a ++ m :: b ∧
        (∀ a1 m1 b1, a = a1 ++ m1 :: b1 →
          (m1.Wait ctx (a1.foldl (fun v x => (x.Wait ctx v).2) w)).1 = none) ∧
        (m.Wait ctx (a.foldl (fun v x => (x.Wait ctx v).2) w)).1 = some err ∧
        (waitFrom ctx i ls w).2 = List.range' i (a.length + 1)) := by
  intro ls
  induction ls with
  | nil =>
    intro i w
    refine ⟨fun _ => ⟨rfl, ?_⟩, ?_⟩
    · intro a m b h
      exact absurd h (by simp)
    · intro err h
      exact Option.noConfusion h
  | cons x rest ih =>
    intro i w
    rw [waitFrom_cons]
    cases hx : (x.Wait ctx w).1 with
    | some e =>
      refine ⟨fun h => Option.noConfusion h, ?_⟩
      intro err herr
      refine ⟨[], x, rest, rfl, ?_, ?_, rfl⟩
      · intro a1 m1 b1 h
        exact absurd h (by simp)
      · rw [← Option.some.inj herr]
        exact hx
    | none =>
      obtain ⟨ih1, ih2⟩ := ih (i + 1) (x.Wait ctx w).2
      refine ⟨?_, ?_⟩
      · intro h
        obtain ⟨r1, r2⟩ := ih1 h
        refine ⟨?_, ?_⟩
        · show i :: (waitFrom ctx (i + 1) rest (x.Wait ctx w).2).2 = _
          rw [r1]
          rfl
        · intro a m b hsplit
          cases a with
          | nil =>
            simp only [List.nil_append, List.cons.injEq] at hsplit
            rw [← hsplit.1]
            exact hx
          | cons y a2 =>
            simp only [List.cons_append, List.cons.injEq] at hsplit
            rw [← hsplit.1]
            exact r2 a2 m b hsplit.2
      · intro err herr
        obtain ⟨a, m, b, hsplit, hpre, hm, hinv⟩ := ih2 err herr
        refine ⟨x :: a, m, b, by rw [hsplit]; rfl, ?_, hm, ?_⟩
        · intro a1 m1 b1 h
          cases a1 with
          | nil =>
            simp only [List.nil_append, List.cons.injEq] at h
            rw [← h.1]
            exact hx
          | cons y a2 =>
            simp only [List.cons_append, List.cons.injEq] at h
            rw [← h.1]
            exact hpre a2 m1 b1 h.2
        · show i :: (waitFrom ctx (i + 1) rest (x.Wait ctx w).2).2 = _
          rw [hinv]
          rfl

end CompositeLemmas

/-- C18. Limit of the composite: for every non-empty list of members, with
rates in a total order, `MultiLimiter(members...).Limit()` is the limit of a
member and no member has a smaller one: it is the minimum.  The same holds
for every other permutation of the members that is sorted by `byLimit`, so the
order of the arguments and the way `sort.Slice` breaks ties do not matter. -/
theorem multiLimiter_limit_min {σ R : Type} [LinearOrder R] (members : List (RateLimiter σ R))
    (hne : members ≠ []) :
    (∃ m ∈ members, (MultiLimiter members).Limit = GoResult.ok m.Limit ∧
      ∀ x ∈ members, m.Limit ≤ x.Limit) ∧
    (∀ stored : List (RateLimiter σ R), stored.Perm members →
      stored.Pairwise (fun a b => ¬ b.Limit < a.Limit) →
      ∃ m ∈ members, (multiLimiter.mk stored).Limit = GoResult.ok m.Limit ∧
        ∀ x ∈ members, m.Limit ≤ x.Limit) :=
  ⟨sorted_head_min members _ hne (multiLimiter_perm members)
      ((multiLimiter_sorted members).imp (fun h => not_lt.mpr h)),
   fun stored hperm hsorted => sorted_head_min members stored hne hperm hsorted⟩

/-- Witness for C18: members with the rates 2 and 10 events per second, in
either order of the arguments, give the limit 2. -/
theorem multiLimiter_limit_min_witness :
    (MultiLimiter [(RateLimiter.mk (fun _ w => (none, w)) 2 : RateLimiter Unit Nat),
        RateLimiter.mk (fun _ w => (none, w)) 10]).Limit = GoResult.ok 2 ∧
    (MultiLimiter [(RateLimiter.mk (fun _ w => (none, w)) 10 : RateLimiter Unit Nat),
        RateLimiter.mk (fun _ w => (none, w)) 2]).Limit = GoResult.ok 2 := by
  constructor
  · obtain ⟨m, hm, hl, hmin⟩ := (multiLimiter_limit_min
      [(RateLimiter.mk (fun _ w => (none, w)) 2 : RateLimiter Unit Nat),
        RateLimiter.mk (fun _ w => (none, w)) 10] (by simp)).1
    rw [hl]
    have h2 := hmin _ (List.mem_cons_self _ _)
    simp only [List.mem_cons, List.mem_singleton, List.not_mem_nil, or_false] at hm
    rcases hm with rfl | rfl
    · rfl
    · exact absurd h2 (by decide)
  · obtain ⟨m, hm, hl, hmin⟩ := (multiLimiter_limit_min
      [(RateLimiter.mk (fun _ w => (none, w)) 10 : RateLimiter Unit Nat),
        RateLimiter.mk (fun _ w => (none, w)) 2] (by simp)).1
    rw [hl]
    have h2 := hmin _ (List.mem_cons_of_mem _ (List.mem_cons_self _ _))
    simp only [List.mem_cons, List.mem_singleton, List.not_mem_nil, or_false] at hm
    rcases hm with rfl | rfl
    · exact absurd h2 (by decide)
    · rfl

/-- C19. Result of `Wait` on the composite.  The stored members are a
permutation of the arguments in ascending order of `Limit()`.  For every
stored order, `Wait` calls the members in that order, each in the world its
predecessors left, and returns nil iff every member's `Wait` returns nil, then
having called every member; otherwise it returns exactly the error of the
first member whose `Wait` fails, having called the members up to that one. -/
theorem multiLimiter_wait_result {σ R : Type} [LinearOrder R]
    (members : List (RateLimiter σ R)) (ctx : Context) (w : σ) :
    ((MultiLimiter members).limiters.Perm members ∧
      (MultiLimiter members).limiters.Pairwise (fun a b => a.Limit ≤ b.Limit)) ∧
    (∀ stored : List (RateLimiter σ R),
      (((multiLimiter.mk stored).Wait ctx w).1.1 = none ↔
        ∀ a m b, stored = a ++ m :: b →
          (m.Wait ctx (a.foldl (fun v x => (x.Wait ctx v).2) w)).1 = none) ∧
      (((multiLimiter.mk stored).Wait ctx w).1.1 = none →
        ((multiLimiter.mk stored).Wait ctx w).2 = List.range stored.length) ∧
      (∀ err, ((multiLimiter.mk stored).Wait ctx w).1.1 = some err →
        ∃ a m b, stored = a ++ m :: b ∧
          (∀ a1 m1 b1, a = a1 ++ m1 :: b1 →
            (m1.Wait ctx (a1.foldl (fun v x => (x.Wait ctx v).2) w)).1 = none) ∧
          (m.Wait ctx (a.foldl (fun v x => (x.Wait ctx v).2) w)).1 = some err ∧
          ((multiLimiter.mk stored).Wait ctx w).2 = List.range (a.length + 1))) := by
  refine ⟨⟨multiLimiter_perm members, multiLimiter_sorted members⟩, ?_⟩
  intro stored
  obtain ⟨h1, h2⟩ := waitFrom_spec ctx stored 0 w
  refine ⟨⟨fun h => (h1 h).2, ?_⟩, ?_, ?_⟩
  · intro hall
    cases hr : ((multiLimiter.mk stored).Wait ctx w).1.1 with
    | none => rfl
    | some err =>
      obtain ⟨a, m, b, hsplit, _, hm, _⟩ := h2 err hr
      rw [hall a m b hsplit] at hm
      exact Option.noConfusion hm
  · intro h
    rw [List.range_eq_range']
    exact (h1 h).1
  · intro err herr
    obtain ⟨a, m, b, hsplit, hpre, hm, hinv⟩ := h2 err herr
    refine ⟨a, m, b, hsplit, hpre, hm, ?_⟩
    rw [List.range_eq_range']
    exact hinv

/-- C20 (amended). A composite without members: `MultiLimiter()` reports no
error; it returns a composite with an empty member list, whose `Wait` returns
nil at once without calling anything and without changing the world, and
whose `Limit()` panics. -/
theorem multiLimiter_empty {σ R : Type} [LinearOrder R] (ctx : Context) (w : σ) :
    (MultiLimiter ([] : List (RateLimiter σ R))).limiters = [] ∧
    (MultiLimiter ([] : List (RateLimiter σ R))).Wait ctx w = ((none, w), []) ∧
    (MultiLimiter ([] : List (RateLimiter σ R))).Limit = GoResult.panicked :=
  ⟨rfl, rfl, rfl⟩

/-- Counterexample to C20 as stated: the call `MultiLimiter()` returns a
composite, no error, and a caller that waits on it is let through. -/
theorem multiLimiter_empty_counterexample :
    ∃ ml : multiLimiter Unit Nat, MultiLimiter [] = ml ∧ ml.limiters = [] ∧
      (ml.Wait liveCtx ()).1.1 = none :=
  ⟨MultiLimiter [], rfl, rfl, rfl⟩

/-! ## Theorems: refill arithmetic and sustained rate of the throttle -/

section ThrottleRateLemmas

variable {σ : Type}

theorem Throttled.tick_running (c : Throttled σ) (h : c.ticker = Ticker.running) :
    c.tick.tokens = min (wrapUint (c.tokens + c.refill)) c.max ∧
    c.tick.ticker = Ticker.running ∧ c.tick.e = c.e ∧ c.tick.world = c.world ∧
    c.tick.invoked = c.invoked ∧ c.tick.max = c.max ∧ c.tick.refill = c.refill := by
  unfold Throttled.tick
  rw [h]
  refine ⟨?_, rfl, rfl, rfl, rfl, rfl, rfl⟩
  show (if wrapUint (c.tokens + c.refill) > c.max then c.max
    else wrapUint (c.tokens + c.refill)) = _
  split <;> omega

theorem Throttled.tick_idle (c : Throttled σ) (h : c.ticker = Ticker.idle) : c.tick = c := by
  unfold Throttled.tick
  rw [h]

theorem Throttled.start_ticker (c : Throttled σ) (h : c.ticker ≠ Ticker.stopped) :
    c.start.ticker = Ticker.running := by
  unfold Throttled.start
  split
  · rfl
  · rename_i h2
    cases hc : c.ticker with
    | idle => exact absurd hc (h2 · )
    | running => rfl
    | stopped => exact absurd hc h

theorem Throttled.call_live_ticker (c : Throttled σ) (ctx : Context) (h : ctx.err = none)
    (hs : c.ticker ≠ Ticker.stopped) : (c.call ctx).2.ticker = Ticker.running := by
  rw [c.call_of_live ctx h, ← c.start_ticker hs]
  unfold Throttled.locked
  split <;> rfl

theorem Throttled.serve_call (c : Throttled σ) (ctx : Context) (rest : List Event) :
    c.serve (Event.call ctx :: rest)
      = ((c.call ctx).1 :: ((c.call ctx).2.serve rest).1, ((c.call ctx).2.serve rest).2) :=
  rfl

theorem Throttled.serve_tick (c : Throttled σ) (rest : List Event) :
    c.serve (Event.tick :: rest) = c.tick.serve rest := rfl

theorem Throttled.tick_not_running (c : Throttled σ) (h : c.ticker ≠ Ticker.running) :
    c.tick = c := by
  unfold Throttled.tick
  cases hc : c.ticker with
  | idle => rfl
  | running => exact absurd hc h
  | stopped => rfl

theorem Throttled.call_live_ticker_eq (c : Throttled σ) (ctx : Context) (h : ctx.err = none) :
    (c.call ctx).2.ticker = (if c.ticker = Ticker.idle then Ticker.running else c.ticker) := by
  have hl : (c.start.locked ctx).2.ticker = c.start.ticker := by
    unfold Throttled.locked
    split <;> rfl
  rw [c.call_of_live ctx h, hl]
  unfold Throttled.start
  cases hc : c.ticker <;> simp [hc]

theorem Throttled.done_fields (c : Throttled σ) :
    c.done.ticker = (if c.ticker = Ticker.running then Ticker.stopped else c.ticker) ∧
    c.done.tokens = c.tokens ∧ c.done.e = c.e ∧ c.done.world = c.world ∧
    c.done.invoked = c.invoked ∧ c.done.max = c.max ∧ c.done.refill = c.refill := by
  unfold Throttled.done
  cases hc : c.ticker <;> simp [hc]

theorem Throttled.serve_done (c : Throttled σ) (rest : List Event) :
    c.serve (Event.done :: rest) = c.done.serve rest := rfl

/-- The invariant behind the sustained rate: the tokens and the calls already
made in the period add up to `k` at least, so each of the `k` calls of a period
finds a token, also in the period that no tick ends. -/
theorem Throttled.serve_sustained (k : Nat) (evs : List Event) :
    ∀ (c : Throttled σ) (n : Nat),
      k ≤ c.refill → k ≤ c.max → c.max + c.refill < uintMod → c.tokens ≤ c.max →
      k ≤ c.tokens + n → sustained k c.ticker n evs = true →
      (c.serve evs).1 = (runEffector c.e c.world (callContexts evs)).1 ∧
      (c.serve evs).2.world = (runEffector c.e c.world (callContexts evs)).2 ∧
      (c.serve evs).2.invoked = c.invoked + (callContexts evs).length := by
  induction evs with
  | nil =>
    intro c n _ _ _ _ _ _
    exact ⟨rfl, rfl, rfl⟩
  | cons ev rest ih =>
    intro c n hkr hkm hfit hle hbud hsus
    cases ev with
    | call ctx =>
      simp only [sustained, Bool.and_eq_true, decide_eq_true_eq] at hsus
      obtain ⟨⟨hlive, hn⟩, hrest⟩ := hsus
      have hpos : 0 < c.tokens := by omega
      obtain ⟨r1, re, rt, rw1, ri⟩ := c.call_live_pos ctx hlive hpos
      have f := c.call_facts ctx
      rw [← c.call_live_ticker_eq ctx hlive] at hrest
      obtain ⟨i1, i2, i3⟩ := ih (c.call ctx).2 (n + 1)
        (by rw [f.refill_eq]; exact hkr) (by rw [f.max_eq]; exact hkm)
        (by rw [f.max_eq, f.refill_eq]; exact hfit)
        (by rw [f.max_eq]; exact f.tokens_le hle)
        (by rw [rt]; omega) hrest
      rw [re, rw1] at i1 i2
      rw [ri] at i3
      rw [Throttled.serve_call]
      show _ = (runEffector c.e c.world (ctx :: callContexts rest)).1 ∧
        _ = (runEffector c.e c.world (ctx :: callContexts rest)).2 ∧
        _ = c.invoked + (ctx :: callContexts rest).length
      rw [runEffector_cons]
      refine ⟨by rw [i1, r1], i2, ?_⟩
      rw [i3, List.length_cons]
      omega
    | tick =>
      have hrest : sustained k c.ticker (if c.ticker = Ticker.running then 0 else n) rest
          = true := hsus
      rw [Throttled.serve_tick]
      show _ = (runEffector c.e c.world (callContexts rest)).1 ∧
        _ = (runEffector c.e c.world (callContexts rest)).2 ∧
        _ = c.invoked + (callContexts rest).length
      by_cases hc : c.ticker = Ticker.running
      · rw [if_pos hc] at hrest
        obtain ⟨t1, t2, t3, t4, t5, t6, t7⟩ := c.tick_running hc
        have hw : wrapUint (c.tokens + c.refill) = c.tokens + c.refill := by
          unfold wrapUint
          exact Nat.mod_eq_of_lt (by omega)
        rw [hw] at t1
        have hrest2 : sustained k c.tick.ticker 0 rest = true := by
          rw [t2, ← hc]
          exact hrest
        obtain ⟨i1, i2, i3⟩ := ih c.tick 0
          (by rw [t7]; exact hkr) (by rw [t6]; exact hkm)
          (by rw [t6, t7]; exact hfit)
          (by rw [t1, t6]; exact min_le_right _ _)
          (by rw [t1]; omega) hrest2
        rw [t3, t4] at i1 i2
        rw [t5] at i3
        exact ⟨i1, i2, i3⟩
      · rw [if_neg hc] at hrest
        rw [c.tick_not_running hc]
        exact ih c n hkr hkm hfit hle hbud hrest
    | done =>
      have hrest : sustained k (if c.ticker = Ticker.running then Ticker.stopped else c.ticker)
          n rest = true := hsus
      obtain ⟨d1, d2, d3, d4, d5, d6, d7⟩ := c.done_fields
      rw [← d1] at hrest
      rw [Throttled.serve_done]
      show _ = (runEffector c.e c.world (callContexts rest)).1 ∧
        _ = (runEffector c.e c.world (callContexts rest)).2 ∧
        _ = c.invoked + (callContexts rest).length
      obtain ⟨i1, i2, i3⟩ := ih c.done n
        (by rw [d7]; exact hkr) (by rw [d6]; exact hkm)
        (by rw [d6, d7]; exact hfit)
        (by rw [d2, d6]; exact hle)
        (by rw [d2]; exact hbud) hrest
      rw [d3, d4] at i1 i2
      rw [d5] at i3
      exact ⟨i1, i2, i3⟩
    | prologue ctx => exact absurd hsus (by simp [sustained])
    | locked ctx => exact absurd hsus (by simp [sustained])

/-- A trace with at most `k` calls in each period has at most `k` calls in each
of the periods that a tick closes. -/
theorem sustained_closedPeriods (k : Nat) (evs : List Event) :
    ∀ (tk : Ticker) (n m : Nat), m ≤ n → sustained k tk n evs = true →
      (n ≤ k → ∀ x ∈ closedPeriods m evs, x ≤ k) := by
  induction evs with
  | nil =>
    intro tk n m _ _ _ x hx
    exact absurd hx (List.not_mem_nil _)
  | cons ev rest ih =>
    intro tk n m hmn hsus hnk x hx
    cases ev with
    | call ctx =>
      simp only [sustained, Bool.and_eq_true, decide_eq_true_eq] at hsus
      obtain ⟨⟨_, hn⟩, hrest⟩ := hsus
      exact ih _ (n + 1) (m + 1) (by omega) hrest (by omega) x hx
    | tick =>
      have hrest : sustained k tk (if tk = Ticker.running then 0 else n) rest = true := hsus
      have hx2 : x ∈ m :: closedPeriods 0 rest := hx
      rcases List.mem_cons.mp hx2 with rfl | h
      · omega
      · exact ih tk _ 0 (Nat.zero_le _) hrest (by split <;> omega) x h
    | done =>
      have hrest : sustained k (if tk = Ticker.running then Ticker.stopped else tk) n rest
          = true := hsus
      exact ih _ n m hmn hrest hnk x hx
    | prologue ctx => exact absurd hsus (by simp [sustained])
    | locked ctx => exact absurd hsus (by simp [sustained])

end ThrottleRateLemmas

/-- C21 (amended). Refill tick of the throttle.  A tick that runs sets the
token count to `min ((t + refill) mod 2 ^ 64) max`, where `t` is the count
before: the sum is a Go `uint`.  When `t + refill` is below `2 ^ 64`, as it is
whenever `max + refill` is, this is `min (t + refill) max` with the
mathematical sum, and for `t ≤ max` the tick does not decrease the count. -/
theorem throttle_tick_arithmetic {σ : Type} (c : Throttled σ)
    (hrun : c.ticker = Ticker.running) (ht : c.tokens ≤ c.max) :
    c.tick.tokens = min ((c.tokens + c.refill) % 2 ^ 64) c.max ∧
    (c.tokens + c.refill < 2 ^ 64 →
      c.tick.tokens = min (c.tokens + c.refill) c.max ∧ c.tokens ≤ c.tick.tokens) := by
  have h := (c.tick_running hrun).1
  have e : (2 : Nat) ^ 64 = uintMod := by norm_num [uintMod]
  rw [e]
  refine ⟨h, fun hfit => ?_⟩
  have hw : wrapUint (c.tokens + c.refill) = c.tokens + c.refill := by
    unfold wrapUint
    exact Nat.mod_eq_of_lt hfit
  rw [hw] at h
  refine ⟨h, ?_⟩
  rw [h]
  omega

/-- Witness for C21: `Throttle(e, 4, 2, d)` after three calls holds one token;
the tick brings it to 3. -/
theorem throttle_tick_arithmetic_witness :
    ((Throttle callsCountFunction 4 2 500000000 0).calls
      [liveCtx, liveCtx, liveCtx]).2.tokens = 1 ∧
    ((Throttle callsCountFunction 4 2 500000000 0).calls
      [liveCtx, liveCtx, liveCtx]).2.tick.tokens = min (1 + 2) 4 :=
  ⟨by decide,
   ((throttle_tick_arithmetic
      ((Throttle callsCountFunction 4 2 500000000 0).calls [liveCtx, liveCtx, liveCtx]).2
      (by decide) (by decide)).2
      (by rw [show (2 : Nat) ^ 64 = 18446744073709551616 by norm_num]; decide)).1⟩

/-- Counterexample to C21 as stated: `Throttle(e, 10, 2 ^ 64 - 1, d)` holds 9
tokens after one call.  The sum `9 + (2 ^ 64 - 1)` of the tick wraps to 8,
which is not above `max`, so the tick leaves 8 tokens: not
`min (9 + (2 ^ 64 - 1)) 10 = 10`, and one less than before. -/
theorem throttle_tick_arithmetic_counterexample :
    (18446744073709551615 : Nat) = 2 ^ 64 - 1 ∧
    ((Throttle callsCountFunction 10 18446744073709551615 1 0).call liveCtx).2.ticker
      = Ticker.running ∧
    ((Throttle callsCountFunction 10 18446744073709551615 1 0).call liveCtx).2.tokens = 9 ∧
    ((Throttle callsCountFunction 10 18446744073709551615 1 0).call liveCtx).2.max = 10 ∧
    ((Throttle callsCountFunction 10 18446744073709551615 1 0).call liveCtx).2.tick.tokens
      = 8 ∧
    min (9 + 18446744073709551615) 10 = 10 :=
  ⟨by norm_num, by decide, by decide, by decide, by decide, by decide⟩

/-- C22 (amended). Sustained rate of the throttle.  Let `k ≤ refill`, `k ≤ max`
and `max + refill < 2 ^ 64`.  On a fresh `Throttle(e, max, refill, d)`, in a
trace of calls with live contexts, refill ticks and the end of the refill
goroutine, with at most `k` calls before the first tick, between two
consecutive ticks and after the last tick that the goroutine runs, no call is
refused: every call has the reply of the effector, and the effector has run
once for each call. -/
theorem throttle_sustained_rate {σ : Type} (e : Effector σ) (max refill k : Nat) (d : ℕ+)
    (w : σ) (evs : List Event) (hkr : k ≤ refill) (hkm : k ≤ max)
    (hfit : max + refill < 2 ^ 64) (hsus : sustained k Ticker.idle 0 evs = true) :
    ((Throttle e max refill d w).serve evs).1 = (runEffector e w (callContexts evs)).1 ∧
    ((Throttle e max refill d w).serve evs).2.world
      = (runEffector e w (callContexts evs)).2 ∧
    ((Throttle e max refill d w).serve evs).2.invoked = (callContexts evs).length := by
  have e1 : (2 : Nat) ^ 64 = uintMod := by norm_num [uintMod]
  rw [e1] at hfit
  obtain ⟨h1, h2, h3⟩ := Throttled.serve_sustained k evs (Throttle e max refill d w) 0
    hkr hkm hfit (le_refl _) (by show k ≤ max + 0; omega) hsus
  refine ⟨h1, h2, ?_⟩
  rw [h3]
  show 0 + _ = _
  omega

/-- Witness for C22: the trace of `TestThrottleVariableRefill`,
`Throttle(e, 4, 2, 500ms)` called twice in each tick period, and two more calls
after the goroutine has ended: all 10 calls are let through. -/
theorem throttle_sustained_rate_witness :
    sustained 2 Ticker.idle 0 [Event.call liveCtx, Event.call liveCtx, Event.tick,
      Event.call liveCtx, Event.call liveCtx, Event.tick,
      Event.call liveCtx, Event.call liveCtx, Event.tick,
      Event.call liveCtx, Event.call liveCtx, Event.tick, Event.done,
      Event.call liveCtx, Event.call liveCtx] = true ∧
    ((Throttle callsCountFunction 4 2 500000000 0).serve
      [Event.call liveCtx, Event.call liveCtx, Event.tick,
       Event.call liveCtx, Event.call liveCtx, Event.tick,
       Event.call liveCtx, Event.call liveCtx, Event.tick,
       Event.call liveCtx, Event.call liveCtx, Event.tick, Event.done,
       Event.call liveCtx, Event.call liveCtx]).2.invoked = 10 :=
  ⟨by decide,
   (throttle_sustained_rate callsCountFunction 4 2 2 500000000 0
      [Event.call liveCtx, Event.call liveCtx, Event.tick,
       Event.call liveCtx, Event.call liveCtx, Event.tick,
       Event.call liveCtx, Event.call liveCtx, Event.tick,
       Event.call liveCtx, Event.call liveCtx, Event.tick, Event.done,
       Event.call liveCtx, Event.call liveCtx]
      (by decide) (by decide) (by norm_num) (by decide)).2.2.trans (by decide)⟩

/-- Counterexample to C22 as stated: `Throttle(e, 4, 2, 500ms)` and `k = 2`.
Two calls, a tick, then the context of the first caller is cancelled and the
refill goroutine returns; five more calls with live contexts follow.  Two calls
come before the first tick and there is no second tick, so the trace has at
most `k` calls before the first tick and between any two consecutive ticks;
the seventh call is refused with "too many calls", and the effector has run six
times for seven calls. -/
theorem throttle_sustained_rate_counterexample :
    (2 : Nat) ≤ 2 ∧ (2 : Nat) ≤ 4 ∧ (4 : Nat) + 2 < 2 ^ 64 ∧
    (∀ ctx ∈ callContexts [Event.call liveCtx, Event.call liveCtx, Event.tick, Event.done,
        Event.call liveCtx, Event.call liveCtx, Event.call liveCtx, Event.call liveCtx,
        Event.call liveCtx], ctx.err = none) ∧
    closedPeriods 0 [Event.call liveCtx, Event.call liveCtx, Event.tick, Event.done,
        Event.call liveCtx, Event.call liveCtx, Event.call liveCtx, Event.call liveCtx,
        Event.call liveCtx] = [2] ∧
    ((Throttle callsCountFunction 4 2 500000000 0).serve
      [Event.call liveCtx, Event.call liveCtx, Event.tick, Event.done,
        Event.call liveCtx, Event.call liveCtx, Event.call liveCtx, Event.call liveCtx,
        Event.call liveCtx]).1
      = [("call 1", none), ("call 2", none), ("call 3", none), ("call 4", none),
         ("call 5", none), ("call 6", none), ("", some (GoError.errorf "too many calls"))] ∧
    ((Throttle callsCountFunction 4 2 500000000 0).serve
      [Event.call liveCtx, Event.call liveCtx, Event.tick, Event.done,
        Event.call liveCtx, Event.call liveCtx, Event.call liveCtx, Event.call liveCtx,
        Event.call liveCtx]).2.invoked = 6 ∧
    (callContexts [Event.call liveCtx, Event.call liveCtx, Event.tick, Event.done,
        Event.call liveCtx, Event.call liveCtx, Event.call liveCtx, Event.call liveCtx,
        Event.call liveCtx]).length = 7 :=
  ⟨by decide, by decide, by norm_num, by decide, by decide, by decide, by decide, by decide⟩

/-! ## Theorems: burst bound of the fixed window -/

section AdmittedLemmas

theorem admitted_nil (rs : List Bool) : admitted [] rs = [] := by
  simp [admitted]

theorem admitted_cons (t : Int) (ts : List Int) (r : Bool) (rs : List Bool) :
    admitted (t :: ts) (r :: rs) = if r = true then t :: admitted ts rs else admitted ts rs := by
  unfold admitted
  rw [List.zip_cons_cons, List.filter_cons]
  split <;> simp_all

theorem admitted_mem (ts : List Int) : ∀ (rs : List Bool) (x : Int),
    x ∈ admitted ts rs → x ∈ ts := by
  induction ts with
  | nil =>
    intro rs x h
    rw [admitted_nil] at h
    exact h
  | cons t ts ih =>
    intro rs x h
    cases rs with
    | nil => simp [admitted] at h
    | cons r rs =>
      rw [admitted_cons] at h
      split at h
      · rcases List.mem_cons.mp h with h1 | h1
        · rw [h1]; exact List.mem_cons_self _ _
        · exact List.mem_cons_of_mem _ (ih rs x h1)
      · exact List.mem_cons_of_mem _ (ih rs x h)

/-- No admitted call lies in an interval that ends before every call. -/
theorem admitted_filter_nil (p : Int → Bool) (ts : List Int) (rs : List Bool)
    (h : ∀ t ∈ ts, p t = false) : (admitted ts rs).filter p = [] := by
  rw [List.filter_eq_nil_iff]
  intro x hx
  rw [h x (admitted_mem ts rs x hx)]
  exact Bool.false_ne_true

end AdmittedLemmas

section FixedBurstLemmas

namespace FixedWindowLimiter

/-- The three bounds behind the burst bound, for the calls still to come:
an interval that ends inside the current window holds at most
`limit - counter` admitted calls, one that starts inside it at most
`limit - counter + limit`, any interval at most `2 * limit`. -/
theorem burst_bounds (a b : Int) (ts : List Int) :
    ∀ l : FixedWindowLimiter,
      0 ≤ l.window → 0 ≤ l.counter → l.counter ≤ l.limit → l.limit ≤ intMax →
      ts.Pairwise (fun x y => x ≤ y) → b - a ≤ l.window →
      (b ≤ l.lastTime + l.window →
        (((admitted ts (l.tryAcquireAll ts).1).filter
          (fun t => decide (a ≤ t ∧ t ≤ b))).length : Int) ≤ l.limit - l.counter) ∧
      (a ≤ l.lastTime + l.window →
        (((admitted ts (l.tryAcquireAll ts).1).filter
          (fun t => decide (a ≤ t ∧ t ≤ b))).length : Int) ≤ l.limit - l.counter + l.limit) ∧
      (((admitted ts (l.tryAcquireAll ts).1).filter
          (fun t => decide (a ≤ t ∧ t ≤ b))).length : Int) ≤ 2 * l.limit := by
  induction ts with
  | nil =>
    intro l _ hc hcl _ _ _
    simp only [admitted_nil, List.filter_nil, List.length_nil, Nat.cast_zero]
    refine ⟨fun _ => ?_, fun _ => ?_, ?_⟩ <;> omega
  | cons t ts ih =>
    intro l hW hc hcl hmax hsorted hab
    obtain ⟨hhead, htail⟩ := List.pairwise_cons.mp hsorted
    rw [fixed_tryAcquireAll_cons, admitted_cons]
    by_cases hroll : l.window < t - l.lastTime
    · -- the call opens a new window
      obtain ⟨r1, r2, r3, r4, r5⟩ := l.tryAcquire_cases t 0 (by rw [if_pos hroll])
      rw [if_pos hroll] at r1
      by_cases hlim : 0 < l.limit
      · obtain ⟨r6, r7⟩ := r4 hlim
        have hw1 : wrapInt (0 + 1) = 1 := by decide
        rw [hw1] at r7
        obtain ⟨i1, i2, i3⟩ := ih (l.TryAcquire t).2 (by rw [r3]; exact hW)
          (by rw [r7]; omega) (by rw [r7, r2]; omega) (by rw [r2]; exact hmax) htail
          (by rw [r3]; exact hab)
        rw [r1, r2, r3, r7] at i1 i2
        rw [r2] at i3
        rw [r6, if_pos rfl, List.filter_cons]
        refine ⟨fun hb => ?_, fun ha => ?_, ?_⟩
        · have hz : (admitted ts ((l.TryAcquire t).2.tryAcquireAll ts).1).filter
              (fun t => decide (a ≤ t ∧ t ≤ b)) = [] :=
            admitted_filter_nil _ ts _ (fun x hx => by
              have := hhead x hx
              simp only [decide_eq_false_iff_not, not_and, not_le]
              intro _; omega)
          rw [hz, if_neg (by simp only [decide_eq_true_eq, not_and, not_le]; intro _; omega)]
          simp only [List.length_nil, Nat.cast_zero]
          omega
        · have h1 := i1 (by omega)
          split
          · rw [List.length_cons]; push_cast; omega
          · omega
        · split
          · rename_i hin
            simp only [decide_eq_true_eq] at hin
            have h2 := i2 (by omega)
            rw [List.length_cons]; push_cast; omega
          · omega
      · have hl0 : l.limit = 0 := by omega
        obtain ⟨r6, r7⟩ := r5 (by omega)
        obtain ⟨i1, i2, i3⟩ := ih (l.TryAcquire t).2 (by rw [r3]; exact hW)
          (by rw [r7]) (by rw [r7, r2]; omega) (by rw [r2]; exact hmax) htail
          (by rw [r3]; exact hab)
        rw [r2] at i3
        rw [r6, if_neg (by decide)]
        refine ⟨fun _ => ?_, fun _ => ?_, ?_⟩ <;> omega
    · -- the call falls into the current window
      obtain ⟨r1, r2, r3, r4, r5⟩ := l.tryAcquire_cases t l.counter (by rw [if_neg hroll])
      rw [if_neg hroll] at r1
      by_cases hlim : l.counter < l.limit
      · obtain ⟨r6, r7⟩ := r4 hlim
        have hw1 : wrapInt (l.counter + 1) = l.counter + 1 := by
          apply wrapInt_of_isInt
          unfold IsInt intMin
          unfold intMax at hmax ⊢
          omega
        rw [hw1] at r7
        obtain ⟨i1, i2, i3⟩ := ih (l.TryAcquire t).2 (by rw [r3]; exact hW)
          (by rw [r7]; omega) (by rw [r7, r2]; omega) (by rw [r2]; exact hmax) htail
          (by rw [r3]; exact hab)
        rw [r1, r2, r3, r7] at i1 i2
        rw [r2] at i3
        rw [r6, if_pos rfl, List.filter_cons]
        refine ⟨fun hb => ?_, fun ha => ?_, ?_⟩
        · have h1 := i1 hb
          split
          · rw [List.length_cons]; push_cast; omega
          · omega
        · have h2 := i2 ha
          split
          · rw [List.length_cons]; push_cast; omega
          · omega
        · split
          · rename_i hin
            simp only [decide_eq_true_eq] at hin
            have h2 := i2 (by omega)
            rw [List.length_cons]; push_cast; omega
          · omega
      · obtain ⟨r6, r7⟩ := r5 (by omega)
        obtain ⟨i1, i2, i3⟩ := ih (l.TryAcquire t).2 (by rw [r3]; exact hW)
          (by rw [r7]; exact hc) (by rw [r7, r2]; exact hcl) (by rw [r2]; exact hmax) htail
          (by rw [r3]; exact hab)
        rw [r1, r2, r3, r7] at i1 i2
        rw [r2] at i3
        rw [r6, if_neg (by decide)]
        exact ⟨i1, i2, i3⟩

end FixedWindowLimiter

end FixedBurstLemmas

/-- C23. Burst bound of the fixed window: for every limit `L ≥ 0` (a Go
`int`), window `W ≥ 0` and calls at non-decreasing clock readings, at most
`2 * L` admitted calls have their reading in an interval `[a, b]` of length at
most `W`. -/
theorem fixed_burst_upper_bound (L W T0 : Int) (ts : List Int) (a b : Int)
    (hL : 0 ≤ L) (hmax : L ≤ intMax) (hW : 0 ≤ W)
    (hsorted : ts.Pairwise (fun x y => x ≤ y)) (hab : b - a ≤ W) :
    (((admitted ts ((NewFixedWindowLimiter L W T0).tryAcquireAll ts).1).filter
      (fun t => decide (a ≤ t ∧ t ≤ b))).length : Int) ≤ 2 * L :=
  (FixedWindowLimiter.burst_bounds a b ts (NewFixedWindowLimiter L W T0) hW (le_refl _) hL hmax
    hsorted hab).2.2

/-- Witness for C23: limit 2, window 10, construction at 0; of the calls at
10, 10, 10, 11, 11, 11 the first two and the fourth and fifth are admitted,
all four within the interval `[10, 11]`. -/
theorem fixed_burst_upper_bound_witness :
    admitted [10, 10, 10, 11, 11, 11]
      ((NewFixedWindowLimiter 2 10 0).tryAcquireAll [10, 10, 10, 11, 11, 11]).1
      = [10, 10, 11, 11] ∧
    (((admitted [10, 10, 10, 11, 11, 11]
      ((NewFixedWindowLimiter 2 10 0).tryAcquireAll [10, 10, 10, 11, 11, 11]).1).filter
      (fun t => decide (10 ≤ t ∧ t ≤ 11))).length : Int) ≤ 2 * 2 :=
  ⟨by decide,
   fixed_burst_upper_bound 2 10 0 [10, 10, 10, 11, 11, 11] 10 11 (by decide) (by decide)
     (by decide) (by decide) (by decide)⟩

/-! ## Theorems: level and rate of the leaky bucket -/

section LeakyRateLemmas

theorem wrapInt_range (x : Int) : intMin ≤ wrapInt x ∧ wrapInt x ≤ intMax := by
  unfold wrapInt intMin intMax
  omega

namespace LeakyBucketLimiter

/-- The drain when the product of the source stays within `int`: the level
falls, but not below 0. -/
theorem drain_fit (l : LeakyBucketLimiter) (now T : Int)
    (hV : 0 ≤ l.currentVelocity) (h0 : 0 ≤ l.currentLevel) (hmax : l.currentLevel ≤ intMax)
    (hnow : now ≤ T) (hfit : l.currentVelocity * ((T - l.lastTime) / second) ≤ intMax)
    (h : second ≤ now - l.lastTime) :
    (l.drain now).currentLevel
      = max 0 (l.currentLevel - (now - l.lastTime) / second * l.currentVelocity) ∧
    0 ≤ (now - l.lastTime) / second * l.currentVelocity ∧
    (0 < l.currentVelocity → 0 < (now - l.lastTime) / second * l.currentVelocity) := by
  have hs := second_pos
  have hk1 : 1 ≤ (now - l.lastTime) / second := by
    have := Int.ediv_le_ediv hs h
    rw [Int.ediv_self (by omega)] at this
    exact this
  have hk2 : (now - l.lastTime) / second ≤ (T - l.lastTime) / second :=
    Int.ediv_le_ediv hs (by omega)
  have hp0 : 0 ≤ (now - l.lastTime) / second * l.currentVelocity :=
    mul_nonneg (by omega) hV
  have hp1 : (now - l.lastTime) / second * l.currentVelocity ≤ intMax := by
    rw [mul_comm]
    exact le_trans (mul_le_mul_of_nonneg_left hk2 hV) hfit
  refine ⟨?_, hp0, fun hpos => mul_pos (by omega) hpos⟩
  apply l.drain_level_of_fit now h
  · unfold IsInt intMin
    unfold intMax at hp1 ⊢
    omega
  · unfold IsInt intMin
    unfold intMax at hp1 hmax ⊢
    omega

/-- One call keeps the level between 0 and the peak as long as the product of
the drain stays within `int`; `lastTime` moves forward, not past the call. -/
theorem tryAcquire_level (l : LeakyBucketLimiter) (now T : Int)
    (hP : l.peakLevel ≤ intMax) (hV : 0 ≤ l.currentVelocity)
    (h0 : 0 ≤ l.currentLevel) (hle : l.currentLevel ≤ l.peakLevel)
    (hlast : l.lastTime ≤ now) (hnow : now ≤ T)
    (hfit : l.currentVelocity * ((T - l.lastTime) / second) ≤ intMax) :
    0 ≤ (l.TryAcquire now).2.currentLevel ∧
    (l.TryAcquire now).2.currentLevel ≤ l.peakLevel ∧
    (l.TryAcquire now).2.peakLevel = l.peakLevel ∧
    (l.TryAcquire now).2.currentVelocity = l.currentVelocity ∧
    l.lastTime ≤ (l.TryAcquire now).2.lastTime ∧ (l.TryAcquire now).2.lastTime ≤ now := by
  have hd : 0 ≤ (l.drain now).currentLevel ∧ (l.drain now).currentLevel ≤ l.peakLevel := by
    by_cases h : second ≤ now - l.lastTime
    · obtain ⟨d1, d2, _⟩ := l.drain_fit now T hV h0 (le_trans hle hP) hnow hfit h
      rw [d1]
      omega
    · rw [l.drain_of_lt now (not_le.mp h)]
      exact ⟨h0, hle⟩
  have ht : l.lastTime ≤ (l.drain now).lastTime ∧ (l.drain now).lastTime ≤ now := by
    rw [drain_lastTime]
    split <;> omega
  by_cases hlt : (l.drain now).currentLevel < l.peakLevel
  · obtain ⟨_, r2, r3, r4, r5⟩ := l.tryAcquire_of_lt now hlt
    have hw : wrapInt ((l.drain now).currentLevel + 1) = (l.drain now).currentLevel + 1 := by
      apply wrapInt_of_isInt
      unfold IsInt intMin
      unfold intMax at hP ⊢
      omega
    rw [r2, r3, hw]
    exact ⟨by omega, by omega, r4, r5, ht.1, ht.2⟩
  · rw [l.tryAcquire_of_ge now (not_lt.mp hlt)]
    exact ⟨hd.1, hd.2, l.drain_peakLevel now, l.drain_currentVelocity now, ht.1, ht.2⟩

/-- The level invariant along a sequence of calls. -/
theorem tryAcquireAll_level (T : Int) (ts : List Int) :
    ∀ l : LeakyBucketLimiter,
      l.peakLevel ≤ intMax → 0 ≤ l.currentVelocity →
      0 ≤ l.currentLevel → l.currentLevel ≤ l.peakLevel → l.lastTime ≤ T →
      ts.Pairwise (fun x y => x ≤ y) → (∀ t ∈ ts, l.lastTime ≤ t ∧ t ≤ T) →
      l.currentVelocity * ((T - l.lastTime) / second) ≤ intMax →
      0 ≤ (l.tryAcquireAll ts).2.currentLevel ∧
      (l.tryAcquireAll ts).2.currentLevel ≤ l.peakLevel ∧
      (l.tryAcquireAll ts).2.peakLevel = l.peakLevel ∧
      (l.tryAcquireAll ts).2.currentVelocity = l.currentVelocity ∧
      l.lastTime ≤ (l.tryAcquireAll ts).2.lastTime ∧
      (l.tryAcquireAll ts).2.lastTime ≤ T := by
  induction ts with
  | nil =>
    intro l _ _ h0 hle hT _ _ _
    exact ⟨h0, hle, rfl, rfl, le_refl _, hT⟩
  | cons t ts ih =>
    intro l hP hV h0 hle hT hsorted hrange hfit
    obtain ⟨hhead, htail⟩ := List.pairwise_cons.mp hsorted
    obtain ⟨hlt, htT⟩ := hrange t (List.mem_cons_self _ _)
    obtain ⟨s1, s2, s3, s4, s5, s6⟩ := l.tryAcquire_level t T hP hV h0 hle hlt htT hfit
    have hs := second_pos
    have hfit2 : (l.TryAcquire t).2.currentVelocity
        * ((T - (l.TryAcquire t).2.lastTime) / second) ≤ intMax := by
      rw [s4]
      have hk : (T - (l.TryAcquire t).2.lastTime) / second ≤ (T - l.lastTime) / second :=
        Int.ediv_le_ediv hs (by omega)
      exact le_trans (mul_le_mul_of_nonneg_left hk hV) hfit
    obtain ⟨i1, i2, i3, i4, i5, i6⟩ := ih (l.TryAcquire t).2 (by rw [s3]; exact hP)
      (by rw [s4]; exact hV) s1 (by rw [s3]; exact s2) (le_trans s6 htT) htail
      (fun x hx => ⟨le_trans s6 (hhead x hx), (hrange x (List.mem_cons_of_mem _ hx)).2⟩) hfit2
    rw [s3] at i2 i3
    rw [s4] at i4
    rw [leaky_tryAcquireAll_cons]
    exact ⟨i1, i2, i3, i4, le_trans s5 i5, i6⟩

/-- The drain in general, also when the product of the source wraps around:
the level stays a non-negative `int`, and the level capped at the peak falls
by at most velocity times the whole seconds by which `lastTime` moves. -/
theorem drain_clamped (l : LeakyBucketLimiter) (now : Int)
    (hP0 : 0 ≤ l.peakLevel) (hV : 0 ≤ l.currentVelocity)
    (h0 : 0 ≤ l.currentLevel) (hmax : l.currentLevel ≤ intMax) (hlast : l.lastTime ≤ now) :
    0 ≤ (l.drain now).currentLevel ∧ (l.drain now).currentLevel ≤ intMax ∧
    l.lastTime ≤ (l.drain now).lastTime ∧ (l.drain now).lastTime ≤ now ∧
    min l.currentLevel l.peakLevel
      ≤ min (l.drain now).currentLevel l.peakLevel
        + l.currentVelocity * (((l.drain now).lastTime - l.lastTime) / second) := by
  have hs := second_pos
  by_cases h : second ≤ now - l.lastTime
  · obtain ⟨d1, d2⟩ := l.drain_of_ge now h
    rw [d1, d2, maxInt_eq_max, Int.tdiv_eq_ediv (by omega) (by omega)]
    have hk1 : 1 ≤ (now - l.lastTime) / second := by
      have := Int.ediv_le_ediv hs h
      rw [Int.ediv_self (by omega)] at this
      exact this
    have hp0 : 0 ≤ (now - l.lastTime) / second * l.currentVelocity :=
      mul_nonneg (by omega) hV
    rw [mul_comm l.currentVelocity]
    generalize (now - l.lastTime) / second * l.currentVelocity = p at hp0 ⊢
    have hr := wrapInt_range (l.currentLevel - wrapInt p)
    refine ⟨le_max_left _ _, max_le (by unfold intMax; omega) hr.2, hlast, le_refl _, ?_⟩
    by_cases hp : p ≤ intMax
    · have hw1 : wrapInt p = p := by
        apply wrapInt_of_isInt
        unfold IsInt intMin
        unfold intMax at hp ⊢
        omega
      have hw2 : wrapInt (l.currentLevel - p) = l.currentLevel - p := by
        apply wrapInt_of_isInt
        unfold IsInt intMin
        unfold intMax at hp hmax ⊢
        omega
      rw [hw1, hw2]
      omega
    · have : 0 ≤ max 0 (wrapInt (l.currentLevel - wrapInt p)) := le_max_left _ _
      omega
  · rw [l.drain_of_lt now (not_le.mp h)]
    simp only [sub_self, Int.zero_ediv, mul_zero, add_zero]
    exact ⟨h0, hmax, le_refl _, hlast, le_refl _⟩

/-- The rate bound for the calls still to come: the admitted calls up to `T`
number at most the room left below the peak plus velocity times the whole
seconds from `lastTime` to `T`. -/
theorem admitted_bound (T : Int) (ts : List Int) :
    ∀ l : LeakyBucketLimiter,
      0 ≤ l.peakLevel → l.peakLevel ≤ intMax → 0 ≤ l.currentVelocity →
      0 ≤ l.currentLevel → l.currentLevel ≤ intMax → l.lastTime ≤ T →
      ts.Pairwise (fun x y => x ≤ y) → (∀ t ∈ ts, l.lastTime ≤ t) →
      (((admitted ts (l.tryAcquireAll ts).1).filter (fun t => decide (t ≤ T))).length : Int)
        ≤ l.peakLevel - min l.currentLevel l.peakLevel
          + l.currentVelocity * ((T - l.lastTime) / second) := by
  induction ts with
  | nil =>
    intro l hP0 _ hV _ _ hT _ _
    have hs := second_pos
    have : 0 ≤ l.currentVelocity * ((T - l.lastTime) / second) :=
      mul_nonneg hV (Int.ediv_nonneg (by omega) (by omega))
    simp only [admitted_nil, List.filter_nil, List.length_nil, Nat.cast_zero]
    omega
  | cons t ts ih =>
    intro l hP0 hP hV h0 hmax hT hsorted hge
    have hs := second_pos
    obtain ⟨hhead, htail⟩ := List.pairwise_cons.mp hsorted
    have hbound0 : 0 ≤ l.currentVelocity * ((T - l.lastTime) / second) :=
      mul_nonneg hV (Int.ediv_nonneg (by omega) (by omega))
    by_cases htT : t ≤ T
    · obtain ⟨d1, d2, d3, d4, d5⟩ := l.drain_clamped t hP0 hV h0 hmax
        (hge t (List.mem_cons_self _ _))
      have hk : ((l.drain t).lastTime - l.lastTime) / second + (T - (l.drain t).lastTime) / second
          ≤ (T - l.lastTime) / second := by
        unfold second
        omega
      have hmul := mul_le_mul_of_nonneg_left hk hV
      rw [mul_add] at hmul
      rw [leaky_tryAcquireAll_cons, admitted_cons]
      by_cases hlt : (l.drain t).currentLevel < l.peakLevel
      · obtain ⟨r1, r2, r3, r4, r5⟩ := l.tryAcquire_of_lt t hlt
        have hw : wrapInt ((l.drain t).currentLevel + 1) = (l.drain t).currentLevel + 1 := by
          apply wrapInt_of_isInt
          unfold IsInt intMin
          unfold intMax at hP ⊢
          omega
        rw [hw] at r2
        have i := ih (l.TryAcquire t).2 (by rw [r4]; exact hP0) (by rw [r4]; exact hP)
          (by rw [r5]; exact hV) (by rw [r2]; omega) (by rw [r2]; omega)
          (by rw [r3]; omega) htail (fun x hx => by rw [r3]; exact le_trans d4 (hhead x hx))
        rw [r2, r3, r4, r5] at i
        rw [r1, if_pos rfl, List.filter_cons, if_pos (by simpa using htT), List.length_cons]
        push_cast
        omega
      · have hr := l.tryAcquire_of_ge t (not_lt.mp hlt)
        have hr1 : (l.TryAcquire t).1 = false := by rw [hr]
        have hr2 : (l.TryAcquire t).2 = l.drain t := by rw [hr]
        have i := ih (l.drain t) (by rw [drain_peakLevel]; exact hP0)
          (by rw [drain_peakLevel]; exact hP) (by rw [drain_currentVelocity]; exact hV)
          d1 d2 (by omega) htail (fun x hx => le_trans d4 (hhead x hx))
        rw [drain_peakLevel, drain_currentVelocity] at i
        rw [hr1, hr2, if_neg (by decide)]
        omega
    · have hz : (admitted (t :: ts) (l.tryAcquireAll (t :: ts)).1).filter
          (fun t => decide (t ≤ T)) = [] :=
        admitted_filter_nil _ _ _ (fun x hx => by
          have hx2 : t ≤ x := by
            rcases List.mem_cons.mp hx with h1 | h1
            · rw [h1]
            · exact hhead x h1
          simp only [decide_eq_false_iff_not, not_le]
          omega)
      rw [hz]
      simp only [List.length_nil, Nat.cast_zero]
      omega

end LeakyBucketLimiter

end LeakyRateLemmas

/-- C24 (amended). Refusal of the leaky bucket changes nothing, as long as the
drain does not overflow: for peak `P > 0` and velocity `V > 0` with
`V * floor((now - T0) / 1s)` representable as a Go `int`, in the state reached
from construction at `T0` by calls at non-decreasing clock readings `ts`, a
`TryAcquire` at `now` that returns false leaves the limiter, level and
`lastTime` included, exactly as it was. -/
theorem leaky_refusal_unchanged (P V T0 now : Int) (ts : List Int)
    (hP : 0 < P) (hPmax : P ≤ intMax) (hV : 0 < V)
    (hsorted : (ts ++ [now]).Pairwise (fun x y => x ≤ y))
    (hT0 : ∀ t ∈ ts ++ [now], T0 ≤ t)
    (hfit : V * ((now - T0) / second) ≤ intMax)
    (hrefused : (((NewLeakyBucketLimiter P V T0).tryAcquireAll ts).2.TryAcquire now).1 = false) :
    (((NewLeakyBucketLimiter P V T0).tryAcquireAll ts).2.TryAcquire now).2
      = ((NewLeakyBucketLimiter P V T0).tryAcquireAll ts).2 := by
  have hs := second_pos
  obtain ⟨hs1, _, hs2⟩ := List.pairwise_append.mp hsorted
  have hnow0 : T0 ≤ now := hT0 now (by simp)
  obtain ⟨i1, i2, i3, i4, i5, i6⟩ := LeakyBucketLimiter.tryAcquireAll_level now ts
    (NewLeakyBucketLimiter P V T0) hPmax (le_of_lt hV) (le_refl _) (le_of_lt hP) hnow0 hs1
    (fun t ht => ⟨hT0 t (by simp [ht]), hs2 t ht now (by simp)⟩) hfit
  generalize ((NewLeakyBucketLimiter P V T0).tryAcquireAll ts).2 = l at *
  have i2b : l.currentLevel ≤ P := i2
  have i3b : l.peakLevel = P := i3
  have i4b : l.currentVelocity = V := i4
  have i5b : T0 ≤ l.lastTime := i5
  have hge : l.peakLevel ≤ (l.drain now).currentLevel := by
    by_contra hcon
    rw [(l.tryAcquire_fst now).mpr (not_le.mp hcon)] at hrefused
    exact Bool.noConfusion hrefused
  have hnodrain : now - l.lastTime < second := by
    by_contra hcon
    have hfit2 : l.currentVelocity * ((now - l.lastTime) / second) ≤ intMax := by
      rw [i4b]
      have hk : (now - l.lastTime) / second ≤ (now - T0) / second :=
        Int.ediv_le_ediv hs (by omega)
      exact le_trans (mul_le_mul_of_nonneg_left hk (le_of_lt hV)) hfit
    obtain ⟨d1, _, d3⟩ := l.drain_fit now now (by rw [i4b]; exact le_of_lt hV) i1
      (le_trans i2b hPmax) (le_refl _) hfit2 (not_lt.mp hcon)
    have := d3 (by rw [i4b]; exact hV)
    rw [d1, i3b] at hge
    omega
  rw [l.tryAcquire_of_ge now hge, l.drain_of_lt now hnodrain]

/-- Witness for C24: peak 2, velocity 1, construction at 0; after two admitted
calls at 0 the call at half a second is refused and changes nothing. -/
theorem leaky_refusal_unchanged_witness :
    (((NewLeakyBucketLimiter 2 1 0).tryAcquireAll [0, 0]).2.TryAcquire 500000000).1 = false ∧
    (((NewLeakyBucketLimiter 2 1 0).tryAcquireAll [0, 0]).2.TryAcquire 500000000).2
      = ((NewLeakyBucketLimiter 2 1 0).tryAcquireAll [0, 0]).2 :=
  ⟨by decide,
   leaky_refusal_unchanged 2 1 0 500000000 [0, 0] (by decide) (by decide) (by decide)
     (by decide) (by decide) (by decide) (by decide)⟩

/-- Counterexample to C24 as stated: peak 5, velocity `2 ^ 62`, construction at
0 and one call three seconds later.  The product `3 * 2 ^ 62` wraps to
`-2 ^ 62`, the drain sets the level to `0 - (-2 ^ 62) = 2 ^ 62` and `lastTime`
to the time of the call, and the call is refused: a refusal that changed both
the level and `lastTime`. -/
theorem leaky_refusal_unchanged_counterexample :
    (4611686018427387904 : Int) = 2 ^ 62 ∧
    (NewLeakyBucketLimiter 5 4611686018427387904 0).currentLevel = 0 ∧
    (NewLeakyBucketLimiter 5 4611686018427387904 0).lastTime = 0 ∧
    ((NewLeakyBucketLimiter 5 4611686018427387904 0).TryAcquire 3000000000).1 = false ∧
    ((NewLeakyBucketLimiter 5 4611686018427387904 0).TryAcquire 3000000000).2.currentLevel
      = 4611686018427387904 ∧
    ((NewLeakyBucketLimiter 5 4611686018427387904 0).TryAcquire 3000000000).2.lastTime
      = 3000000000 :=
  ⟨by norm_num, by decide, by decide, by decide, by decide, by decide⟩

/-- C25 (amended). Level invariant of the leaky bucket, as long as the drain
does not overflow: for peak `P ≥ 0` and velocity `V ≥ 0` with
`V * floor((T - T0) / 1s)` representable as a Go `int`, after any calls at
non-decreasing clock readings between the construction time `T0` and `T` the
level is at least 0 and at most `P`. -/
theorem leaky_level_invariant (P V T0 T : Int) (ts : List Int)
    (hP : 0 ≤ P) (hPmax : P ≤ intMax) (hV : 0 ≤ V)
    (hsorted : ts.Pairwise (fun x y => x ≤ y)) (hrange : ∀ t ∈ ts, T0 ≤ t ∧ t ≤ T)
    (hT : T0 ≤ T) (hfit : V * ((T - T0) / second) ≤ intMax) :
    0 ≤ ((NewLeakyBucketLimiter P V T0).tryAcquireAll ts).2.currentLevel ∧
    ((NewLeakyBucketLimiter P V T0).tryAcquireAll ts).2.currentLevel ≤ P := by
  obtain ⟨i1, i2, _⟩ := LeakyBucketLimiter.tryAcquireAll_level T ts
    (NewLeakyBucketLimiter P V T0) hPmax hV (le_refl _) hP hT hsorted hrange hfit
  exact ⟨i1, i2⟩

/-- Witness for C25: peak 2, velocity 1, construction at 0; after three calls
at 0 and one at two seconds the level is 1. -/
theorem leaky_level_invariant_witness :
    ((NewLeakyBucketLimiter 2 1 0).tryAcquireAll [0, 0, 0, 2000000000]).2.currentLevel = 1 ∧
    0 ≤ ((NewLeakyBucketLimiter 2 1 0).tryAcquireAll [0, 0, 0, 2000000000]).2.currentLevel ∧
    ((NewLeakyBucketLimiter 2 1 0).tryAcquireAll [0, 0, 0, 2000000000]).2.currentLevel ≤ 2 :=
  ⟨by decide,
   leaky_level_invariant 2 1 0 2000000000 [0, 0, 0, 2000000000] (by decide) (by decide)
     (by decide) (by decide) (by decide) (by decide) (by decide)⟩

/-- Counterexample to C25 as stated: peak 5, velocity `2 ^ 62`, construction at
0, one call at 0 and one three seconds later.  The first call brings the level
to 1; at the second the product `3 * 2 ^ 62` wraps to `-2 ^ 62` and the drain
sets the level to `1 + 2 ^ 62`, far above the peak. -/
theorem leaky_level_invariant_counterexample :
    (4611686018427387904 : Int) = 2 ^ 62 ∧
    ((NewLeakyBucketLimiter 5 4611686018427387904 0).tryAcquireAll [0]).2.currentLevel = 1 ∧
    ((NewLeakyBucketLimiter 5 4611686018427387904 0).tryAcquireAll
      [0, 3000000000]).2.currentLevel = 4611686018427387905 ∧
    ¬ ((NewLeakyBucketLimiter 5 4611686018427387904 0).tryAcquireAll
      [0, 3000000000]).2.currentLevel ≤ 5 :=
  ⟨by norm_num, by decide, by decide, by decide⟩

/-- C30. Long-run rate of the leaky bucket: for peak `P ≥ 0` (a Go `int`),
velocity `V ≥ 0` and calls at non-decreasing clock readings from the
construction time `T0` on, the admitted calls up to a time `T ≥ T0` number at
most `P + V * floor((T - T0) / 1s)`.  The bound holds also when the product of
the drain wraps around. -/
theorem leaky_rate_bound (P V T0 T : Int) (ts : List Int)
    (hP : 0 ≤ P) (hPmax : P ≤ intMax) (hV : 0 ≤ V)
    (hsorted : ts.Pairwise (fun x y => x ≤ y)) (hT0 : ∀ t ∈ ts, T0 ≤ t) (hT : T0 ≤ T) :
    (((admitted ts ((NewLeakyBucketLimiter P V T0).tryAcquireAll ts).1).filter
      (fun t => decide (t ≤ T))).length : Int) ≤ P + V * ((T - T0) / second) := by
  have h := LeakyBucketLimiter.admitted_bound T ts (NewLeakyBucketLimiter P V T0) hP hPmax hV
    (le_refl _) (by show (0 : Int) ≤ intMax; decide) hT hsorted hT0
  have e : min (NewLeakyBucketLimiter P V T0).currentLevel (NewLeakyBucketLimiter P V T0).peakLevel
      = 0 := min_eq_left hP
  rw [e] at h
  have h2 : (((admitted ts ((NewLeakyBucketLimiter P V T0).tryAcquireAll ts).1).filter
      (fun t => decide (t ≤ T))).length : Int) ≤ P - 0 + V * ((T - T0) / second) := h
  omega

/-- Witness for C30: peak 2, velocity 1, construction at 0; of four calls at 0
and three calls at two seconds, two and two are admitted: four admitted calls
up to `T = 2 s`, the bound being `2 + 1 * 2`. -/
theorem leaky_rate_bound_witness :
    admitted [0, 0, 0, 0, 2000000000, 2000000000, 2000000000]
      ((NewLeakyBucketLimiter 2 1 0).tryAcquireAll
        [0, 0, 0, 0, 2000000000, 2000000000, 2000000000]).1
      = [0, 0, 2000000000, 2000000000] ∧
    (((admitted [0, 0, 0, 0, 2000000000, 2000000000, 2000000000]
      ((NewLeakyBucketLimiter 2 1 0).tryAcquireAll
        [0, 0, 0, 0, 2000000000, 2000000000, 2000000000]).1).filter
      (fun t => decide (t ≤ 2000000000))).length : Int)
      ≤ 2 + 1 * ((2000000000 - 0) / second) :=
  ⟨by decide,
   leaky_rate_bound 2 1 0 2000000000 [0, 0, 0, 0, 2000000000, 2000000000, 2000000000]
     (by decide) (by decide) (by decide) (by decide) (by decide) (by decide)⟩

/-! ## Theorems: charging and nesting of the composite -/

section ChargingLemmas

variable {σ R : Type}

/-- The loop of `Wait` with the world it leaves: on success every member has
been called in the world its predecessors left; on failure the members up to
the failing one have, and their effects stay. -/
theorem waitFrom_charging (ctx : Context) : ∀ (ls : List (RateLimiter σ R)) (i : Nat) (w : σ),
    ((waitFrom ctx i ls w).1.1 = none →
      (waitFrom ctx i ls w).2 = List.range' i ls.length ∧
      (waitFrom ctx i ls w).1.2 = ls.foldl (fun v x => (x.Wait ctx v).2) w) ∧
    (∀ err, (waitFrom ctx i ls w).1.1 = some err →
      ∃ a m b, ls = a ++ m :: b ∧
        (m.Wait ctx (a.foldl (fun v x => (x.Wait ctx v).2) w)).1 = some err ∧
        (waitFrom ctx i ls w).1.2 = (m.Wait ctx (a.foldl (fun v x => (x.Wait ctx v).2) w)).2 ∧
        (waitFrom ctx i ls w).2 = List.range' i (a.length + 1)) := by
  intro ls
  induction ls with
  | nil =>
    intro i w
    exact ⟨fun _ => ⟨rfl, rfl⟩, fun err h => Option.noConfusion h⟩
  | cons x rest ih =>
    intro i w
    rw [waitFrom_cons]
    cases hx : (x.Wait ctx w).1 with
    | some e =>
      refine ⟨fun h => Option.noConfusion h, ?_⟩
      intro err herr
      refine ⟨[], x, rest, rfl, ?_, rfl, rfl⟩
      rw [← Option.some.inj herr]
      exact hx
    | none =>
      obtain ⟨ih1, ih2⟩ := ih (i + 1) (x.Wait ctx w).2
      refine ⟨?_, ?_⟩
      · intro h
        obtain ⟨r1, r2⟩ := ih1 h
        refine ⟨?_, r2⟩
        show i :: (waitFrom ctx (i + 1) rest (x.Wait ctx w).2).2 = _
        rw [r1]
        rfl
      · intro err herr
        obtain ⟨a, m, b, hsplit, hm, hw, hinv⟩ := ih2 err herr
        refine ⟨x :: a, m, b, by rw [hsplit]; rfl, hm, hw, ?_⟩
        show i :: (waitFrom ctx (i + 1) rest (x.Wait ctx w).2).2 = _
        rw [hinv]
        rfl

theorem count_range_of_lt (n i : Nat) (h : i < n) : (List.range n).count i = 1 :=
  List.count_eq_one_of_mem (List.nodup_range n) (List.mem_range.mpr h)

theorem count_range_of_ge (n i : Nat) (h : n ≤ i) : (List.range n).count i = 0 :=
  List.count_eq_zero_of_not_mem (fun hm => absurd (List.mem_range.mp hm) (by omega))

end ChargingLemmas

/-- C26. Charging of the composite.  When `Wait` returns nil, the `Wait` of
every stored member has been called exactly once, each in the world its
predecessors left.  When it returns an error, that is the error of the member
at some position `k`: the members at the positions up to `k` have been called
exactly once, the members after `k` not at all, and the world is the one the
calls up to `k` left: what the members before `k` took stays taken. -/
theorem multiLimiter_charging {σ R : Type} (l : multiLimiter σ R) (ctx : Context) (w : σ) :
    ((l.Wait ctx w).1.1 = none →
      (∀ i, i < l.limiters.length → (l.Wait ctx w).2.count i = 1) ∧
      (l.Wait ctx w).2.length = l.limiters.length ∧
      (l.Wait ctx w).1.2 = l.limiters.foldl (fun v x => (x.Wait ctx v).2) w) ∧
    (∀ err, (l.Wait ctx w).1.1 = some err →
      ∃ a m b, l.limiters = a ++ m :: b ∧
        (m.Wait ctx (a.foldl (fun v x => (x.Wait ctx v).2) w)).1 = some err ∧
        (∀ i, i ≤ a.length → (l.Wait ctx w).2.count i = 1) ∧
        (∀ i, a.length < i → (l.Wait ctx w).2.count i = 0) ∧
        (l.Wait ctx w).1.2
          = (m.Wait ctx (a.foldl (fun v x => (x.Wait ctx v).2) w)).2) := by
  obtain ⟨h1, h2⟩ := waitFrom_charging ctx l.limiters 0 w
  refine ⟨fun h => ?_, fun err herr => ?_⟩
  · obtain ⟨r1, r2⟩ := h1 h
    have r3 : (l.Wait ctx w).2 = List.range l.limiters.length := by
      rw [List.range_eq_range']
      exact r1
    refine ⟨fun i hi => ?_, ?_, r2⟩
    · rw [r3]
      exact count_range_of_lt _ i hi
    · rw [r3, List.length_range]
  · obtain ⟨a, m, b, hsplit, hm, hw, hinv⟩ := h2 err herr
    have r3 : (l.Wait ctx w).2 = List.range (a.length + 1) := by
      rw [List.range_eq_range']
      exact hinv
    refine ⟨a, m, b, hsplit, hm, fun i hi => ?_, fun i hi => ?_, hw⟩
    · rw [r3]
      exact count_range_of_lt _ i (by omega)
    · rw [r3]
      exact count_range_of_ge _ i (by omega)

/-- Witness for C26: a member that takes one unit from the world and lets the
call through, before a member that takes ten and fails.  The composite returns
the error of the second; both were called once, and the unit the first took
stays taken. -/
theorem multiLimiter_charging_witness :
    ((MultiLimiter [(RateLimiter.mk (fun _ w => (none, w + 1)) 1 : RateLimiter Nat Nat),
        RateLimiter.mk (fun _ w => (some GoError.canceled, w + 10)) 2]).Wait liveCtx 0).1
      = (some GoError.canceled, 11) ∧
    ∃ a m b,
      (MultiLimiter [(RateLimiter.mk (fun _ w => (none, w + 1)) 1 : RateLimiter Nat Nat),
        RateLimiter.mk (fun _ w => (some GoError.canceled, w + 10)) 2]).limiters
        = a ++ m :: b ∧
      (m.Wait liveCtx (a.foldl (fun v x => (x.Wait liveCtx v).2) 0)).1
        = some GoError.canceled :=
  ⟨rfl,
   ((multiLimiter_charging
      (MultiLimiter [(RateLimiter.mk (fun _ w => (none, w + 1)) 1 : RateLimiter Nat Nat),
        RateLimiter.mk (fun _ w => (some GoError.canceled, w + 10)) 2]) liveCtx 0).2
      GoError.canceled rfl).imp
     (fun _ h => h.imp (fun _ h2 => h2.imp (fun _ h3 => ⟨h3.1, h3.2.1⟩)))⟩

section NestingLemmas

variable {σ R : Type}

/-- The result of the loop does not depend on the position it counts from. -/
theorem waitFrom_index (ctx : Context) : ∀ (ls : List (RateLimiter σ R)) (i j : Nat) (w : σ),
    (waitFrom ctx i ls w).1 = (waitFrom ctx j ls w).1 := by
  intro ls
  induction ls with
  | nil => intro i j w; rfl
  | cons x rest ih =>
    intro i j w
    rw [waitFrom_cons, waitFrom_cons]
    cases hx : (x.Wait ctx w).1 with
    | some e => rfl
    | none => exact ih (i + 1) (j + 1) (x.Wait ctx w).2

/-- The loop over `a ++ b`: the loop over `a`, and after its success the loop
over `b`. -/
theorem waitFrom_append (ctx : Context) (b : List (RateLimiter σ R)) :
    ∀ (a : List (RateLimiter σ R)) (i j : Nat) (w : σ),
    (waitFrom ctx i (a ++ b) w).1
      = match (waitFrom ctx i a w).1.1 with
        | some _ => (waitFrom ctx i a w).1
        | none => (waitFrom ctx j b (waitFrom ctx i a w).1.2).1 := by
  intro a
  induction a with
  | nil =>
    intro i j w
    exact waitFrom_index ctx b i j w
  | cons x rest ih =>
    intro i j w
    rw [List.cons_append, waitFrom_cons, waitFrom_cons]
    cases hx : (x.Wait ctx w).1 with
    | some e => rfl
    | none => exact ih (i + 1) j (x.Wait ctx w).2

/-- A member whose `Wait` is the loop over `zs` can be replaced by `zs`. -/
theorem waitFrom_inline (ctx : Context) (zs b : List (RateLimiter σ R)) (inner : RateLimiter σ R)
    (hinner : ∀ w, inner.Wait ctx w = (waitFrom ctx 0 zs w).1) :
    ∀ (a : List (RateLimiter σ R)) (i : Nat) (w : σ),
    (waitFrom ctx i (a ++ inner :: b) w).1 = (waitFrom ctx i (a ++ (zs ++ b)) w).1 := by
  intro a
  induction a with
  | nil =>
    intro i w
    rw [List.nil_append, List.nil_append, waitFrom_cons, waitFrom_append ctx b zs i (i + 1) w,
      hinner w, waitFrom_index ctx zs i 0 w]
    generalize (waitFrom ctx 0 zs w).1 = r
    obtain ⟨e, v⟩ := r
    cases e <;> rfl
  | cons x rest ih =>
    intro i w
    rw [List.cons_append, List.cons_append, waitFrom_cons, waitFrom_cons]
    cases hx : (x.Wait ctx w).1 with
    | some e => rfl
    | none => exact ih (i + 1) (x.Wait ctx w).2

theorem orderedInsert_split {α : Type} (r : α → α → Prop) [DecidableRel r] (a : α)
    (l : List α) : ∃ l1 l2, l = l1 ++ l2 ∧ l.orderedInsert r a = l1 ++ a :: l2 :=
  ⟨l.takeWhile (fun b => ¬ r a b), l.dropWhile (fun b => ¬ r a b),
    (List.takeWhile_append_dropWhile _ l).symm, List.orderedInsert_eq_take_drop r a l⟩

/-- The loop over members with the ghost log: on success the log has grown by
the numbers of the members in the order of the calls. -/
theorem waitFrom_logged (ctx : Context) : ∀ (q : List (Nat × RateLimiter σ R)) (i : Nat)
    (w : σ × List Nat),
    (waitFrom ctx i (q.map (fun e => e.2.logged e.1)) w).1.1 = none →
    (waitFrom ctx i (q.map (fun e => e.2.logged e.1)) w).1.2.2 = w.2 ++ q.map Prod.fst := by
  intro q
  induction q with
  | nil =>
    intro i w _
    simp [waitFrom]
  | cons e rest ih =>
    intro i w h
    rw [List.map_cons, waitFrom_cons] at h ⊢
    cases hx : ((e.2.logged e.1).Wait ctx w).1 with
    | some err =>
      rw [hx] at h
      exact Option.noConfusion h
    | none =>
      rw [hx] at h
      have := ih (i + 1) ((e.2.logged e.1).Wait ctx w).2 h
      show (waitFrom ctx (i + 1) _ ((e.2.logged e.1).Wait ctx w).2).1.2.2 = _
      rw [this]
      show (w.2 ++ [e.1]) ++ _ = _
      simp

variable [LinearOrder R]

theorem asRateLimiter_ok (xs : List (RateLimiter σ R)) (hne : xs ≠ []) :
    ∃ inner, ∃ m ∈ xs, (∀ x ∈ xs, m.Limit ≤ x.Limit) ∧
      (MultiLimiter xs).asRateLimiter = GoResult.ok inner ∧ inner.Limit = m.Limit ∧
      ∀ ctx w, inner.Wait ctx w = ((MultiLimiter xs).Wait ctx w).1 := by
  obtain ⟨m, hm, hl, hmin⟩ := sorted_head_min xs (MultiLimiter xs).limiters hne
    (multiLimiter_perm xs) ((multiLimiter_sorted xs).imp (fun h => not_lt.mpr h))
  have hl2 : (MultiLimiter xs).Limit = GoResult.ok m.Limit := hl
  refine ⟨RateLimiter.mk (fun ctx w => ((MultiLimiter xs).Wait ctx w).1) m.Limit, m, hm, hmin,
    ?_, rfl, fun _ _ => rfl⟩
  unfold multiLimiter.asRateLimiter
  rw [hl2]

/-- The nested composite is the loop over the leaves: those of the inner
composite in its own order, at the place where the outer sort puts it. -/
theorem nested_flatten (xs ys : List (RateLimiter σ R)) (inner : RateLimiter σ R)
    (hinner : ∀ ctx w, inner.Wait ctx w = ((MultiLimiter xs).Wait ctx w).1) :
    ∃ q1 q2, (MultiLimiter ys).limiters = q1 ++ q2 ∧
      ∀ ctx w, ((MultiLimiter (inner :: ys)).Wait ctx w).1
        = (waitFrom ctx 0 (q1 ++ ((MultiLimiter xs).limiters ++ q2)) w).1 := by
  obtain ⟨q1, q2, h1, h2⟩ := orderedInsert_split limitBefore inner (MultiLimiter ys).limiters
  refine ⟨q1, q2, h1, fun ctx w => ?_⟩
  have e : (MultiLimiter (inner :: ys)).limiters = q1 ++ inner :: q2 := h2
  show (waitFrom ctx 0 (MultiLimiter (inner :: ys)).limiters w).1 = _
  rw [e]
  exact waitFrom_inline ctx (MultiLimiter xs).limiters q2 inner (hinner ctx) q1 0 w

/-- The nested composite is the loop over a permutation of all leaves. -/
theorem nested_leaves (xs ys : List (RateLimiter σ R)) (inner : RateLimiter σ R)
    (hinner : ∀ ctx w, inner.Wait ctx w = ((MultiLimiter xs).Wait ctx w).1) :
    ∃ p, p.Perm (xs ++ ys) ∧
      ∀ ctx w, ((MultiLimiter (inner :: ys)).Wait ctx w).1 = (waitFrom ctx 0 p w).1 := by
  obtain ⟨q1, q2, h1, h2⟩ := nested_flatten xs ys inner hinner
  refine ⟨q1 ++ ((MultiLimiter xs).limiters ++ q2), ?_, h2⟩
  have hy : (q1 ++ q2).Perm ys := by
    rw [← h1]
    exact multiLimiter_perm ys
  exact (List.perm_append_comm_assoc _ _ _).trans ((multiLimiter_perm xs).append hy)

omit [LinearOrder R] in
/-- A permutation of a list of images is the list of images of a
permutation. -/
theorem perm_map_lift {α β : Type} (f : α → β) {l1 l2 : List β} (h : l1.Perm l2) :
    ∀ q0 : List α, l2 = q0.map f → ∃ q : List α, q.Perm q0 ∧ l1 = q.map f := by
  induction h with
  | nil =>
    intro q0 h0
    exact ⟨q0, List.Perm.refl _, h0⟩
  | cons x _ ih =>
    intro q0 h0
    cases q0 with
    | nil => exact absurd h0 (by simp)
    | cons a q0 =>
      simp only [List.map_cons, List.cons.injEq] at h0
      obtain ⟨q, hq, he⟩ := ih q0 h0.2
      exact ⟨a :: q, hq.cons a, by rw [h0.1, he]; rfl⟩
  | swap x y l =>
    intro q0 h0
    cases q0 with
    | nil => exact absurd h0 (by simp)
    | cons a q0 =>
      cases q0 with
      | nil => exact absurd h0 (by simp)
      | cons b q0 =>
        simp only [List.map_cons, List.cons.injEq] at h0
        exact ⟨b :: a :: q0, List.Perm.swap a b q0, by rw [h0.1, h0.2.1, h0.2.2]; rfl⟩
  | trans _ _ ih1 ih2 =>
    intro q0 h0
    obtain ⟨q2, hq2, he2⟩ := ih2 q0 h0
    obtain ⟨q1, hq1, he1⟩ := ih1 q2 he2
    exact ⟨q1, hq1.trans hq2, he1⟩

end NestingLemmas

/-- C28. Nested composites.  For members `xs`, not none, and members `ys`:
the composite of `xs` is a `RateLimiter`, and the composite built from it and
`ys` has the same `Limit()` as the composite built from all leaves at once,
the least `Limit()` of a leaf; its `Wait` is the loop of `Wait` over some
permutation of the leaves.  With a ghost log of the calls of the leaves: after
a successful `Wait` of the nested composite the log holds every leaf exactly
once. -/
theorem multiLimiter_nested {σ R : Type} [LinearOrder R] (xs ys : List (RateLimiter σ R))
    (hne : xs ≠ []) :
    (∃ inner, (MultiLimiter xs).asRateLimiter = GoResult.ok inner ∧
      (MultiLimiter (inner :: ys)).Limit = (MultiLimiter (xs ++ ys)).Limit ∧
      (∃ m ∈ xs ++ ys, (MultiLimiter (inner :: ys)).Limit = GoResult.ok m.Limit ∧
        ∀ x ∈ xs ++ ys, m.Limit ≤ x.Limit) ∧
      (∃ p, p.Perm (xs ++ ys) ∧ ∀ ctx w,
        ((MultiLimiter (inner :: ys)).Wait ctx w).1 = (waitFrom ctx 0 p w).1)) ∧
    (∃ inner, (MultiLimiter (loggedFrom 0 xs)).asRateLimiter = GoResult.ok inner ∧
      ∀ ctx w,
        ((MultiLimiter (inner :: loggedFrom xs.length ys)).Wait ctx (w, [])).1.1 = none →
        (((MultiLimiter (inner :: loggedFrom xs.length ys)).Wait ctx (w, [])).1.2.2).Perm
          (List.range (xs.length + ys.length))) := by
  constructor
  · obtain ⟨inner, m0, hm0, hmin0, has, hlim, hwait⟩ := asRateLimiter_ok xs hne
    refine ⟨inner, has, ?_⟩
    obtain ⟨m1, hm1, hl1, hmin1⟩ := sorted_head_min (inner :: ys)
      (MultiLimiter (inner :: ys)).limiters (by simp)
      (multiLimiter_perm _) ((multiLimiter_sorted _).imp (fun h => not_lt.mpr h))
    obtain ⟨m2, hm2, hl2, hmin2⟩ := sorted_head_min (xs ++ ys)
      (MultiLimiter (xs ++ ys)).limiters (by simp [hne])
      (multiLimiter_perm _) ((multiLimiter_sorted _).imp (fun h => not_lt.mpr h))
    have hl1b : (MultiLimiter (inner :: ys)).Limit = GoResult.ok m1.Limit := hl1
    have hl2b : (MultiLimiter (xs ++ ys)).Limit = GoResult.ok m2.Limit := hl2
    have heq : m1.Limit = m2.Limit := by
      apply le_antisymm
      · rcases List.mem_append.mp hm2 with h | h
        · have h1 := hmin1 inner (List.mem_cons_self _ _)
          rw [hlim] at h1
          exact le_trans h1 (hmin0 m2 h)
        · exact hmin1 m2 (List.mem_cons_of_mem _ h)
      · rcases List.mem_cons.mp hm1 with h | h
        · rw [h, hlim]
          exact hmin2 m0 (List.mem_append_left _ hm0)
        · exact hmin2 m1 (List.mem_append_right _ h)
    refine ⟨by rw [hl1b, hl2b, heq], ⟨m2, hm2, by rw [hl1b, heq], hmin2⟩, ?_⟩
    exact nested_leaves xs ys inner hwait
  · have hne2 : loggedFrom 0 xs ≠ ([] : List (RateLimiter (σ × List Nat) R)) := by
      cases xs with
      | nil => exact absurd rfl hne
      | cons x rest => simp [loggedFrom, List.enumFrom]
    obtain ⟨inner, _, _, _, has, _, hwait⟩ := asRateLimiter_ok (loggedFrom 0 xs) hne2
    refine ⟨inner, has, ?_⟩
    intro ctx w hok
    obtain ⟨p, hp, hw⟩ := nested_leaves (loggedFrom 0 xs) (loggedFrom xs.length ys) inner hwait
    have hall : loggedFrom 0 xs ++ loggedFrom xs.length ys
        = (xs.enumFrom 0 ++ ys.enumFrom xs.length).map
            (fun e : Nat × RateLimiter σ R => e.2.logged e.1) := by
      rw [List.map_append]
      rfl
    obtain ⟨q, hq, he⟩ := perm_map_lift _ hp _ hall
    rw [hw ctx (w, [])] at hok ⊢
    rw [he] at hok ⊢
    rw [waitFrom_logged ctx q 0 (w, []) hok]
    have hfst : ((xs.enumFrom 0 ++ ys.enumFrom xs.length).map Prod.fst)
        = List.range (xs.length + ys.length) := by
      rw [List.map_append, List.enumFrom_map_fst, List.enumFrom_map_fst,
        List.range_eq_range']
      have := List.range'_append 0 xs.length ys.length 1
      simp only [Nat.one_mul, Nat.zero_add] at this
      rw [this, Nat.add_comm]
    rw [← hfst]
    exact (hq.map Prod.fst)

/-- Witness for C28: leaves with the rates 5 and 1 nested, and a leaf with the
rate 3 beside them: the limit is 1. -/
theorem multiLimiter_nested_witness :
    [(RateLimiter.mk (fun _ w => (none, w)) 5 : RateLimiter Unit Nat),
      RateLimiter.mk (fun _ w => (none, w)) 1] ≠ [] ∧
    (MultiLimiter ([(RateLimiter.mk (fun _ w => (none, w)) 5 : RateLimiter Unit Nat),
      RateLimiter.mk (fun _ w => (none, w)) 1]
      ++ [RateLimiter.mk (fun _ w => (none, w)) 3])).Limit = GoResult.ok 1 ∧
    ∃ inner,
      (MultiLimiter [(RateLimiter.mk (fun _ w => (none, w)) 5 : RateLimiter Unit Nat),
        RateLimiter.mk (fun _ w => (none, w)) 1]).asRateLimiter = GoResult.ok inner ∧
      (MultiLimiter (inner :: [RateLimiter.mk (fun _ w => (none, w)) 3])).Limit
        = (MultiLimiter ([(RateLimiter.mk (fun _ w => (none, w)) 5 : RateLimiter Unit Nat),
            RateLimiter.mk (fun _ w => (none, w)) 1]
            ++ [RateLimiter.mk (fun _ w => (none, w)) 3])).Limit :=
  ⟨by simp, rfl,
   (multiLimiter_nested
      [(RateLimiter.mk (fun _ w => (none, w)) 5 : RateLimiter Unit Nat),
        RateLimiter.mk (fun _ w => (none, w)) 1]
      [RateLimiter.mk (fun _ w => (none, w)) 3] (by simp)).1.imp
     (fun _ h => ⟨h.1, h.2.1⟩)⟩

/-! ## Theorems: the sliding log with one strategy is the sliding window -/

section RefinementLemmas

/-- The `range` loop of the sliding log with one strategy is the `range` loop
of the sliding window. -/
theorem sweep_single (st : Int) (m : Counters) : ∀ cnt : Int,
    SlidingLogLimiter.sweep [st] m [cnt]
      = ((SlidingWindowLimiter.sweep st m cnt).1, [(SlidingWindowLimiter.sweep st m cnt).2]) := by
  induction m with
  | nil => intro cnt; rfl
  | cons e rest ih =>
    intro cnt
    obtain ⟨k, c⟩ := e
    unfold SlidingLogLimiter.sweep SlidingWindowLimiter.sweep
    by_cases h : k < st
    · have h2 : k < [st].headD 0 := h
      rw [if_pos h, if_pos h2, ih]
    · have h2 : ¬ k < [st].headD 0 := h
      have hb : SlidingLogLimiter.bump [st] k c [cnt] = [wrapInt (cnt + c)] := by
        unfold SlidingLogLimiter.bump
        simp only [List.zipWith_cons_cons, List.zipWith_nil_right, ge_iff_le]
        rw [if_pos (not_lt.mp h)]
      rw [if_neg h, if_neg h2, hb, ih]

theorem matches_step (ll : SlidingLogLimiter) (lw : SlidingWindowLimiter) (now : Int)
    (h : Matches ll lw) :
    (ll.TryAcquire now).1
      = (if (lw.TryAcquire now).1 = true then none
         else some { Limit := lw.limit, Window := lw.window }) ∧
    Matches (ll.TryAcquire now).2 (lw.TryAcquire now).2 := by
  obtain ⟨h1, h2, h3⟩ := h
  unfold SlidingLogLimiter.TryAcquire SlidingWindowLimiter.TryAcquire
  simp only [h1, h2, h3, List.map_cons, List.map_nil, List.length_singleton,
    List.replicate_one, sweep_single]
  by_cases hc : lw.limit ≤ (SlidingWindowLimiter.sweep
      (goSub (goMul (goDiv now lw.smallWindow) lw.smallWindow)
        (goMul lw.smallWindow (goSub lw.smallWindows 1))) lw.counters 0).2
  · simp only [SlidingLogLimiter.firstViolation, ge_iff_le, if_pos hc]
    exact ⟨by simp, rfl, rfl, rfl⟩
  · simp only [SlidingLogLimiter.firstViolation, ge_iff_le, if_neg hc]
    exact ⟨by simp, rfl, rfl, rfl⟩

theorem matches_run (ts : List Int) : ∀ (ll : SlidingLogLimiter) (lw : SlidingWindowLimiter),
    Matches ll lw →
    (ll.tryAcquireAll ts).1
      = (lw.tryAcquireAll ts).1.map (fun ok => if ok = true then none
          else some { Limit := lw.limit, Window := lw.window }) ∧
    Matches (ll.tryAcquireAll ts).2 (lw.tryAcquireAll ts).2 := by
  induction ts with
  | nil =>
    intro ll lw h
    exact ⟨rfl, h⟩
  | cons t ts ih =>
    intro ll lw h
    obtain ⟨s1, s2⟩ := matches_step ll lw t h
    obtain ⟨i1, i2⟩ := ih (ll.TryAcquire t).2 (lw.TryAcquire t).2 s2
    obtain ⟨f1, f2, _, _⟩ := lw.tryAcquire_fields t
    rw [f1, f2] at i1
    rw [SlidingLogLimiter.slidingLog_tryAcquireAll_cons,
      SlidingWindowLimiter.slidingWindow_tryAcquireAll_cons]
    refine ⟨?_, i2⟩
    rw [List.map_cons, s1, i1]

end RefinementLemmas

/-- C27. The sliding log with one strategy is the sliding window.  For
`smallWindow > 0` and `window` a multiple of it, both constructors return a
limiter; for every sequence of clock readings the log built with the single
strategy `(limit, window)` returns nil exactly on the calls on which the
window built with `(limit, window, smallWindow)` returns true (and the error
naming `limit` and `window` on the others), and after the calls the two
counter maps are equal. -/
theorem slidingLog_generalises (limit window smallWindow : Int) (hsw : 0 < smallWindow)
    (hdiv : smallWindow ∣ window) :
    ∃ ll lw,
      NewSlidingLogLimiter smallWindow [NewSlidingLogLimiterStrategy limit window]
        = GoResult.ok ll ∧
      NewSlidingWindowLimiter limit window smallWindow = GoResult.ok lw ∧
      ∀ ts : List Int,
        (ll.tryAcquireAll ts).1
          = (lw.tryAcquireAll ts).1.map (fun ok => if ok = true then none
              else some { Limit := limit, Window := window }) ∧
        (ll.tryAcquireAll ts).1.map Option.isNone = (lw.tryAcquireAll ts).1 ∧
        (ll.tryAcquireAll ts).2.counters = (lw.tryAcquireAll ts).2.counters := by
  have hne : smallWindow ≠ 0 := by omega
  have hmod : goMod window smallWindow = 0 := (goMod_eq_zero_iff _ _).mpr hdiv
  refine ⟨SlidingLogLimiter.mk
      [SlidingLogLimiterStrategy.mk limit window (goDiv window smallWindow)] smallWindow [],
    SlidingWindowLimiter.mk limit window smallWindow (goDiv window smallWindow) [],
    ?_, ?_, ?_⟩
  · unfold NewSlidingLogLimiter
    simp [sortStrategies, checkStrategies, NewSlidingLogLimiterStrategy, hne, hmod]
  · unfold NewSlidingWindowLimiter
    simp [hne, hmod]
  · intro ts
    obtain ⟨h1, h2⟩ := matches_run ts
      (SlidingLogLimiter.mk
        [SlidingLogLimiterStrategy.mk limit window (goDiv window smallWindow)] smallWindow [])
      (SlidingWindowLimiter.mk limit window smallWindow (goDiv window smallWindow) [])
      ⟨rfl, rfl, rfl⟩
    refine ⟨h1, ?_, h2.2.2⟩
    rw [h1, List.map_map]
    conv_rhs => rw [← List.map_id (SlidingWindowLimiter.tryAcquireAll _ ts).1]
    apply List.map_congr_left
    intro b _
    cases b <;> rfl

/-- Witness for C27: limit 2, window 10, sub-window 5 and calls at 0, 1, 2, 7,
12: both limiters let the first two calls in, refuse the third and the fourth
and let the fifth in, and end with the same map. -/
theorem slidingLog_generalises_witness :
    (0 : Int) < 5 ∧ (5 : Int) ∣ 10 ∧
    ∃ ll lw,
      NewSlidingLogLimiter 5 [NewSlidingLogLimiterStrategy 2 10] = GoResult.ok ll ∧
      NewSlidingWindowLimiter 2 10 5 = GoResult.ok lw ∧
      (lw.tryAcquireAll [0, 1, 2, 7, 12]).1 = [true, true, false, false, true] ∧
      (ll.tryAcquireAll [0, 1, 2, 7, 12]).1.map Option.isNone
        = (lw.tryAcquireAll [0, 1, 2, 7, 12]).1 ∧
      (ll.tryAcquireAll [0, 1, 2, 7, 12]).2.counters
        = (lw.tryAcquireAll [0, 1, 2, 7, 12]).2.counters := by
  refine ⟨by decide, by decide, ?_⟩
  obtain ⟨ll, lw, h1, h2, h3⟩ := slidingLog_generalises 2 10 5 (by decide) (by decide)
  refine ⟨ll, lw, h1, h2, ?_, (h3 _).2.1, (h3 _).2.2⟩
  have e : lw = SlidingWindowLimiter.mk 2 10 5 2 [] := by
    have h4 : NewSlidingWindowLimiter 2 10 5
        = GoResult.ok (SlidingWindowLimiter.mk 2 10 5 2 []) := rfl
    rw [h4] at h2
    exact (GoResult.ok.inj h2).symm
  rw [e]
  decide

/-! ## Theorems: quota of the sliding window -/

section QuotaLemmas

theorem Counters.sumFrom_filter (m : Counters) (a start : Int) (h : start ≤ a) :
    Counters.sumFrom (m.filter (fun e => decide (start ≤ e.1))) a = Counters.sumFrom m a := by
  unfold Counters.sumFrom
  rw [List.filter_filter]
  congr 2
  apply List.filter_congr
  intro e _
  by_cases h1 : a ≤ e.1
  · have h2 : start ≤ e.1 := le_trans h h1
    simp [h1, h2]
  · simp [h1]

theorem Counters.sumFrom_le (m : Counters) (a start : Int) (h : start ≤ a)
    (hn : ∀ e ∈ m, 0 ≤ e.2) :
    0 ≤ Counters.sumFrom m a ∧ Counters.sumFrom m a ≤ Counters.sumFrom m start := by
  have h1 := SlidingWindowLimiter.sum_filter_le (m.filter (fun e => decide (start ≤ e.1)))
    (fun e => decide (a ≤ e.1)) (fun e he => hn e (List.mem_filter.mp he).1)
  have h2 := Counters.sumFrom_filter m a start h
  unfold Counters.sumFrom at h2 ⊢
  rw [h2] at h1
  exact h1

theorem Counters.filter_incr (m : Counters) (a k : Int) :
    (Counters.incr m k).filter (fun e => decide (a ≤ e.1))
      = if a ≤ k then Counters.incr (m.filter (fun e => decide (a ≤ e.1))) k
        else m.filter (fun e => decide (a ≤ e.1)) := by
  induction m with
  | nil =>
    by_cases h : a ≤ k
    · simp [Counters.incr, h]
    · simp [Counters.incr, h]
  | cons e rest ih =>
    obtain ⟨k1, c⟩ := e
    rw [Counters.incr_cons]
    by_cases hk : k1 = k
    · subst hk
      rw [if_pos rfl]
      by_cases h : a ≤ k1
      · rw [if_pos h, List.filter_cons_of_pos (by simpa using h),
          List.filter_cons_of_pos (by simpa using h), Counters.incr_cons, if_pos rfl]
      · rw [if_neg h, List.filter_cons_of_neg (by simpa using h),
          List.filter_cons_of_neg (by simpa using h)]
    · rw [if_neg hk]
      by_cases h1 : a ≤ k1
      · rw [List.filter_cons_of_pos (by simpa using h1), ih,
          List.filter_cons_of_pos (by simpa using h1)]
        by_cases h : a ≤ k
        · rw [if_pos h, if_pos h, Counters.incr_cons, if_neg hk]
        · rw [if_neg h, if_neg h]
      · rw [List.filter_cons_of_neg (by simpa using h1), ih,
          List.filter_cons_of_neg (by simpa using h1)]

/-- Without overflow `m[k]++` adds one to the sum from `a` on when `a ≤ k`,
and nothing otherwise. -/
theorem Counters.sumFrom_incr (m : Counters) (a k : Int) (hn : ∀ e ∈ m, 0 ≤ e.2)
    (hs : (m.map Prod.snd).sum < intMax) :
    Counters.sumFrom (Counters.incr m k) a
      = Counters.sumFrom m a + (if a ≤ k then 1 else 0) := by
  unfold Counters.sumFrom
  rw [Counters.filter_incr]
  by_cases h : a ≤ k
  · rw [if_pos h, if_pos h]
    have h1 := SlidingWindowLimiter.sum_filter_le m (fun e => decide (a ≤ e.1)) hn
    exact (Counters.sum_incr (m.filter (fun e => decide (a ≤ e.1))) k
      (fun e he => hn e (List.mem_filter.mp he).1) (by omega)).1
  · rw [if_neg h, if_neg h, add_zero]

namespace SlidingWindowLimiter

/-- One call and the sum from a threshold `a` that is not older than the
window start: an admitted call found less than `limit` there and adds one if
its sub-window is at or after `a`; a refused call leaves the sum as it was. -/
theorem tryAcquire_sumFrom (l : SlidingWindowLimiter) (now a : Int) (hwf : l.WF)
    (h0 : 0 ≤ now) (hmax : now ≤ intMax)
    (ha : now / l.smallWindow * l.smallWindow - l.smallWindow * (l.smallWindows - 1) ≤ a) :
    ((l.TryAcquire now).1 = true →
      Counters.sumFrom l.counters a < l.limit ∧
      Counters.sumFrom (l.TryAcquire now).2.counters a
        = Counters.sumFrom l.counters a
          + (if a ≤ now / l.smallWindow * l.smallWindow then 1 else 0)) ∧
    ((l.TryAcquire now).1 = false →
      Counters.sumFrom (l.TryAcquire now).2.counters a = Counters.sumFrom l.counters a) := by
  obtain ⟨hcfg, hlim, hnd, hnn, hsum⟩ := hwf
  have hu := l.tryAcquire_unfold now _ _ hcfg h0 hmax rfl rfl
  have hsw := SlidingWindowLimiter.sweep_snd
    (now / l.smallWindow * l.smallWindow - l.smallWindow * (l.smallWindows - 1))
    l.counters 0 (le_refl _) hnn (by omega)
  rw [zero_add] at hsw
  have hle := Counters.sumFrom_le l.counters a _ ha hnn
  have hfl := SlidingWindowLimiter.sum_filter_le l.counters (fun e => decide
    (now / l.smallWindow * l.smallWindow - l.smallWindow * (l.smallWindows - 1) ≤ e.1)) hnn
  by_cases hc : (sweep
      (now / l.smallWindow * l.smallWindow - l.smallWindow * (l.smallWindows - 1))
      l.counters 0).2 ≥ l.limit
  · rw [if_pos hc] at hu
    rw [hu]
    refine ⟨fun h => Bool.noConfusion h, fun _ => ?_⟩
    exact Counters.sumFrom_filter l.counters a _ ha
  · rw [if_neg hc] at hu
    rw [hu]
    refine ⟨fun _ => ⟨?_, ?_⟩, fun h => Bool.noConfusion h⟩
    · rw [hsw] at hc
      unfold Counters.sumFrom at hle
      unfold Counters.sumFrom
      omega
    · show Counters.sumFrom (Counters.incr _ _) a = _
      rw [Counters.sumFrom_incr _ a _ (fun e he => hnn e (List.mem_filter.mp he).1)
        (by
          rw [hsw] at hc
          unfold IsInt intMin at hlim
          unfold intMax at hlim ⊢
          omega),
        Counters.sumFrom_filter l.counters a _ ha]

/-- The quota for the calls still to come, for each run of `smallWindows`
consecutive sub-windows starting at sub-window number `j`: the admitted calls
in the run, together with the counts from `j * smallWindow` on, do not exceed
the limit, unless those counts alone do. -/
theorem quota_bounds (j : Int) (ts : List Int) :
    ∀ l : SlidingWindowLimiter, l.WF →
      ts.Pairwise (fun x y => x ≤ y) → (∀ t ∈ ts, 0 ≤ t ∧ t ≤ intMax) →
      (((admitted ts (l.tryAcquireAll ts).1).filter
          (fun t => decide (j ≤ t / l.smallWindow ∧ t / l.smallWindow < j + l.smallWindows))).length
            : Int)
        + Counters.sumFrom l.counters (j * l.smallWindow)
        ≤ max l.limit (Counters.sumFrom l.counters (j * l.smallWindow)) := by
  induction ts with
  | nil =>
    intro l _ _ _
    simp only [admitted_nil, List.filter_nil, List.length_nil, Nat.cast_zero, zero_add]
    exact le_max_right _ _
  | cons t ts ih =>
    intro l hwf hsorted hrange
    obtain ⟨hhead, htail⟩ := List.pairwise_cons.mp hsorted
    obtain ⟨ht0, htmax⟩ := hrange t (List.mem_cons_self _ _)
    have hwf2 := tryAcquire_wf l t hwf ht0 htmax
    obtain ⟨f1, _, f3, f4⟩ := l.tryAcquire_fields t
    have hsw : 0 < l.smallWindow := hwf.1.1
    by_cases hrun : t / l.smallWindow < j + l.smallWindows
    · -- the run has not ended: its first sub-window is not older than the start
      have ha : t / l.smallWindow * l.smallWindow - l.smallWindow * (l.smallWindows - 1)
          ≤ j * l.smallWindow := by
        have h1 : t / l.smallWindow - (l.smallWindows - 1) ≤ j := by omega
        have h2 := mul_le_mul_of_nonneg_right h1 (le_of_lt hsw)
        have h3 : (t / l.smallWindow - (l.smallWindows - 1)) * l.smallWindow
            = t / l.smallWindow * l.smallWindow - l.smallWindow * (l.smallWindows - 1) := by
          ring
        rw [h3] at h2
        exact h2
      obtain ⟨s1, s2⟩ := l.tryAcquire_sumFrom t (j * l.smallWindow) hwf ht0 htmax ha
      have i := ih (l.TryAcquire t).2 hwf2 htail
        (fun x hx => hrange x (List.mem_cons_of_mem _ hx))
      rw [f1, f3, f4] at i
      have hiff : j * l.smallWindow ≤ t / l.smallWindow * l.smallWindow ↔ j ≤ t / l.smallWindow :=
        ⟨fun h => le_of_mul_le_mul_right h hsw,
         fun h => mul_le_mul_of_nonneg_right h (le_of_lt hsw)⟩
      rw [slidingWindow_tryAcquireAll_cons, admitted_cons]
      cases hr : (l.TryAcquire t).1 with
      | true =>
        obtain ⟨s3, s4⟩ := s1 hr
        rw [s4] at i
        rw [if_pos rfl, List.filter_cons]
        by_cases hj : j ≤ t / l.smallWindow
        · rw [if_pos (hiff.mpr hj)] at i
          rw [if_pos (by simpa using ⟨hj, hrun⟩), List.length_cons]
          push_cast
          omega
        · rw [if_neg (fun h => hj (hiff.mp h))] at i
          rw [if_neg (by simpa using fun h => absurd h hj)]
          omega
      | false =>
        rw [s2 hr] at i
        rw [if_neg (by decide)]
        exact i
    · -- the run has ended: no call to come falls into it
      have hz : (admitted (t :: ts) (l.tryAcquireAll (t :: ts)).1).filter
          (fun t => decide (j ≤ t / l.smallWindow ∧ t / l.smallWindow < j + l.smallWindows))
            = [] :=
        admitted_filter_nil _ _ _ (fun x hx => by
          have hx2 : t ≤ x := by
            rcases List.mem_cons.mp hx with h1 | h1
            · rw [h1]
            · exact hhead x h1
          have hx3 : t / l.smallWindow ≤ x / l.smallWindow := Int.ediv_le_ediv hsw hx2
          simp only [decide_eq_false_iff_not, not_and, not_lt]
          intro _
          omega)
      rw [hz]
      simp only [List.length_nil, Nat.cast_zero, zero_add]
      exact le_max_right _ _

end SlidingWindowLimiter

end QuotaLemmas

/-- C29. Quota of the sliding window: for a limiter built with `limit ≥ 0` (a
Go `int`) and `window ≥ smallWindow > 0`, and calls at non-negative,
non-decreasing clock readings, at most `limit` admitted calls have their
sub-window `floor(t / smallWindow)` in a run of `window / smallWindow`
consecutive sub-windows `j, j + 1, ...`, whatever `j` is. -/
theorem slidingWindow_quota (limit window smallWindow : Int) (l0 : SlidingWindowLimiter)
    (ts : List Int) (j : Int)
    (hlimit : 0 ≤ limit) (hlimitMax : limit ≤ intMax) (hsw : 0 < smallWindow)
    (hwin : smallWindow ≤ window) (hmax : window ≤ intMax)
    (hnew : NewSlidingWindowLimiter limit window smallWindow = GoResult.ok l0)
    (hsorted : ts.Pairwise (fun x y => x ≤ y)) (hrange : ∀ t ∈ ts, 0 ≤ t ∧ t ≤ intMax) :
    (((admitted ts (l0.tryAcquireAll ts).1).filter
      (fun t => decide (j ≤ t / smallWindow ∧ t / smallWindow < j + window / smallWindow))).length
        : Int) ≤ limit := by
  obtain ⟨_, c2, c3, _, c5, c6⟩ := SlidingWindowLimiter.new_configured limit window smallWindow
    l0 hsw hwin hmax hnew
  have hwf := SlidingWindowLimiter.new_wf limit window smallWindow l0 hsw hwin hmax
    (by unfold IsInt intMin; unfold intMax at hlimitMax ⊢; omega) hnew
  have h := SlidingWindowLimiter.quota_bounds j ts l0 hwf hsorted hrange
  rw [c2, c3, c5, c6] at h
  have e : Counters.sumFrom [] (j * smallWindow) = 0 := rfl
  rw [e, add_zero, max_eq_left hlimit] at h
  exact h

/-- Witness for C29: limit 2, window 10, sub-window 5 and calls at 0, 1, 2, 7,
12: the calls at 0, 1 and 12 are admitted, and two of them fall into the
sub-windows 0 and 1. -/
theorem slidingWindow_quota_witness :
    admitted [0, 1, 2, 7, 12] ((SlidingWindowLimiter.mk 2 10 5 2 []).tryAcquireAll
      [0, 1, 2, 7, 12]).1 = [0, 1, 12] ∧
    (((admitted [0, 1, 2, 7, 12] ((SlidingWindowLimiter.mk 2 10 5 2 []).tryAcquireAll
      [0, 1, 2, 7, 12]).1).filter
      (fun t => decide ((0 : Int) ≤ t / 5 ∧ t / 5 < 0 + 10 / 5))).length : Int) ≤ 2 :=
  ⟨by decide,
   slidingWindow_quota 2 10 5 (SlidingWindowLimiter.mk 2 10 5 2 []) [0, 1, 2, 7, 12] 0
     (by decide) (by decide) (by decide) (by decide) (by decide) rfl (by decide) (by decide)⟩

end RateLimiters
